import Mathlib

set_option linter.unusedSectionVars false
set_option linter.unusedVariables false

/-!
Shallow embedding of the `rust-skiplist` crate (`src/map.rs`, `src/node.rs`,
`src/iter.rs`, `src/height_control.rs`) and proofs about it.

Modelling conventions:
* The heap is an arena: a `List (Node K V)`; a raw `*mut Node<K, V>` pointer
  is the index of the node in that list, and the null pointer is `none` in an
  `Option Nat`.  Allocation appends at the end; `free` leaves the (now
  unreachable) slot in place, which is observationally equivalent.
* Dereferencing a pointer that is not a live arena index is undefined
  behaviour in the source; the model reads a default node instead
  (`nodeAt`).  The ghost head node's key and value are
  `std::mem::uninitialized()` in the source and are modelled by `default`.
* The `while` loops that follow forward pointers are given explicit fuel
  (the arena size); under the structure invariant the fuel is never
  exhausted.
* `f64` randomness in the height generators is abstracted to the Boolean
  outcome of each comparison, and the global RNG / hasher to explicit
  arguments, so that theorems quantify over every state of the generator's
  internal randomness exactly as the specification does.
-/

namespace SkipVerify

/-- Translation of `struct Node` (`node.rs`): the vector of forward pointers
(one `Option Nat` per level the node was allocated with, `none` being the
null pointer), the key, and the value. -/
structure Node (K V : Type) where
  forward : List (Option Nat)
  key : K
  value : V
deriving Repr, DecidableEq

namespace Node

/-- Translation of `Node::new` (`node.rs`): `height + 1` null forward
pointers. -/
def make (key : K) (value : V) (height : Nat) : Node K V :=
  ⟨List.replicate (height + 1) none, key, value⟩

/-- Translation of `Node::height` (`node.rs`): `forward_.len() - 1`. -/
def height (n : Node K V) : Nat :=
  n.forward.length - 1

/-- Translation of `Node::next` (`node.rs`): `None` if the level is out of
bounds or the pointer at that level is null, otherwise the pointer. -/
def next (n : Node K V) (lvl : Nat) : Option Nat :=
  (n.forward.get? lvl).join

end Node

/-- Translation of `struct SkipListMap` (`map.rs`) together with the arena
holding its nodes.  `head_` is the ghost node's index, `length_`, `height_`
and `maxHeight_` are the corresponding fields. -/
structure SkipListMap (K V : Type) where
  nodes : List (Node K V)
  head_ : Nat
  length_ : Nat
  height_ : Nat
  maxHeight_ : Nat
deriving Repr, DecidableEq

section Defs

variable {K V : Type} [LinearOrder K] [Inhabited K] [Inhabited V]

/-- Dereference a pointer inside an arena; an index outside the arena is UB in
the source and yields the default node here. -/
def nodeA (a : List (Node K V)) (p : Nat) : Node K V :=
  (a.get? p).getD ⟨[], default, default⟩

/-- Dereference a pointer on the map's own arena. -/
def nodeAt (s : SkipListMap K V) (p : Nat) : Node K V :=
  nodeA s.nodes p

/-- Key stored at pointer `p` of an arena. -/
def keyA (a : List (Node K V)) (p : Nat) : K :=
  (nodeA a p).key

/-- Value stored at pointer `p` of an arena. -/
def valA (a : List (Node K V)) (p : Nat) : V :=
  (nodeA a p).value

/-- Allocated height (`Node::height`) of the node at pointer `p` of an
arena. -/
def heightA (a : List (Node K V)) (p : Nat) : Nat :=
  (nodeA a p).height

/-- Key stored at pointer `p`. -/
def keyAt (s : SkipListMap K V) (p : Nat) : K :=
  keyA s.nodes p

/-- Value stored at pointer `p`. -/
def valAt (s : SkipListMap K V) (p : Nat) : V :=
  valA s.nodes p

/-- Allocated height of the node at pointer `p` (`Node::height`). -/
def heightAt (s : SkipListMap K V) (p : Nat) : Nat :=
  heightA s.nodes p

/-- Forward pointer of the node at index `p`, level `lvl`, inside an arena:
`(*p).next(lvl)`. -/
def getForward (arena : List (Node K V)) (p : Nat) (lvl : Nat) : Option Nat :=
  match arena.get? p with
  | none => none
  | some n => n.next lvl

/-- `(*p).next(lvl)` on the map's own arena. -/
def nextPtr (s : SkipListMap K V) (p : Nat) (lvl : Nat) : Option Nat :=
  getForward s.nodes p lvl

/-- Translation of `Node::link_to` / `Node::link_to_next` (`node.rs`): set the
forward pointer of node `p` at level `lvl`.  Writing outside the forward
vector is UB in the source (`get_unchecked_mut`) and a no-op here. -/
def setForward (arena : List (Node K V)) (p : Nat) (lvl : Nat) (v : Option Nat) :
    List (Node K V) :=
  match arena.get? p with
  | none => arena
  | some n => arena.set p { n with forward := n.forward.set lvl v }

/-- Replace the value stored in node `p` (`Node::replace_value`). -/
def setValue (arena : List (Node K V)) (p : Nat) (v : V) : List (Node K V) :=
  match arena.get? p with
  | none => arena
  | some n => arena.set p { n with value := v }

/-- The inner `while let Some(next) = (*current).next(height)` loop of
`find_lower_bound` (`map.rs`): advance while the next node exists and its key
is strictly below `key`.  Fueled; the callers pass the arena size. -/
def advance (s : SkipListMap K V) (key : K) (lvl : Nat) : Nat → Nat → Nat
  | 0, p => p
  | fuel + 1, p =>
    match nextPtr s p lvl with
    | none => p
    | some q => if keyAt s q < key then advance s key lvl fuel q else p

/-- The level loop of `find_lower_bound` (`map.rs`), from level `lvl` down to
level 0. -/
def flbAux (s : SkipListMap K V) (key : K) : Nat → Nat → Nat
  | 0, p => advance s key 0 s.nodes.length p
  | lvl + 1, p => flbAux s key lvl (advance s key (lvl + 1) s.nodes.length p)

/-- Translation of `SkipListMap::find_lower_bound` (`map.rs`): walk from the
head, levels `max(height_, 1) - 1` down to `0`. -/
def find_lower_bound (s : SkipListMap K V) (key : K) : Nat :=
  flbAux s key (max s.height_ 1 - 1) s.head_

/-- The level loop of `find_lower_bound_with_updates` (`map.rs`): like
`flbAux` but also records, per level, the node reached at that level. -/
def flbUpdAux (s : SkipListMap K V) (key : K) :
    Nat → Nat → List Nat → Nat × List Nat
  | 0, p, upd =>
    let p1 := advance s key 0 s.nodes.length p
    (p1, upd.set 0 p1)
  | lvl + 1, p, upd =>
    let p1 := advance s key (lvl + 1) s.nodes.length p
    flbUpdAux s key lvl p1 (upd.set (lvl + 1) p1)

/-- Translation of `SkipListMap::find_lower_bound_with_updates` (`map.rs`).
The source builds the `updates` vector of length `max_height` uninitialized,
then writes the head into the entries at indices `height_..max_height` and
lets the level loop fill indices `0..max(height_, 1)`; since the loop
overwrites every index below `height_`, initializing the whole vector with
the head is observationally identical. -/
def find_lower_bound_with_updates (s : SkipListMap K V) (key : K) :
    Nat × List Nat :=
  flbUpdAux s key (max s.height_ 1 - 1) s.head_
    (List.replicate s.maxHeight_ s.head_)

/-- The splice loop of `SkipListMap::insert` (`map.rs`):
`for (height, update) in updates.iter_mut().enumerate().take(count)`, where at
each level the new node's forward pointer takes the predecessor's old forward
pointer (`link_to_next`) and the predecessor is redirected to the new node
(`link_to`). -/
def spliceIn (arena : List (Node K V)) (n : Nat) (upd : List Nat)
    (count : Nat) : List (Node K V) :=
  ((upd.take count).enum).foldl
    (fun a lu =>
      let a1 := setForward a n lu.1 (getForward a lu.2 lu.1)
      setForward a1 lu.2 lu.1 (some n))
    arena

/-- The fresh-key path of `SkipListMap::insert` (`map.rs`): allocate the node,
splice it in at the first `max(height, 1)` levels of the updates vector,
update `height_` and `length_`. -/
def insertFresh (s : SkipListMap K V) (key : K) (value : V) (height : Nat)
    (upd : List Nat) : SkipListMap K V :=
  { s with
    nodes := spliceIn (s.nodes ++ [Node.make key value height])
      s.nodes.length upd (max height 1)
    height_ := max s.height_ height
    length_ := s.length_ + 1 }

/-- Translation of `SkipListMap::insert` (`map.rs`).  The generated height is
a parameter here (the source obtains it from the height controller before the
search; the controller-threading wrapper `insertG` below restores that call).
If the level-0 successor of the lower bound carries an equal key, only its
value is replaced and the old value returned. -/
def insert (s : SkipListMap K V) (key : K) (value : V) (height : Nat) :
    SkipListMap K V × Option V :=
  let fl := find_lower_bound_with_updates s key
  match nextPtr s fl.1 0 with
  | some nx =>
    if keyAt s nx = key then
      ({ s with nodes := setValue s.nodes nx value }, some (valAt s nx))
    else
      (insertFresh s key value height fl.2, none)
  | none => (insertFresh s key value height fl.2, none)

/-- The unlink loop of `SkipListMap::remove` (`map.rs`):
`for (height, update) in updates.iter_mut().enumerate().take(count)`, each
predecessor's forward pointer skipping over the removed node
(`link_to_next`). -/
def unlinkOut (arena : List (Node K V)) (r : Nat) (upd : List Nat)
    (count : Nat) : List (Node K V) :=
  ((upd.take count).enum).foldl
    (fun a lu => setForward a lu.2 lu.1 (getForward a r lu.1))
    arena

/-- Translation of `SkipListMap::remove` (`map.rs`).  The freed node is left
in the arena, unreachable, which is observationally equivalent to `free`. -/
def remove (s : SkipListMap K V) (key : K) : SkipListMap K V × Option V :=
  let fl := find_lower_bound_with_updates s key
  match nextPtr s fl.1 0 with
  | none => (s, none)
  | some r =>
    if keyAt s r ≠ key then (s, none)
    else
      ({ s with
          nodes := unlinkOut s.nodes r fl.2 (max (heightAt s r) 1)
          length_ := s.length_ - 1 },
        some (valAt s r))

/-- Translation of `SkipListMap::get` (`map.rs`): one read-only predecessor
search, then an equality check against the level-0 successor. -/
def get (s : SkipListMap K V) (key : K) : Option V :=
  match nextPtr s (find_lower_bound s key) 0 with
  | none => none
  | some nx => if keyAt s nx = key then some (valAt s nx) else none

/-- Translation of `SkipListMap::contains_key` (`map.rs`). -/
def contains_key (s : SkipListMap K V) (key : K) : Bool :=
  (get s key).isSome

/-- Translation of `SkipListMap::allocate_dummy_node` (`map.rs`): the ghost
head node, allocated at the controller's maximum height with uninitialized
(here: default) key and value. -/
def allocate_dummy_node (maxHeight : Nat) : Node K V :=
  ⟨List.replicate (maxHeight + 1) none, default, default⟩

/-- Translation of `SkipListMap::new` (`map.rs`), as a function of the
controller's cached `max_height`. -/
def new (maxHeight : Nat) : SkipListMap K V :=
  ⟨[allocate_dummy_node maxHeight], 0, 0, 0, maxHeight⟩

/-- Translation of `SkipListMap::clear` (`map.rs`): dispose of every node
including the ghost head, allocate a fresh ghost head at `max_height()`,
reset `length_` and `height_`. -/
def clear (s : SkipListMap K V) : SkipListMap K V :=
  { nodes := [allocate_dummy_node s.maxHeight_]
    head_ := 0
    length_ := 0
    height_ := 0
    maxHeight_ := s.maxHeight_ }

/-- Translation of `SkipListMap::len` (`map.rs`). -/
def len (s : SkipListMap K V) : Nat :=
  s.length_

/-- Translation of `SkipListMap::is_empty` (`map.rs`). -/
def is_empty (s : SkipListMap K V) : Bool :=
  s.length_ == 0

/-- The level-0 walk of `Iter::next` (`iter.rs`), unfolded into the list of
yielded pairs.  Fueled by the arena size. -/
def chainPairs (s : SkipListMap K V) : Nat → Option Nat → List (K × V)
  | 0, _ => []
  | _ + 1, none => []
  | fuel + 1, some p => (keyAt s p, valAt s p) :: chainPairs s fuel (nextPtr s p 0)

/-- Everything yielded by `Iter::new(list)` (`iter.rs`): the level-0 chain
from the head's successor. -/
def iterList (s : SkipListMap K V) : List (K × V) :=
  chainPairs s s.nodes.length (nextPtr s s.head_ 0)

/-- Keys yielded by iteration (`Keys` in `iter.rs`). -/
def iterKeys (s : SkipListMap K V) : List K :=
  (iterList s).map Prod.fst

/-- The chain of node indices reachable from `p` by following the level-`lvl`
forward pointers.  Fueled by the arena size. -/
def chainIdx (s : SkipListMap K V) (lvl : Nat) : Nat → Option Nat → List Nat
  | 0, _ => []
  | _ + 1, none => []
  | fuel + 1, some p => p :: chainIdx s lvl fuel (nextPtr s p lvl)

/-- The chain of nodes reachable from the head by repeatedly following the
level-`lvl` forward pointer. -/
def levelChain (s : SkipListMap K V) (lvl : Nat) : List Nat :=
  chainIdx s lvl s.nodes.length (nextPtr s s.head_ lvl)

/-- One end of a range request: `std::collections::Bound` (`iter.rs`). -/
inductive RBound (K : Type) where
  | unbounded
  | included (key : K)
  | excluded (key : K)
deriving Repr, DecidableEq

/-- The `lower_bound` computation of `Range::new` (`iter.rs`). -/
def rangeStart (s : SkipListMap K V) (lo : RBound K) : Option Nat :=
  match lo with
  | .included k => nextPtr s (find_lower_bound s k) 0
  | .excluded k =>
    match nextPtr s (find_lower_bound s k) 0 with
    | none => none
    | some nx => if keyAt s nx = k then nextPtr s nx 0 else some nx
  | .unbounded => nextPtr s s.head_ 0

/-- The `upper_bound` computation of `Range::new` (`iter.rs`): for an
inclusive end the level-0 successor of the lower bound of `k`; for an
exclusive end the lower bound itself (which may be the ghost head, whose key
is uninitialized memory in the source). -/
def rangeEnd (s : SkipListMap K V) (hi : RBound K) : Option Nat :=
  match hi with
  | .included k => nextPtr s (find_lower_bound s k) 0
  | .excluded k => some (find_lower_bound s k)
  | .unbounded => none

/-- The walk of `Range::next` (`iter.rs`): yield the current node, then
advance to its level-0 successor as long as that successor's key does not
exceed the end node's key. -/
def rangeAux (s : SkipListMap K V) (e : Option Nat) :
    Nat → Option Nat → List (K × V)
  | 0, _ => []
  | _ + 1, none => []
  | fuel + 1, some p =>
    (keyAt s p, valAt s p) ::
      rangeAux s e fuel
        (match nextPtr s p 0 with
         | none => none
         | some nx =>
           match e with
           | none => some nx
           | some ei => if keyAt s nx ≤ keyAt s ei then some nx else none)

/-- Everything yielded by `Range::new(list, range)` (`iter.rs`). -/
def rangeList (s : SkipListMap K V) (lo hi : RBound K) : List (K × V) :=
  rangeAux s (rangeEnd s hi) s.nodes.length (rangeStart s lo)

end Defs

/-! Height generators (`height_control.rs`). -/

/-- The simulation loop of `GeometricalGenerator::get_height`
(`height_control.rs`): starting from `h`, with `fuel = max_height - h`
iterations left, increment `h` while the draw upgrades, else stop; when the
fuel is exhausted the loop condition `h < max_height` fails and `h`
(= `max_height`) is returned.  `upgrades i` is the Boolean outcome of the
comparison `throw < upgrade_probability_` for the `i`-th random draw. -/
def geoAux (upgrades : Nat → Bool) : Nat → Nat → Nat
  | 0, h => h
  | fuel + 1, h => if upgrades h then geoAux upgrades fuel (h + 1) else h

/-- Translation of `GeometricalGenerator` (`height_control.rs`); the
`upgrade_probability_` field is `f64` and is absorbed into the Boolean draw
stream passed to `get_height`. -/
structure GeometricalGenerator where
  maxHeight_ : Nat
deriving Repr, DecidableEq

/-- `GeometricalGenerator::max_height`. -/
def GeometricalGenerator.max_height (g : GeometricalGenerator) : Nat :=
  g.maxHeight_

/-- `GeometricalGenerator::get_height`, with the RNG state abstracted to the
stream of comparison outcomes. -/
def GeometricalGenerator.get_height (g : GeometricalGenerator)
    (upgrades : Nat → Bool) : Nat :=
  geoAux upgrades g.maxHeight_ 0

/-- Trailing-zero count of the low `fuel` bits of `x`, for `x ≠ 0`. -/
def tzAux : Nat → Nat → Nat
  | 0, _ => 0
  | fuel + 1, x => if x % 2 = 1 then 0 else 1 + tzAux fuel (x / 2)

/-- `u64::trailing_zeros`: 64 on zero, otherwise the number of low zero
bits. -/
def trailingZeros64 (x : Nat) : Nat :=
  if x % 2 ^ 64 = 0 then 64 else tzAux 64 (x % 2 ^ 64)

/-- Translation of `HashCoinGenerator` (`height_control.rs`); `S` is the
state type of the `Hasher`. -/
structure HashCoinGenerator (S : Type) where
  maxHeight_ : Nat
  hasher_ : S
deriving Repr, DecidableEq

/-- `HashCoinGenerator::max_height`. -/
def HashCoinGenerator.max_height {S : Type} (g : HashCoinGenerator S) : Nat :=
  g.maxHeight_

/-- Translation of `HashCoinGenerator::get_height` (`height_control.rs`):
feed the key to the hasher (mutating its state), count the trailing zeros of
the 64-bit digest, reduce modulo `max_height_`.  The `Hasher` is abstracted
to its write function and its finish function.  (In the source, a zero
`max_height_` would make the `%` panic.) -/
def HashCoinGenerator.get_height {S K : Type} (g : HashCoinGenerator S)
    (hashWrite : S → K → S) (finish : S → Nat) (key : K) :
    Nat × HashCoinGenerator S :=
  let s1 := hashWrite g.hasher_ key
  (trailingZeros64 (finish s1 % 2 ^ 64) % g.maxHeight_, ⟨g.maxHeight_, s1⟩)

/-- `u64::count_ones`, used by `usize::is_power_of_two`. -/
def popcountAux : Nat → Nat → Nat
  | 0, _ => 0
  | fuel + 1, x => if x = 0 then 0 else x % 2 + popcountAux fuel (x / 2)

/-- Population count of a natural number. -/
def popcount (n : Nat) : Nat :=
  popcountAux n n

/-- Translation of `TwoPowGenerator` (`height_control.rs`). -/
structure TwoPowGenerator where
  maxPow_ : Nat
deriving Repr, DecidableEq

/-- Translation of `TwoPowGenerator::new` (`height_control.rs`): asserts that
`max_height` is a power of two (`count_ones() == 1`), modelled as `Option`;
stores `max_height - 1`. -/
def TwoPowGenerator.new (maxHeight : Nat) : Option TwoPowGenerator :=
  if popcount maxHeight = 1 then some ⟨maxHeight - 1⟩ else none

/-- `TwoPowGenerator::max_height`. -/
def TwoPowGenerator.max_height (g : TwoPowGenerator) : Nat :=
  g.maxPow_ + 1

/-- Translation of `TwoPowGenerator::get_height` (`height_control.rs`):
trailing zeros of one random machine word, masked with `max_pow_`; `r` is
the drawn word. -/
def TwoPowGenerator.get_height (g : TwoPowGenerator) (r : Nat) : Nat :=
  Nat.land (trailingZeros64 (r % 2 ^ 64)) g.maxPow_

/-- The `HeightControl` trait (`height_control.rs`): `get_height` may mutate
internal state, so it returns the successor state. -/
class HeightControl (G : Type) (K : Type) where
  get_height : G → K → Nat × G
  max_height : G → Nat

/-- A `SkipListMap` together with its boxed controller (`controller_` field
of the source struct). -/
structure SkipListMapG (K V G : Type) where
  core : SkipListMap K V
  controller_ : G

section GDefs

variable {K V G : Type} [LinearOrder K] [Inhabited K] [Inhabited V]

/-- `SkipListMap::new`, taking the controller and caching its
`max_height()`. -/
def newG [HeightControl G K] (g : G) : SkipListMapG K V G :=
  ⟨new (HeightControl.max_height (K := K) g), g⟩

/-- `SkipListMap::insert` including the `self.controller_.get_height(&key)`
call, which the source performs before the search, whether or not the key
turns out to be already present. -/
def insertG [HeightControl G K] (m : SkipListMapG K V G) (key : K)
    (value : V) : SkipListMapG K V G × Option V :=
  let hg := HeightControl.get_height m.controller_ key
  let r := insert m.core key value hg.1
  (⟨r.1, hg.2⟩, r.2)

end GDefs

section Model

variable {K V : Type} [LinearOrder K] [Inhabited K] [Inhabited V]

/-- Number of levels the node at `p` participates in: the source splices a
node of allocated height `h` into levels `0 .. max(h, 1) - 1` (the
`take(max(height, 1))` in `insert` and `remove`). -/
def plvA (a : List (Node K V)) (p : Nat) : Nat :=
  max (heightA a p) 1

/-- The node indices of `ids` participating at level `lvl`. -/
def chainL (s : SkipListMap K V) (ids : List Nat) (lvl : Nat) : List Nat :=
  ids.filter (fun id => decide (lvl < plvA s.nodes id))

/-- `Links σ p l` says that following the successor map `σ` from `p` visits
exactly the nodes of `l` in order and then stops at a null pointer. -/
def Links (σ : Nat → Option Nat) : Nat → List Nat → Prop
  | p, [] => σ p = none
  | p, q :: t => σ p = some q ∧ Links σ q t

/-- Structure invariant of the skip list: `ids` is the list of live node
indices in key order, and every level-`lvl` chain from the head visits
exactly the members of `ids` participating at that level. -/
structure Good (s : SkipListMap K V) (ids : List Nat) : Prop where
  head_lt : s.head_ < s.nodes.length
  head_len : (nodeA s.nodes s.head_).forward.length = s.maxHeight_ + 1
  maxH_pos : 1 ≤ s.maxHeight_
  height_le : s.height_ ≤ s.maxHeight_
  mem_lt : ∀ id ∈ ids, id < s.nodes.length
  mem_ne_head : ∀ id ∈ ids, id ≠ s.head_
  sorted : ids.Pairwise (fun a b => keyA s.nodes a < keyA s.nodes b)
  height_mem : ∀ id ∈ ids,
    1 ≤ (nodeA s.nodes id).forward.length ∧ heightA s.nodes id ≤ s.height_
  len_eq : s.length_ = ids.length
  links : ∀ lvl, Links (fun p => getForward s.nodes p lvl) s.head_ (chainL s ids lvl)

/-- The Boolean guard of the search loops: the key at `q` is strictly below
the target. -/
def keyLt (s : SkipListMap K V) (key : K) (q : Nat) : Bool :=
  decide (keyA s.nodes q < key)

/-- The predecessor of `key` at level `lvl`: the last node of the level
chain whose key is strictly below `key`, or the head if there is none. -/
def predL (s : SkipListMap K V) (ids : List Nat) (key : K) (lvl : Nat) : Nat :=
  ((chainL s ids lvl).takeWhile (keyLt s key)).getLastD s.head_

/-- The first live node (in key order) whose key is not strictly below
`key`. -/
def firstGE (s : SkipListMap K V) (ids : List Nat) (key : K) : Option Nat :=
  (ids.dropWhile (keyLt s key)).head?

/-- The key/value pairs of the live nodes, in order. -/
def mapKV (s : SkipListMap K V) (ids : List Nat) : List (K × V) :=
  ids.map (fun id => (keyA s.nodes id, valA s.nodes id))

/-- Whether a key satisfies the lower end of a range request. -/
def inLower (lo : RBound K) (x : K) : Bool :=
  match lo with
  | .unbounded => true
  | .included k => decide (k ≤ x)
  | .excluded k => decide (k < x)

/-- Whether a key satisfies the upper end of a range request. -/
def inUpper (hi : RBound K) (x : K) : Bool :=
  match hi with
  | .unbounded => true
  | .included k => decide (x ≤ k)
  | .excluded k => decide (x < k)

/-- A public-API operation on the map. -/
inductive Op (K V : Type) where
  | ins (key : K) (value : V) (height : Nat)
  | del (key : K)

/-- Apply one operation, discarding the returned value. -/
def applyOp (s : SkipListMap K V) : Op K V → SkipListMap K V
  | .ins k v h => (insert s k v h).1
  | .del k => (remove s k).1

/-- Run a sequence of operations on a freshly constructed map. -/
def runOps (maxHeight : Nat) (ops : List (Op K V)) : SkipListMap K V :=
  ops.foldl applyOp (new maxHeight)

/-- Heights passed to `insert` stay below the controller bound; this is what
the public API guarantees (every generator returns at most `max_height`). -/
def wfOps (maxHeight : Nat) (ops : List (Op K V)) : Prop :=
  ∀ op ∈ ops, match op with
  | .ins _ _ h => h ≤ maxHeight
  | .del _ => True

/-- Side condition under which `Range` is faithful to its bounds.  The upper
bound must be one the bound computation of `Range::new` can represent: an
inclusive end whose key is present (or beyond every key), and an exclusive end
for which a strictly smaller key exists (otherwise the end node is the ghost
head and the comparison reads its uninitialized key) unless the range is
empty anyway. -/
def upperCompat (s : SkipListMap K V) (ids : List Nat) (lo hi : RBound K) :
    Prop :=
  match hi with
  | .unbounded => True
  | .included k =>
    (∃ id ∈ ids, keyA s.nodes id = k) ∨ (∀ id ∈ ids, keyA s.nodes id < k)
  | .excluded k =>
    (∃ id ∈ ids, keyA s.nodes id < k)
      ∨ (∀ id ∈ ids, inLower lo (keyA s.nodes id) = false)

/-- The predecessor search as worded by the specification sentence under
scrutiny: the level loop runs from `min(realized_height, 1) - 1` down to `0`
(instead of the source's `max`), every entry of the updates vector not
written by that loop staying at the head default.  Stated only to be
compared with the translation `find_lower_bound_with_updates` above. -/
def find_lower_bound_with_updates_claimed (s : SkipListMap K V) (key : K) :
    Nat × List Nat :=
  flbUpdAux s key (min s.height_ 1 - 1) s.head_
    (List.replicate s.maxHeight_ s.head_)

end Model

/-- A height controller that only counts how many times `get_height` has been
called; a legal implementor of the `HeightControl` trait, used to observe the
number of `get_height` calls an operation makes. -/
structure CountingGen where
  calls : Nat
  maxHeight_ : Nat
deriving Repr, DecidableEq

instance : HeightControl CountingGen Int where
  get_height g _ := (0, ⟨g.calls + 1, g.maxHeight_⟩)
  max_height g := g.maxHeight_

/-! Arena lemmas: how `nodeA` and `getForward` interact with `setForward`,
`setValue` and allocation. -/

section ArenaLemmas

variable {K V : Type} [LinearOrder K] [Inhabited K] [Inhabited V]

theorem getForward_eq (a : List (Node K V)) (p lvl : Nat) :
    getForward a p lvl = (nodeA a p).next lvl := by
  unfold getForward nodeA
  cases h : a.get? p
  · simp [Node.next]
  · simp

theorem length_setForward (a : List (Node K V)) (p lvl : Nat) (v : Option Nat) :
    (setForward a p lvl v).length = a.length := by
  unfold setForward
  cases h : a.get? p <;> simp

theorem length_setValue (a : List (Node K V)) (p : Nat) (v : V) :
    (setValue a p v).length = a.length := by
  unfold setValue
  cases h : a.get? p <;> simp

theorem nodeA_setForward_ne (a : List (Node K V)) (p lvl : Nat)
    (v : Option Nat) (q : Nat) (hq : q ≠ p) :
    nodeA (setForward a p lvl v) q = nodeA a q := by
  unfold setForward nodeA
  cases h : a.get? p
  · rfl
  · simp [List.get?_eq_getElem?, List.getElem?_set_ne (fun hc => hq hc.symm)]

theorem nodeA_setForward_self (a : List (Node K V)) (p lvl : Nat)
    (v : Option Nat) (hp : p < a.length) :
    nodeA (setForward a p lvl v) p
      = { nodeA a p with forward := (nodeA a p).forward.set lvl v } := by
  unfold setForward nodeA
  cases h : a.get? p
  · rw [List.get?_eq_getElem?] at h
    simp [List.getElem?_eq_none_iff] at h
    omega
  · rw [List.get?_eq_getElem?] at h
    simp [List.get?_eq_getElem?, List.getElem?_set_eq_of_lt _ hp, h]

theorem nodeA_setValue_ne (a : List (Node K V)) (p : Nat) (v : V) (q : Nat)
    (hq : q ≠ p) :
    nodeA (setValue a p v) q = nodeA a q := by
  unfold setValue nodeA
  cases h : a.get? p
  · rfl
  · simp [List.get?_eq_getElem?, List.getElem?_set_ne (fun hc => hq hc.symm)]

theorem nodeA_setValue_self (a : List (Node K V)) (p : Nat) (v : V)
    (hp : p < a.length) :
    nodeA (setValue a p v) p = { nodeA a p with value := v } := by
  unfold setValue nodeA
  cases h : a.get? p
  · rw [List.get?_eq_getElem?] at h
    simp [List.getElem?_eq_none_iff] at h
    omega
  · rw [List.get?_eq_getElem?] at h
    simp [List.get?_eq_getElem?, List.getElem?_set_eq_of_lt _ hp, h]

theorem nodeA_append_lt (a l : List (Node K V)) (q : Nat) (h : q < a.length) :
    nodeA (a ++ l) q = nodeA a q := by
  unfold nodeA
  rw [List.get?_eq_getElem?, List.get?_eq_getElem?, List.getElem?_append_left h]

theorem nodeA_append_self (a : List (Node K V)) (x : Node K V) :
    nodeA (a ++ [x]) a.length = x := by
  unfold nodeA
  rw [List.get?_eq_getElem?, List.getElem?_append_right (le_refl _)]
  simp

theorem next_set_self (n : Node K V) (lvl : Nat) (v : Option Nat)
    (h : lvl < n.forward.length) :
    Node.next { n with forward := n.forward.set lvl v } lvl = v := by
  unfold Node.next
  simp [List.get?_eq_getElem?, List.getElem?_set_eq_of_lt _ h]

theorem next_set_ne (n : Node K V) (lvl m : Nat) (v : Option Nat)
    (h : m ≠ lvl) :
    Node.next { n with forward := n.forward.set lvl v } m = n.next m := by
  unfold Node.next
  simp [List.get?_eq_getElem?, List.getElem?_set_ne (fun hc => h hc.symm)]

theorem next_set_oob (n : Node K V) (lvl m : Nat) (v : Option Nat)
    (h : n.forward.length ≤ lvl) :
    Node.next { n with forward := n.forward.set lvl v } m = n.next m := by
  unfold Node.next
  rw [List.set_eq_of_length_le h]

theorem getForward_setForward_ne_pos (a : List (Node K V)) (p lvl : Nat)
    (v : Option Nat) (q m : Nat) (hq : q ≠ p) :
    getForward (setForward a p lvl v) q m = getForward a q m := by
  rw [getForward_eq, getForward_eq, nodeA_setForward_ne a p lvl v q hq]

theorem getForward_setForward_ne_lvl (a : List (Node K V)) (p lvl : Nat)
    (v : Option Nat) (q m : Nat) (hm : m ≠ lvl) :
    getForward (setForward a p lvl v) q m = getForward a q m := by
  by_cases hq : q = p
  · subst hq
    by_cases hp : q < a.length
    · rw [getForward_eq, getForward_eq, nodeA_setForward_self a q lvl v hp,
        next_set_ne _ _ _ _ hm]
    · unfold setForward
      cases h : a.get? q
      · rfl
      · rw [List.get?_eq_getElem?] at h
        exact absurd (List.getElem?_eq_some_iff.mp h).1 hp
  · exact getForward_setForward_ne_pos a p lvl v q m hq

theorem getForward_setForward_self (a : List (Node K V)) (p lvl : Nat)
    (v : Option Nat) (hp : p < a.length)
    (hl : lvl < (nodeA a p).forward.length) :
    getForward (setForward a p lvl v) p lvl = v := by
  rw [getForward_eq, nodeA_setForward_self a p lvl v hp, next_set_self _ _ _ hl]

theorem getForward_setValue (a : List (Node K V)) (p : Nat) (v : V)
    (q m : Nat) :
    getForward (setValue a p v) q m = getForward a q m := by
  by_cases hq : q = p
  · subst hq
    by_cases hp : q < a.length
    · rw [getForward_eq, getForward_eq, nodeA_setValue_self a q v hp]
      simp [Node.next]
    · unfold setValue
      cases h : a.get? q
      · rfl
      · rw [List.get?_eq_getElem?] at h
        exact absurd (List.getElem?_eq_some_iff.mp h).1 hp
  · rw [getForward_eq, getForward_eq, nodeA_setValue_ne a p v q hq]

theorem keyA_setForward (a : List (Node K V)) (p lvl : Nat) (v : Option Nat)
    (q : Nat) : keyA (setForward a p lvl v) q = keyA a q := by
  unfold keyA
  by_cases hq : q = p
  · subst hq
    by_cases hp : q < a.length
    · rw [nodeA_setForward_self a q lvl v hp]
    · unfold setForward
      cases h : a.get? q
      · rfl
      · rw [List.get?_eq_getElem?] at h
        exact absurd (List.getElem?_eq_some_iff.mp h).1 hp
  · rw [nodeA_setForward_ne a p lvl v q hq]

theorem valA_setForward (a : List (Node K V)) (p lvl : Nat) (v : Option Nat)
    (q : Nat) : valA (setForward a p lvl v) q = valA a q := by
  unfold valA
  by_cases hq : q = p
  · subst hq
    by_cases hp : q < a.length
    · rw [nodeA_setForward_self a q lvl v hp]
    · unfold setForward
      cases h : a.get? q
      · rfl
      · rw [List.get?_eq_getElem?] at h
        exact absurd (List.getElem?_eq_some_iff.mp h).1 hp
  · rw [nodeA_setForward_ne a p lvl v q hq]

theorem forwardLen_setForward (a : List (Node K V)) (p lvl : Nat)
    (v : Option Nat) (q : Nat) :
    (nodeA (setForward a p lvl v) q).forward.length
      = (nodeA a q).forward.length := by
  by_cases hq : q = p
  · subst hq
    by_cases hp : q < a.length
    · rw [nodeA_setForward_self a q lvl v hp]
      simp
    · unfold setForward
      cases h : a.get? q
      · rfl
      · rw [List.get?_eq_getElem?] at h
        exact absurd (List.getElem?_eq_some_iff.mp h).1 hp
  · rw [nodeA_setForward_ne a p lvl v q hq]

theorem heightA_setForward (a : List (Node K V)) (p lvl : Nat)
    (v : Option Nat) (q : Nat) :
    heightA (setForward a p lvl v) q = heightA a q := by
  unfold heightA Node.height
  rw [forwardLen_setForward]

theorem plvA_setForward (a : List (Node K V)) (p lvl : Nat) (v : Option Nat)
    (q : Nat) : plvA (setForward a p lvl v) q = plvA a q := by
  unfold plvA
  rw [heightA_setForward]

theorem keyA_setValue (a : List (Node K V)) (p : Nat) (v : V) (q : Nat) :
    keyA (setValue a p v) q = keyA a q := by
  unfold keyA
  by_cases hq : q = p
  · subst hq
    by_cases hp : q < a.length
    · rw [nodeA_setValue_self a q v hp]
    · unfold setValue
      cases h : a.get? q
      · rfl
      · rw [List.get?_eq_getElem?] at h
        exact absurd (List.getElem?_eq_some_iff.mp h).1 hp
  · rw [nodeA_setValue_ne a p v q hq]

theorem valA_setValue_self (a : List (Node K V)) (p : Nat) (v : V)
    (hp : p < a.length) : valA (setValue a p v) p = v := by
  unfold valA
  rw [nodeA_setValue_self a p v hp]

theorem valA_setValue_ne (a : List (Node K V)) (p : Nat) (v : V) (q : Nat)
    (hq : q ≠ p) : valA (setValue a p v) q = valA a q := by
  unfold valA
  rw [nodeA_setValue_ne a p v q hq]

theorem plvA_setValue (a : List (Node K V)) (p : Nat) (v : V) (q : Nat) :
    plvA (setValue a p v) q = plvA a q := by
  unfold plvA heightA Node.height
  by_cases hq : q = p
  · subst hq
    by_cases hp : q < a.length
    · rw [nodeA_setValue_self a q v hp]
    · unfold setValue
      cases h : a.get? q
      · rfl
      · rw [List.get?_eq_getElem?] at h
        exact absurd (List.getElem?_eq_some_iff.mp h).1 hp
  · rw [nodeA_setValue_ne a p v q hq]

end ArenaLemmas

/-! Lemmas about `Links`. -/

section LinksLemmas

theorem Links.head_eq {σ : Nat → Option Nat} {p : Nat} {l : List Nat}
    (h : Links σ p l) : σ p = l.head? := by
  cases l with
  | nil => exact h
  | cons q t => exact h.1

theorem Links.infix_eq (σ : Nat → Option Nat) (q : Nat) (post : List Nat) :
    ∀ {pre : List Nat} {p : Nat}, Links σ p (pre ++ q :: post) →
      σ q = post.head? := by
  intro pre
  induction pre with
  | nil => exact fun h => Links.head_eq h.2
  | cons a t ih => exact fun h => ih h.2

theorem Links.congr {σ σ2 : Nat → Option Nat} :
    ∀ {p : Nat} {l : List Nat}, (∀ q, q = p ∨ q ∈ l → σ2 q = σ q) →
      Links σ p l → Links σ2 p l := by
  intro p l
  induction l generalizing p with
  | nil => intro hc h; exact (hc p (Or.inl rfl)).trans h
  | cons q t ih =>
    intro hc h
    refine ⟨(hc p (Or.inl rfl)).trans h.1, ih ?_ h.2⟩
    intro x hx
    refine hc x (Or.inr ?_)
    rcases hx with hx | hx
    · simp [hx]
    · simp [hx]

theorem Links.append_split {σ : Nat → Option Nat} :
    ∀ {l1 : List Nat} {p : Nat} {l2 : List Nat}, Links σ p (l1 ++ l2) →
      Links σ (l1.getLastD p) l2 := by
  intro l1
  induction l1 with
  | nil => exact fun h => h
  | cons a t ih =>
    intro p l2 h
    rw [List.getLastD_cons]
    exact ih h.2

end LinksLemmas

/-! Generic list helpers. -/

section ListHelpers

variable {α : Type}

theorem takeWhile_append_all (l1 l2 : List α) (p : α → Bool)
    (h : ∀ x ∈ l1, p x) :
    (l1 ++ l2).takeWhile p = l1 ++ l2.takeWhile p := by
  induction l1 with
  | nil => rfl
  | cons a t ih =>
    simp [List.takeWhile_cons, h a (by simp),
      ih (fun x hx => h x (by simp [hx]))]

theorem dropWhile_append_all (l1 l2 : List α) (p : α → Bool)
    (h : ∀ x ∈ l1, p x) :
    (l1 ++ l2).dropWhile p = l2.dropWhile p := by
  induction l1 with
  | nil => rfl
  | cons a t ih =>
    simp [List.dropWhile_cons, h a (by simp),
      ih (fun x hx => h x (by simp [hx]))]

theorem getLastD_mem (l : List α) (d : α) (h : l ≠ []) : l.getLastD d ∈ l := by
  induction l generalizing d with
  | nil => exact absurd rfl h
  | cons a t ih =>
    rw [List.getLastD_cons]
    cases t with
    | nil => simp
    | cons b t2 => exact List.mem_cons_of_mem a (ih a (by simp))

theorem cons_eq_append_getLastD (l : List α) (d : α) :
    ∃ pre, d :: l = pre ++ [l.getLastD d] := by
  induction l generalizing d with
  | nil => exact ⟨[], rfl⟩
  | cons a t ih =>
    obtain ⟨pre, hpre⟩ := ih a
    exact ⟨d :: pre, by rw [List.getLastD_cons, List.cons_append, ← hpre]⟩

theorem getLastD_append_cons (A B : List α) (p d : α) :
    (A ++ p :: B).getLastD d = B.getLastD p := by
  induction A generalizing d with
  | nil => exact List.getLastD_cons d p B
  | cons a t ih => rw [List.cons_append, List.getLastD_cons, ih]

theorem filter_eq_nil_of (l : List α) (p : α → Bool)
    (h : ∀ a ∈ l, p a = false) : l.filter p = [] := by
  rw [List.filter_eq_nil_iff]
  intro a ha
  simp [h a ha]

theorem dropWhile_head_not (l : List α) (p : α → Bool) (x : α)
    (h : (l.dropWhile p).head? = some x) : p x = false := by
  have h2 := List.head?_dropWhile_not p l
  rw [h] at h2
  simpa using h2

theorem length_le_of_nodup_lt (l : List Nat) (n : Nat) (hn : l.Nodup)
    (hlt : ∀ x ∈ l, x < n) : l.length ≤ n := by
  classical
  have hc : l.toFinset.card = l.length := List.toFinset_card_of_nodup hn
  have hsub : l.toFinset ⊆ Finset.range n := by
    intro x hx
    simp only [List.mem_toFinset] at hx
    exact Finset.mem_range.mpr (hlt x hx)
  have := Finset.card_le_card hsub
  simpa [hc] using this

end ListHelpers

/-! Facts derived from the invariant. -/

section GoodLemmas

variable {K V : Type} [LinearOrder K] [Inhabited K] [Inhabited V]
variable {s : SkipListMap K V} {ids : List Nat}

theorem Good.nodup (hG : Good s ids) : ids.Nodup := by
  refine List.Pairwise.imp ?_ hG.sorted
  intro a b hab
  intro he
  rw [he] at hab
  exact lt_irrefl _ hab

theorem Good.ids_length_le (hG : Good s ids) : ids.length ≤ s.nodes.length :=
  length_le_of_nodup_lt ids s.nodes.length hG.nodup hG.mem_lt

theorem chain_sublist (s : SkipListMap K V) (ids : List Nat) (lvl : Nat) :
    List.Sublist (chainL s ids lvl) ids :=
  List.filter_sublist ids

theorem Good.chain_sorted (hG : Good s ids) (lvl : Nat) :
    (chainL s ids lvl).Pairwise
      (fun a b => keyA s.nodes a < keyA s.nodes b) :=
  hG.sorted.sublist (chain_sublist s ids lvl)

theorem Good.chain_nodup (hG : Good s ids) (lvl : Nat) :
    (chainL s ids lvl).Nodup :=
  hG.nodup.sublist (chain_sublist s ids lvl)

theorem chain_zero (s : SkipListMap K V) (ids : List Nat) :
    chainL s ids 0 = ids := by
  refine List.filter_eq_self.mpr ?_
  intro a _
  simp [plvA]

theorem Good.chain_high (hG : Good s ids) (lvl : Nat)
    (h : max s.height_ 1 ≤ lvl) : chainL s ids lvl = [] := by
  refine filter_eq_nil_of _ _ ?_
  intro a ha
  have hh := (hG.height_mem a ha).2
  have : plvA s.nodes a ≤ max s.height_ 1 := by
    unfold plvA
    omega
  simp only [decide_eq_false_iff_not, not_lt]
  omega

theorem chain_anti (s : SkipListMap K V) (ids : List Nat) {lvl lvl2 : Nat}
    (h : lvl ≤ lvl2) :
    List.Sublist (chainL s ids lvl2) (chainL s ids lvl) := by
  refine List.monotone_filter_right ids ?_
  intro a ha
  simp only [decide_eq_true_eq] at ha ⊢
  omega

theorem Good.chain_length_le (hG : Good s ids) (lvl : Nat) :
    (chainL s ids lvl).length ≤ s.nodes.length :=
  le_trans (List.Sublist.length_le (chain_sublist s ids lvl)) hG.ids_length_le

theorem sorted_mem_takeWhile {key : K} {l : List Nat}
    (hs : l.Pairwise (fun a b => keyA s.nodes a < keyA s.nodes b)) {x : Nat}
    (hx : x ∈ l) (hpx : keyA s.nodes x < key) :
    x ∈ l.takeWhile (keyLt s key) := by
  have hsplit := List.takeWhile_append_dropWhile (p := keyLt s key) (l := l)
  rw [← hsplit] at hx
  rcases List.mem_append.mp hx with h | h
  · exact h
  · exfalso
    rcases hd : l.dropWhile (keyLt s key) with _ | ⟨d, rest⟩
    · rw [hd] at h
      exact absurd h (List.not_mem_nil x)
    · have hdp : keyLt s key d = false := by
        refine dropWhile_head_not l (keyLt s key) d ?_
        rw [hd]
        rfl
      have hdk : ¬ keyA s.nodes d < key := by
        simpa [keyLt] using hdp
      rw [hd] at h
      rcases List.mem_cons.mp h with h1 | h1
      · exact hdk (h1 ▸ hpx)
      · have hsd : (l.dropWhile (keyLt s key)).Pairwise
            (fun a b => keyA s.nodes a < keyA s.nodes b) :=
          hs.sublist (List.dropWhile_sublist _)
        rw [hd] at hsd
        have := (List.pairwise_cons.mp hsd).1 x h1
        exact hdk (lt_trans this hpx)

theorem sorted_key_inj {l : List Nat}
    (hs : l.Pairwise (fun a b => keyA s.nodes a < keyA s.nodes b)) {a b : Nat}
    (ha : a ∈ l) (hb : b ∈ l) (he : keyA s.nodes a = keyA s.nodes b) :
    a = b := by
  induction l with
  | nil => exact absurd ha (List.not_mem_nil a)
  | cons c t ih =>
    rcases List.mem_cons.mp ha with h1 | h1 <;>
      rcases List.mem_cons.mp hb with h2 | h2
    · rw [h1, h2]
    · exfalso
      have := (List.pairwise_cons.mp hs).1 b h2
      rw [← h1, he] at this
      exact lt_irrefl _ this
    · exfalso
      have := (List.pairwise_cons.mp hs).1 a h1
      rw [← h2, ← he] at this
      exact lt_irrefl _ this
    · exact ih (List.pairwise_cons.mp hs).2 h1 h2

end GoodLemmas

/-! Characterization of the predecessor search. -/

section SearchLemmas

variable {K V : Type} [LinearOrder K] [Inhabited K] [Inhabited V]
variable {s : SkipListMap K V} {ids : List Nat}

theorem Good.sigma_eq (hG : Good s ids) (lvl : Nat) {pre : List Nat} {p : Nat}
    {t : List Nat}
    (hdec : s.head_ :: chainL s ids lvl = pre ++ p :: t) :
    getForward s.nodes p lvl = t.head? := by
  cases pre with
  | nil =>
    simp only [List.nil_append, List.cons.injEq] at hdec
    have := Links.head_eq (hG.links lvl)
    rw [hdec.1, hdec.2] at this
    exact this
  | cons a pre2 =>
    simp only [List.cons_append, List.cons.injEq] at hdec
    have hl := hG.links lvl
    rw [hdec.2] at hl
    exact Links.infix_eq (fun x => getForward s.nodes x lvl) p t hl

theorem advance_walk (hG : Good s ids) (key : K) (lvl : Nat) :
    ∀ (t pre : List Nat) (p : Nat) (fuel : Nat),
      s.head_ :: chainL s ids lvl = pre ++ p :: t → t.length ≤ fuel →
      advance s key lvl fuel p = (t.takeWhile (keyLt s key)).getLastD p := by
  intro t
  induction t with
  | nil =>
    intro pre p fuel hdec _
    have hσ : getForward s.nodes p lvl = none := hG.sigma_eq lvl hdec
    cases fuel with
    | zero => rfl
    | succ f => simp [advance, nextPtr, hσ]
  | cons q t2 ih =>
    intro pre p fuel hdec hfuel
    have hσ : getForward s.nodes p lvl = some q := hG.sigma_eq lvl hdec
    cases fuel with
    | zero => exact absurd hfuel (by simp)
    | succ f =>
      simp only [advance, nextPtr, hσ]
      by_cases hlt : keyA s.nodes q < key
      · have hdec2 : s.head_ :: chainL s ids lvl = (pre ++ [p]) ++ q :: t2 := by
          rw [hdec]
          simp
        have hf2 : t2.length ≤ f := by
          simp at hfuel
          omega
        have hPq : keyLt s key q = true := by
          simp [keyLt, hlt]
        have hlt2 : keyAt s q < key := hlt
        rw [if_pos hlt2, ih (pre ++ [p]) q f hdec2 hf2, List.takeWhile_cons,
          hPq]
        simp only [if_true, List.getLastD_cons]
      · have hPq : keyLt s key q = false := by
          simp [keyLt, hlt]
        have hlt2 : ¬ keyAt s q < key := hlt
        rw [if_neg hlt2, List.takeWhile_cons, hPq]
        simp

theorem advance_entry (hG : Good s ids) (key : K) (lvl : Nat) (p : Nat)
    (hp : p = s.head_ ∨ (p ∈ chainL s ids lvl ∧ keyA s.nodes p < key))
    (fuel : Nat) (hfuel : (chainL s ids lvl).length ≤ fuel) :
    advance s key lvl fuel p = predL s ids key lvl := by
  rcases hp with hp | ⟨hmem, hkey⟩
  · subst hp
    exact advance_walk hG key lvl (chainL s ids lvl) [] s.head_ fuel rfl hfuel
  · have hT : p ∈ (chainL s ids lvl).takeWhile (keyLt s key) :=
      sorted_mem_takeWhile (hG.chain_sorted lvl) hmem hkey
    obtain ⟨A, B, hAB⟩ := List.append_of_mem hT
    have hFl : chainL s ids lvl
        = A ++ p :: (B ++ (chainL s ids lvl).dropWhile (keyLt s key)) := by
      conv_lhs => rw [← List.takeWhile_append_dropWhile
        (p := keyLt s key) (l := chainL s ids lvl)]
      rw [hAB]
      simp
    have hdec : s.head_ :: chainL s ids lvl
        = (s.head_ :: A) ++ p :: (B ++ (chainL s ids lvl).dropWhile (keyLt s key)) := by
      conv_lhs => rw [hFl]
      simp
    have hlen : (B ++ (chainL s ids lvl).dropWhile (keyLt s key)).length ≤ fuel := by
      have h1 : (chainL s ids lvl).length =
          A.length + 1 + (B ++ (chainL s ids lvl).dropWhile (keyLt s key)).length := by
        conv_lhs => rw [hFl]
        simp
        omega
      omega
    rw [advance_walk hG key lvl _ _ p fuel hdec hlen]
    have hBall : ∀ x ∈ B, keyLt s key x := by
      intro x hx
      refine List.mem_takeWhile_imp (l := chainL s ids lvl) (p := keyLt s key) ?_
      rw [hAB]
      simp [hx]
    have hDrop : ((chainL s ids lvl).dropWhile (keyLt s key)).takeWhile (keyLt s key) = [] := by
      rcases hd : (chainL s ids lvl).dropWhile (keyLt s key) with _ | ⟨d, rest⟩
      · rfl
      · have hdp : keyLt s key d = false := by
          refine dropWhile_head_not (chainL s ids lvl) (keyLt s key) d ?_
          rw [hd]
          rfl
        simp [List.takeWhile_cons, hdp]
    rw [takeWhile_append_all _ _ _ hBall, hDrop, List.append_nil]
    unfold predL
    rw [hAB, getLastD_append_cons]

theorem predL_entry (hG : Good s ids) (key : K) {lvl lvl2 : Nat}
    (h : lvl ≤ lvl2) :
    predL s ids key lvl2 = s.head_ ∨
      (predL s ids key lvl2 ∈ chainL s ids lvl ∧
        keyA s.nodes (predL s ids key lvl2) < key) := by
  rcases hT : (chainL s ids lvl2).takeWhile (keyLt s key) with _ | ⟨a, t⟩
  · left
    unfold predL
    rw [hT]
    rfl
  · right
    have hne : (chainL s ids lvl2).takeWhile (keyLt s key) ≠ [] := by
      rw [hT]
      simp
    have hmemT : predL s ids key lvl2
        ∈ (chainL s ids lvl2).takeWhile (keyLt s key) := by
      unfold predL
      exact getLastD_mem _ _ hne
    have hmem2 : predL s ids key lvl2 ∈ chainL s ids lvl2 :=
      (List.takeWhile_sublist _).subset hmemT
    have hmem : predL s ids key lvl2 ∈ chainL s ids lvl :=
      (chain_anti s ids h).subset hmem2
    have hkey : keyLt s key (predL s ids key lvl2) :=
      List.mem_takeWhile_imp hmemT
    refine ⟨hmem, ?_⟩
    simpa [keyLt] using hkey

theorem flbUpdAux_spec (hG : Good s ids) (key : K) :
    ∀ (lvl : Nat) (p : Nat) (upd : List Nat),
      (p = s.head_ ∨ (p ∈ chainL s ids lvl ∧ keyA s.nodes p < key)) →
      (flbUpdAux s key lvl p upd).1 = predL s ids key 0 ∧
      (flbUpdAux s key lvl p upd).2.length = upd.length ∧
      ∀ j, (flbUpdAux s key lvl p upd).2.get? j =
        if j ≤ lvl ∧ j < upd.length then some (predL s ids key j)
        else upd.get? j := by
  intro lvl
  induction lvl with
  | zero =>
    intro p upd hp
    have ha : advance s key 0 s.nodes.length p = predL s ids key 0 :=
      advance_entry hG key 0 p hp s.nodes.length (hG.chain_length_le 0)
    refine ⟨?_, ?_, ?_⟩
    · simp [flbUpdAux, ha]
    · simp [flbUpdAux]
    · intro j
      simp only [flbUpdAux, ha]
      by_cases hj : j = 0
      · subst hj
        by_cases hlen : 0 < upd.length
        · rw [List.get?_eq_getElem?, List.getElem?_set_eq_of_lt _ hlen,
            if_pos ⟨Nat.le_refl 0, hlen⟩]
        · rw [List.set_eq_of_length_le (by omega),
            if_neg (fun hc => hlen hc.2)]
      · have hneg : ¬ (j ≤ 0 ∧ j < upd.length) :=
          fun hc => hj (Nat.le_zero.mp hc.1)
        rw [if_neg hneg, List.get?_eq_getElem?, List.get?_eq_getElem?,
          List.getElem?_set_ne (fun hc => hj hc.symm)]
  | succ lvl ih =>
    intro p upd hp
    have ha : advance s key (lvl + 1) s.nodes.length p
        = predL s ids key (lvl + 1) :=
      advance_entry hG key (lvl + 1) p hp s.nodes.length
        (hG.chain_length_le (lvl + 1))
    have hrec := ih (predL s ids key (lvl + 1))
      (upd.set (lvl + 1) (predL s ids key (lvl + 1)))
      (predL_entry hG key (Nat.le_succ lvl))
    have hL : (upd.set (lvl + 1) (predL s ids key (lvl + 1))).length
        = upd.length := by
      simp
    refine ⟨?_, ?_, ?_⟩
    · simpa [flbUpdAux, ha] using hrec.1
    · simp only [flbUpdAux, ha]
      rw [hrec.2.1, hL]
    · intro j
      simp only [flbUpdAux, ha]
      rw [hrec.2.2 j, hL]
      by_cases h1 : j ≤ lvl ∧ j < upd.length
      · rw [if_pos h1, if_pos ⟨Nat.le_trans h1.1 (Nat.le_succ lvl), h1.2⟩]
      · by_cases h2 : j = lvl + 1
        · subst h2
          rw [if_neg h1]
          by_cases h3 : lvl + 1 < upd.length
          · rw [List.get?_eq_getElem?, List.getElem?_set_eq_of_lt _ h3,
              if_pos ⟨Nat.le_refl _, h3⟩]
          · rw [List.set_eq_of_length_le (by omega),
              if_neg (fun hc => h3 hc.2)]
        · have hneg : ¬ (j ≤ lvl + 1 ∧ j < upd.length) := by
            intro hc
            have hj2 : j ≤ lvl := by omega
            exact h1 ⟨hj2, hc.2⟩
          rw [if_neg h1, if_neg hneg, List.get?_eq_getElem?,
            List.get?_eq_getElem?,
            List.getElem?_set_ne (fun hc => h2 hc.symm)]

theorem predL_high (hG : Good s ids) (key : K) {lvl : Nat}
    (h : max s.height_ 1 ≤ lvl) : predL s ids key lvl = s.head_ := by
  unfold predL
  rw [hG.chain_high lvl h]
  rfl

theorem find_lower_bound_with_updates_spec (hG : Good s ids) (key : K) :
    (find_lower_bound_with_updates s key).1 = predL s ids key 0 ∧
    (find_lower_bound_with_updates s key).2.length = s.maxHeight_ ∧
    ∀ j < s.maxHeight_,
      (find_lower_bound_with_updates s key).2.get? j
        = some (predL s ids key j) := by
  have hspec := flbUpdAux_spec hG key (max s.height_ 1 - 1) s.head_
    (List.replicate s.maxHeight_ s.head_) (Or.inl rfl)
  unfold find_lower_bound_with_updates
  refine ⟨hspec.1, by rw [hspec.2.1]; simp, ?_⟩
  intro j hj
  rw [hspec.2.2 j]
  by_cases h1 : j ≤ max s.height_ 1 - 1
  · rw [if_pos ⟨h1, by simpa using hj⟩]
  · have hrep : (List.replicate s.maxHeight_ s.head_).get? j = some s.head_ := by
      rw [List.get?_eq_getElem?]
      simp [List.getElem?_replicate, hj]
    rw [if_neg (fun hc => h1 hc.1), hrep,
      predL_high hG key (by omega)]

theorem flbAux_eq_upd (s : SkipListMap K V) (key : K) :
    ∀ (lvl p : Nat) (upd : List Nat),
      flbAux s key lvl p = (flbUpdAux s key lvl p upd).1 := by
  intro lvl
  induction lvl with
  | zero => intro p upd; rfl
  | succ lvl ih => intro p upd; exact ih _ _

theorem find_lower_bound_spec (hG : Good s ids) (key : K) :
    find_lower_bound s key = predL s ids key 0 := by
  unfold find_lower_bound
  rw [flbAux_eq_upd s key (max s.height_ 1 - 1) s.head_
    (List.replicate s.maxHeight_ s.head_)]
  exact (find_lower_bound_with_updates_spec hG key).1

theorem nextPtr_predL0 (hG : Good s ids) (key : K) :
    nextPtr s (predL s ids key 0) 0 = firstGE s ids key := by
  obtain ⟨pre, hpre⟩ :=
    cons_eq_append_getLastD (ids.takeWhile (keyLt s key)) s.head_
  have hdec : s.head_ :: chainL s ids 0
      = pre ++ (predL s ids key 0) :: (ids.dropWhile (keyLt s key)) := by
    rw [chain_zero s ids]
    conv_lhs => rw [← List.takeWhile_append_dropWhile
      (p := keyLt s key) (l := ids)]
    rw [← List.cons_append, hpre, List.append_assoc, List.singleton_append]
    unfold predL
    rw [chain_zero s ids]
  exact hG.sigma_eq 0 hdec

theorem firstGE_spec (key : K) {nx : Nat}
    (h : firstGE s ids key = some nx) :
    ¬ keyA s.nodes nx < key ∧ nx ∈ ids := by
  unfold firstGE at h
  rcases hd : ids.dropWhile (keyLt s key) with _ | ⟨d, rest⟩
  · rw [hd] at h
    exact absurd h (by simp)
  · rw [hd] at h
    have hnx : d = nx := by
      simpa using h
    subst hnx
    constructor
    · have := dropWhile_head_not ids (keyLt s key) _ (by rw [hd]; rfl)
      simpa [keyLt] using this
    · refine (List.dropWhile_sublist (keyLt s key)).subset ?_
      rw [hd]
      exact List.mem_cons_self _ rest

theorem firstGE_of_mem (hG : Good s ids) (key : K)
    (hk : key ∈ ids.map (keyA s.nodes)) :
    ∃ nx, firstGE s ids key = some nx ∧ keyA s.nodes nx = key ∧ nx ∈ ids := by
  obtain ⟨id, hid, hkey⟩ := List.mem_map.mp hk
  have hidD : id ∈ ids.dropWhile (keyLt s key) := by
    have hsplit : id ∈ ids.takeWhile (keyLt s key)
        ∨ id ∈ ids.dropWhile (keyLt s key) := by
      rw [← List.mem_append, List.takeWhile_append_dropWhile]
      exact hid
    rcases hsplit with h | h
    · have := List.mem_takeWhile_imp h
      rw [keyLt, hkey] at this
      simp at this
    · exact h
  rcases hd : ids.dropWhile (keyLt s key) with _ | ⟨d, rest⟩
  · rw [hd] at hidD
    exact absurd hidD (List.not_mem_nil id)
  · have hdk : ¬ keyA s.nodes d < key := by
      have := dropWhile_head_not ids (keyLt s key) d (by rw [hd]; rfl)
      simpa [keyLt] using this
    rw [hd] at hidD
    rcases List.mem_cons.mp hidD with h | h
    · exact ⟨d, by unfold firstGE; rw [hd]; rfl, by rw [← h, hkey],
        by rw [← h]; exact hid⟩
    · exfalso
      have hsd : (ids.dropWhile (keyLt s key)).Pairwise
          (fun a b => keyA s.nodes a < keyA s.nodes b) :=
        hG.sorted.sublist (List.dropWhile_sublist _)
      rw [hd] at hsd
      have := (List.pairwise_cons.mp hsd).1 id h
      rw [hkey] at this
      exact hdk this

theorem get_spec (hG : Good s ids) (key : K) :
    get s key = match firstGE s ids key with
      | none => none
      | some nx =>
        if keyA s.nodes nx = key then some (valA s.nodes nx) else none := by
  unfold get
  rw [find_lower_bound_spec hG key, nextPtr_predL0 hG key]
  rfl

theorem get_of_not_mem (hG : Good s ids) (key : K)
    (hk : key ∉ ids.map (keyA s.nodes)) : get s key = none := by
  rw [get_spec hG key]
  rcases h : firstGE s ids key with _ | nx
  · rfl
  · have hf := @firstGE_spec K V _ _ _ s ids key nx h
    simp only []
    rw [if_neg ?_]
    intro hc
    exact hk (List.mem_map.mpr ⟨nx, hf.2, hc⟩)

theorem get_of_mem (hG : Good s ids) (key : K) {id : Nat} (hid : id ∈ ids)
    (hkey : keyA s.nodes id = key) :
    get s key = some (valA s.nodes id) := by
  rw [get_spec hG key]
  obtain ⟨nx, hnx, hnxkey, hnxmem⟩ := firstGE_of_mem hG key
    (List.mem_map.mpr ⟨id, hid, hkey⟩)
  rw [hnx]
  simp only []
  rw [if_pos hnxkey]
  have : nx = id := sorted_key_inj hG.sorted hnxmem hid (by rw [hnxkey, hkey])
  rw [this]

end SearchLemmas

/-! Closed forms for the splice loop of `insert` and the unlink loop of
`remove`. -/

section LoopLemmas

variable {K V : Type} [LinearOrder K] [Inhabited K] [Inhabited V]

theorem spliceIn_zero (a : List (Node K V)) (n : Nat) (upd : List Nat) :
    spliceIn a n upd 0 = a := rfl

theorem spliceIn_succ_of_lt (a : List (Node K V)) (n : Nat) (upd : List Nat)
    (c u : Nat) (h : upd.get? c = some u) :
    spliceIn a n upd (c + 1)
      = setForward
          (setForward (spliceIn a n upd c) n c
            (getForward (spliceIn a n upd c) u c))
          u c (some n) := by
  have hc : c < upd.length := by
    rw [List.get?_eq_getElem?] at h
    exact (List.getElem?_eq_some_iff.mp h).1
  have hge : upd[c]? = some u := by
    rwa [List.get?_eq_getElem?] at h
  have htake : upd.take (c + 1) = upd.take c ++ [u] := by
    rw [List.take_succ, hge]
    rfl
  have hlen : (upd.take c).length = c := by
    simp [List.length_take]
    omega
  unfold spliceIn
  rw [htake, List.enum_append, hlen]
  rw [List.foldl_append]
  rfl

theorem spliceIn_succ_of_ge (a : List (Node K V)) (n : Nat) (upd : List Nat)
    (c : Nat) (h : upd.length ≤ c) :
    spliceIn a n upd (c + 1) = spliceIn a n upd c := by
  unfold spliceIn
  rw [List.take_of_length_le h, List.take_of_length_le (by omega)]

theorem unlinkOut_zero (a : List (Node K V)) (r : Nat) (upd : List Nat) :
    unlinkOut a r upd 0 = a := rfl

theorem unlinkOut_succ_of_lt (a : List (Node K V)) (r : Nat) (upd : List Nat)
    (c u : Nat) (h : upd.get? c = some u) :
    unlinkOut a r upd (c + 1)
      = setForward (unlinkOut a r upd c) u c
          (getForward (unlinkOut a r upd c) r c) := by
  have hc : c < upd.length := by
    rw [List.get?_eq_getElem?] at h
    exact (List.getElem?_eq_some_iff.mp h).1
  have hge : upd[c]? = some u := by
    rwa [List.get?_eq_getElem?] at h
  have htake : upd.take (c + 1) = upd.take c ++ [u] := by
    rw [List.take_succ, hge]
    rfl
  have hlen : (upd.take c).length = c := by
    simp [List.length_take]
    omega
  unfold unlinkOut
  rw [htake, List.enum_append, hlen]
  rw [List.foldl_append]
  rfl

theorem unlinkOut_succ_of_ge (a : List (Node K V)) (r : Nat) (upd : List Nat)
    (c : Nat) (h : upd.length ≤ c) :
    unlinkOut a r upd (c + 1) = unlinkOut a r upd c := by
  unfold unlinkOut
  rw [List.take_of_length_le h, List.take_of_length_le (by omega)]

theorem spliceIn_length (a : List (Node K V)) (n : Nat) (upd : List Nat)
    (count : Nat) : (spliceIn a n upd count).length = a.length := by
  induction count with
  | zero => rfl
  | succ c ih =>
    by_cases hc : c < upd.length
    · obtain ⟨u, hu⟩ : ∃ u, upd.get? c = some u := by
        rw [List.get?_eq_getElem?]
        exact ⟨upd[c], List.getElem?_eq_some_iff.mpr ⟨hc, rfl⟩⟩
      rw [spliceIn_succ_of_lt a n upd c u hu, length_setForward,
        length_setForward, ih]
    · rw [spliceIn_succ_of_ge a n upd c (by omega), ih]

theorem unlinkOut_length (a : List (Node K V)) (r : Nat) (upd : List Nat)
    (count : Nat) : (unlinkOut a r upd count).length = a.length := by
  induction count with
  | zero => rfl
  | succ c ih =>
    by_cases hc : c < upd.length
    · obtain ⟨u, hu⟩ : ∃ u, upd.get? c = some u := by
        rw [List.get?_eq_getElem?]
        exact ⟨upd[c], List.getElem?_eq_some_iff.mpr ⟨hc, rfl⟩⟩
      rw [unlinkOut_succ_of_lt a r upd c u hu, length_setForward, ih]
    · rw [unlinkOut_succ_of_ge a r upd c (by omega), ih]

theorem spliceIn_keyA (a : List (Node K V)) (n : Nat) (upd : List Nat)
    (count : Nat) (q : Nat) : keyA (spliceIn a n upd count) q = keyA a q := by
  induction count with
  | zero => rfl
  | succ c ih =>
    by_cases hc : c < upd.length
    · obtain ⟨u, hu⟩ : ∃ u, upd.get? c = some u := by
        rw [List.get?_eq_getElem?]
        exact ⟨upd[c], List.getElem?_eq_some_iff.mpr ⟨hc, rfl⟩⟩
      rw [spliceIn_succ_of_lt a n upd c u hu, keyA_setForward,
        keyA_setForward, ih]
    · rw [spliceIn_succ_of_ge a n upd c (by omega), ih]

theorem spliceIn_valA (a : List (Node K V)) (n : Nat) (upd : List Nat)
    (count : Nat) (q : Nat) : valA (spliceIn a n upd count) q = valA a q := by
  induction count with
  | zero => rfl
  | succ c ih =>
    by_cases hc : c < upd.length
    · obtain ⟨u, hu⟩ : ∃ u, upd.get? c = some u := by
        rw [List.get?_eq_getElem?]
        exact ⟨upd[c], List.getElem?_eq_some_iff.mpr ⟨hc, rfl⟩⟩
      rw [spliceIn_succ_of_lt a n upd c u hu, valA_setForward,
        valA_setForward, ih]
    · rw [spliceIn_succ_of_ge a n upd c (by omega), ih]

theorem spliceIn_forwardLen (a : List (Node K V)) (n : Nat) (upd : List Nat)
    (count : Nat) (q : Nat) :
    (nodeA (spliceIn a n upd count) q).forward.length
      = (nodeA a q).forward.length := by
  induction count with
  | zero => rfl
  | succ c ih =>
    by_cases hc : c < upd.length
    · obtain ⟨u, hu⟩ : ∃ u, upd.get? c = some u := by
        rw [List.get?_eq_getElem?]
        exact ⟨upd[c], List.getElem?_eq_some_iff.mpr ⟨hc, rfl⟩⟩
      rw [spliceIn_succ_of_lt a n upd c u hu, forwardLen_setForward,
        forwardLen_setForward, ih]
    · rw [spliceIn_succ_of_ge a n upd c (by omega), ih]

theorem unlinkOut_keyA (a : List (Node K V)) (r : Nat) (upd : List Nat)
    (count : Nat) (q : Nat) : keyA (unlinkOut a r upd count) q = keyA a q := by
  induction count with
  | zero => rfl
  | succ c ih =>
    by_cases hc : c < upd.length
    · obtain ⟨u, hu⟩ : ∃ u, upd.get? c = some u := by
        rw [List.get?_eq_getElem?]
        exact ⟨upd[c], List.getElem?_eq_some_iff.mpr ⟨hc, rfl⟩⟩
      rw [unlinkOut_succ_of_lt a r upd c u hu, keyA_setForward, ih]
    · rw [unlinkOut_succ_of_ge a r upd c (by omega), ih]

theorem unlinkOut_valA (a : List (Node K V)) (r : Nat) (upd : List Nat)
    (count : Nat) (q : Nat) : valA (unlinkOut a r upd count) q = valA a q := by
  induction count with
  | zero => rfl
  | succ c ih =>
    by_cases hc : c < upd.length
    · obtain ⟨u, hu⟩ : ∃ u, upd.get? c = some u := by
        rw [List.get?_eq_getElem?]
        exact ⟨upd[c], List.getElem?_eq_some_iff.mpr ⟨hc, rfl⟩⟩
      rw [unlinkOut_succ_of_lt a r upd c u hu, valA_setForward, ih]
    · rw [unlinkOut_succ_of_ge a r upd c (by omega), ih]

theorem unlinkOut_forwardLen (a : List (Node K V)) (r : Nat) (upd : List Nat)
    (count : Nat) (q : Nat) :
    (nodeA (unlinkOut a r upd count) q).forward.length
      = (nodeA a q).forward.length := by
  induction count with
  | zero => rfl
  | succ c ih =>
    by_cases hc : c < upd.length
    · obtain ⟨u, hu⟩ : ∃ u, upd.get? c = some u := by
        rw [List.get?_eq_getElem?]
        exact ⟨upd[c], List.getElem?_eq_some_iff.mpr ⟨hc, rfl⟩⟩
      rw [unlinkOut_succ_of_lt a r upd c u hu, forwardLen_setForward, ih]
    · rw [unlinkOut_succ_of_ge a r upd c (by omega), ih]

theorem spliceIn_getForward (a : List (Node K V)) (n : Nat) (upd : List Nat)
    (count : Nat)
    (hn : ∀ u ∈ upd, u < n) (hna : n < a.length)
    (hnl : ∀ m < count, m < (nodeA a n).forward.length)
    (hul : ∀ m, m < count → m < upd.length →
      m < (nodeA a (upd.getD m 0)).forward.length) :
    ∀ q m, getForward (spliceIn a n upd count) q m =
      if m < count ∧ m < upd.length then
        (if q = n then getForward a (upd.getD m 0) m
         else if q = upd.getD m 0 then some n
         else getForward a q m)
      else getForward a q m := by
  induction count with
  | zero =>
    intro q m
    rw [if_neg (by omega)]
    rfl
  | succ c ih =>
    intro q m
    by_cases hc : c < upd.length
    · obtain ⟨u, hu⟩ : ∃ u, upd.get? c = some u := by
        rw [List.get?_eq_getElem?]
        exact ⟨upd[c], List.getElem?_eq_some_iff.mpr ⟨hc, rfl⟩⟩
      have hud : upd.getD c 0 = u := by
        unfold List.getD
        rw [hu]
        rfl
      have humem : u ∈ upd := List.get?_mem hu
      have hun : u ≠ n := Nat.ne_of_lt (hn u humem)
      have hua : u < a.length := lt_trans (hn u humem) hna
      have ih2 := ih (fun m hm => hnl m (by omega))
        (fun m hm1 hm2 => hul m (by omega) hm2)
      rw [spliceIn_succ_of_lt a n upd c u hu]
      by_cases hm : m = c
      · subst hm
        rw [if_pos ⟨by omega, hc⟩, hud]
        by_cases hqu : q = u
        · subst hqu
          rw [if_neg hun]
          rw [if_pos rfl]
          rw [getForward_setForward_self _ _ _ _ ?_ ?_]
          · rw [length_setForward, spliceIn_length]
            exact hua
          · rw [forwardLen_setForward, spliceIn_forwardLen]
            rw [← hud]
            exact hul m (by omega) hc
        · rw [getForward_setForward_ne_pos _ _ _ _ _ _ hqu]
          by_cases hqn : q = n
          · subst hqn
            rw [if_pos rfl]
            rw [getForward_setForward_self _ _ _ _ ?_ ?_]
            · rw [ih2 u m, if_neg (by omega)]
            · rw [spliceIn_length]
              exact hna
            · rw [spliceIn_forwardLen]
              exact hnl m (by omega)
          · rw [if_neg hqn, if_neg hqu,
              getForward_setForward_ne_pos _ _ _ _ _ _ hqn,
              ih2 q m, if_neg (by omega)]
      · rw [getForward_setForward_ne_lvl _ _ _ _ _ _ (fun hx => hm hx),
          getForward_setForward_ne_lvl _ _ _ _ _ _ (fun hx => hm hx),
          ih2 q m]
        by_cases h1 : m < c ∧ m < upd.length
        · have h2 : m < c + 1 ∧ m < upd.length := ⟨by omega, h1.2⟩
          rw [if_pos h1, if_pos h2]
        · have h2 : ¬ (m < c + 1 ∧ m < upd.length) := by
            intro hx
            exact h1 ⟨by omega, hx.2⟩
          rw [if_neg h1, if_neg h2]
    · rw [spliceIn_succ_of_ge a n upd c (by omega)]
      have ih2 := ih (fun m hm => hnl m (by omega))
        (fun m hm1 hm2 => hul m (by omega) hm2)
      rw [ih2 q m]
      by_cases h1 : m < c ∧ m < upd.length
      · have h2 : m < c + 1 ∧ m < upd.length := ⟨by omega, h1.2⟩
        rw [if_pos h1, if_pos h2]
      · have h2 : ¬ (m < c + 1 ∧ m < upd.length) := by
          intro hx
          exact h1 ⟨by omega, hx.2⟩
        rw [if_neg h1, if_neg h2]

theorem unlinkOut_getForward (a : List (Node K V)) (r : Nat) (upd : List Nat)
    (count : Nat)
    (hua : ∀ u ∈ upd, u < a.length)
    (hur : ∀ m, m < count → m < upd.length → upd.getD m 0 ≠ r)
    (hul : ∀ m, m < count → m < upd.length →
      m < (nodeA a (upd.getD m 0)).forward.length) :
    ∀ q m, getForward (unlinkOut a r upd count) q m =
      if m < count ∧ m < upd.length ∧ q = upd.getD m 0 then getForward a r m
      else getForward a q m := by
  induction count with
  | zero =>
    intro q m
    rw [if_neg (by omega)]
    rfl
  | succ c ih =>
    intro q m
    by_cases hc : c < upd.length
    · obtain ⟨u, hu⟩ : ∃ u, upd.get? c = some u := by
        rw [List.get?_eq_getElem?]
        exact ⟨upd[c], List.getElem?_eq_some_iff.mpr ⟨hc, rfl⟩⟩
      have hud : upd.getD c 0 = u := by
        unfold List.getD
        rw [hu]
        rfl
      have humem : u ∈ upd := List.get?_mem hu
      have ih2 := ih (fun m hm1 hm2 => hur m (by omega) hm2)
        (fun m hm1 hm2 => hul m (by omega) hm2)
      rw [unlinkOut_succ_of_lt a r upd c u hu]
      by_cases hm : m = c
      · subst hm
        by_cases hqu : q = u
        · subst hqu
          rw [if_pos ⟨by omega, hc, hud.symm⟩]
          rw [getForward_setForward_self _ _ _ _ ?_ ?_]
          · rw [ih2 r m, if_neg ?_]
            intro hx
            exact (hur m (by omega) hc) (hx.2.2.symm)
          · rw [unlinkOut_length]
            exact hua _ humem
          · rw [unlinkOut_forwardLen, ← hud]
            exact hul m (by omega) hc
        · rw [getForward_setForward_ne_pos _ _ _ _ _ _ hqu, ih2 q m,
            if_neg (by omega)]
          rw [if_neg ?_]
          intro hx
          rw [hud] at hx
          exact hqu hx.2.2
      · rw [getForward_setForward_ne_lvl _ _ _ _ _ _ (fun hx => hm hx),
          ih2 q m]
        by_cases h1 : m < c ∧ m < upd.length ∧ q = upd.getD m 0
        · have h2 : m < c + 1 ∧ m < upd.length ∧ q = upd.getD m 0 :=
            ⟨by omega, h1.2⟩
          rw [if_pos h1, if_pos h2]
        · have h2 : ¬ (m < c + 1 ∧ m < upd.length ∧ q = upd.getD m 0) := by
            intro hx
            exact h1 ⟨by omega, hx.2⟩
          rw [if_neg h1, if_neg h2]
    · rw [unlinkOut_succ_of_ge a r upd c (by omega)]
      have ih2 := ih (fun m hm1 hm2 => hur m (by omega) hm2)
        (fun m hm1 hm2 => hul m (by omega) hm2)
      rw [ih2 q m]
      by_cases h1 : m < c ∧ m < upd.length ∧ q = upd.getD m 0
      · have h2 : m < c + 1 ∧ m < upd.length ∧ q = upd.getD m 0 :=
          ⟨by omega, h1.2⟩
        rw [if_pos h1, if_pos h2]
      · have h2 : ¬ (m < c + 1 ∧ m < upd.length ∧ q = upd.getD m 0) := by
          intro hx
          exact h1 ⟨by omega, hx.2⟩
        rw [if_neg h1, if_neg h2]

end LoopLemmas

/-! Chain surgery: how a `Links` chain changes when one node is spliced in or
unlinked. -/

section SurgeryLemmas

theorem links_insert (σ σ2 : Nat → Option Nat) (n : Nat) :
    ∀ (X D2 : List Nat) (c : Nat),
      Links σ c (X ++ D2) →
      σ2 (X.getLastD c) = some n →
      σ2 n = D2.head? →
      (∀ q, (q = c ∨ q ∈ X ++ D2) → q ≠ X.getLastD c → q ≠ n → σ2 q = σ q) →
      c ≠ n → c ∉ X ++ D2 → (X ++ D2).Nodup → n ∉ X ++ D2 →
      Links σ2 c (X ++ n :: D2) := by
  intro X
  induction X with
  | nil =>
    intro D2 c hold hu hn hkeep hcn hcmem hnd hnmem
    simp only [List.nil_append] at hold hcmem hnmem ⊢
    refine ⟨hu, ?_⟩
    cases D2 with
    | nil => exact hn
    | cons d rest =>
      refine ⟨hn, ?_⟩
      refine Links.congr ?_ hold.2
      intro q hq
      have hqmem : q ∈ d :: rest := by
        rcases hq with h | h
        · rw [h]; exact List.mem_cons_self d rest
        · exact List.mem_cons_of_mem d h
      refine hkeep q (Or.inr hqmem) ?_ ?_
      · intro hc
        have hc2 : q = c := hc
        rw [hc2] at hqmem
        exact hcmem hqmem
      · intro hc
        rw [hc] at hqmem
        exact hnmem hqmem
  | cons x X2 ih =>
    intro D2 c hold hu hn hkeep hcn hcmem hnd hnmem
    have hgl : (x :: X2).getLastD c = X2.getLastD x := List.getLastD_cons c x X2
    have hglmem : X2.getLastD x ∈ x :: X2 := by
      have h0 := getLastD_mem (x :: X2) c (by simp)
      rw [hgl] at h0
      exact h0
    have hxn : x ≠ n := by
      intro hc
      refine hnmem ?_
      rw [← hc]
      exact List.mem_append_left _ (List.mem_cons_self x X2)
    have hσc : σ2 c = some x := by
      have hne1 : c ≠ (x :: X2).getLastD c := by
        rw [hgl]
        intro hc
        exact hcmem (by rw [hc]; exact List.mem_append_left _ hglmem)
      rw [hkeep c (Or.inl rfl) hne1 hcn]
      exact hold.1
    refine ⟨hσc, ?_⟩
    have hnd1 : x ∉ X2 ++ D2 ∧ (X2 ++ D2).Nodup := List.nodup_cons.mp hnd
    rw [hgl] at hu
    refine ih D2 x hold.2 hu hn ?_ hxn hnd1.1 hnd1.2 ?_
    · intro q hq hq1 hq2
      refine hkeep q ?_ ?_ hq2
      · rcases hq with h | h
        · rw [h]
          exact Or.inr (List.mem_append_left _ (List.mem_cons_self x X2))
        · rcases List.mem_append.mp h with h2 | h2
          · exact Or.inr (List.mem_append_left _ (List.mem_cons_of_mem x h2))
          · exact Or.inr (List.mem_append_right _ h2)
      · rw [hgl]
        exact hq1
    · intro hc
      rcases List.mem_append.mp hc with h2 | h2
      · exact hnmem (List.mem_append_left _ (List.mem_cons_of_mem x h2))
      · exact hnmem (List.mem_append_right _ h2)

theorem links_remove (σ σ2 : Nat → Option Nat) (r : Nat) :
    ∀ (X D2 : List Nat) (c : Nat),
      Links σ c (X ++ r :: D2) →
      σ2 (X.getLastD c) = D2.head? →
      (∀ q, (q = c ∨ q ∈ X ++ D2) → q ≠ X.getLastD c → σ2 q = σ q) →
      c ∉ X ++ r :: D2 → (X ++ r :: D2).Nodup →
      Links σ2 c (X ++ D2) := by
  intro X
  induction X with
  | nil =>
    intro D2 c hold hu hkeep hcmem hnd
    simp only [List.nil_append] at hold hcmem ⊢
    cases D2 with
    | nil => exact hu
    | cons d rest =>
      refine ⟨hu, ?_⟩
      refine Links.congr ?_ hold.2.2
      intro q hq
      have hqmem : q ∈ d :: rest := by
        rcases hq with h | h
        · rw [h]; exact List.mem_cons_self d rest
        · exact List.mem_cons_of_mem d h
      refine hkeep q (Or.inr hqmem) ?_
      intro hc
      have hc2 : q = c := hc
      rw [hc2] at hqmem
      exact hcmem (List.mem_cons_of_mem r hqmem)
  | cons x X2 ih =>
    intro D2 c hold hu hkeep hcmem hnd
    have hgl : (x :: X2).getLastD c = X2.getLastD x := List.getLastD_cons c x X2
    have hglmem : X2.getLastD x ∈ x :: X2 := by
      have h0 := getLastD_mem (x :: X2) c (by simp)
      rw [hgl] at h0
      exact h0
    have hσc : σ2 c = some x := by
      have hne1 : c ≠ (x :: X2).getLastD c := by
        rw [hgl]
        intro hc
        exact hcmem (by rw [hc]; exact List.mem_append_left _ hglmem)
      rw [hkeep c (Or.inl rfl) hne1]
      exact hold.1
    refine ⟨hσc, ?_⟩
    have hnd1 : x ∉ X2 ++ r :: D2 ∧ (X2 ++ r :: D2).Nodup :=
      List.nodup_cons.mp hnd
    rw [hgl] at hu
    refine ih D2 x hold.2 hu ?_ hnd1.1 hnd1.2
    intro q hq hq1
    refine hkeep q ?_ ?_
    · rcases hq with h | h
      · rw [h]
        exact Or.inr (List.mem_append_left _ (List.mem_cons_self x X2))
      · rcases List.mem_append.mp h with h2 | h2
        · exact Or.inr (List.mem_append_left _ (List.mem_cons_of_mem x h2))
        · exact Or.inr (List.mem_append_right _ h2)
    · rw [hgl]
      exact hq1

end SurgeryLemmas

/-! More search facts needed by the step lemmas. -/

section SearchLemmas2

variable {K V : Type} [LinearOrder K] [Inhabited K] [Inhabited V]
variable {s : SkipListMap K V} {ids : List Nat}

theorem dropWhile_keys_ge {l : List Nat}
    (hs : l.Pairwise (fun a b => keyA s.nodes a < keyA s.nodes b)) (key : K) :
    ∀ d ∈ l.dropWhile (keyLt s key), ¬ keyA s.nodes d < key := by
  intro d hd
  rcases hD : l.dropWhile (keyLt s key) with _ | ⟨d0, rest0⟩
  · rw [hD] at hd
    exact absurd hd (List.not_mem_nil d)
  · have hd0 : keyLt s key d0 = false :=
      dropWhile_head_not l (keyLt s key) d0 (by rw [hD]; rfl)
    have hd0k : ¬ keyA s.nodes d0 < key := by simpa [keyLt] using hd0
    rw [hD] at hd
    rcases List.mem_cons.mp hd with h | h
    · rw [h]; exact hd0k
    · have hsorted : (l.dropWhile (keyLt s key)).Pairwise
          (fun a b => keyA s.nodes a < keyA s.nodes b) :=
        hs.sublist (List.dropWhile_sublist _)
      rw [hD] at hsorted
      have hlt := (List.pairwise_cons.mp hsorted).1 d h
      intro hc
      exact hd0k (lt_trans hlt hc)

theorem takeWhile_sub_eq_nil {l sub : List Nat}
    (hs : l.Pairwise (fun a b => keyA s.nodes a < keyA s.nodes b)) (key : K)
    (hsub : List.Sublist sub (l.dropWhile (keyLt s key))) :
    sub.takeWhile (keyLt s key) = [] := by
  cases sub with
  | nil => rfl
  | cons d rest =>
    have hd : ¬ keyA s.nodes d < key :=
      dropWhile_keys_ge hs key d (hsub.subset (List.mem_cons_self d rest))
    have : keyLt s key d = false := by simpa [keyLt] using hd
    simp [List.takeWhile_cons, this]

theorem takeWhile_chain_eq (hG : Good s ids) (key : K) (lvl : Nat) :
    (chainL s ids lvl).takeWhile (keyLt s key)
      = (ids.takeWhile (keyLt s key)).filter
          (fun id => decide (lvl < plvA s.nodes id)) := by
  have hids : chainL s ids lvl
      = (ids.takeWhile (keyLt s key)).filter
          (fun id => decide (lvl < plvA s.nodes id))
        ++ (ids.dropWhile (keyLt s key)).filter
          (fun id => decide (lvl < plvA s.nodes id)) := by
    unfold chainL
    conv_lhs => rw [← List.takeWhile_append_dropWhile
      (p := keyLt s key) (l := ids)]
    rw [List.filter_append]
  rw [hids, takeWhile_append_all _ _ _ ?_, takeWhile_sub_eq_nil hG.sorted key
    (List.filter_sublist _), List.append_nil]
  intro x hx
  exact List.mem_takeWhile_imp ((List.filter_sublist _).subset hx)

theorem dropWhile_chain_eq (hG : Good s ids) (key : K) (lvl : Nat) :
    (chainL s ids lvl).dropWhile (keyLt s key)
      = (ids.dropWhile (keyLt s key)).filter
          (fun id => decide (lvl < plvA s.nodes id)) := by
  have h1 := List.takeWhile_append_dropWhile (p := keyLt s key)
    (l := chainL s ids lvl)
  have h2 : chainL s ids lvl
      = (ids.takeWhile (keyLt s key)).filter
          (fun id => decide (lvl < plvA s.nodes id))
        ++ (ids.dropWhile (keyLt s key)).filter
          (fun id => decide (lvl < plvA s.nodes id)) := by
    unfold chainL
    conv_lhs => rw [← List.takeWhile_append_dropWhile
      (p := keyLt s key) (l := ids)]
    rw [List.filter_append]
  have h3 := takeWhile_chain_eq hG key lvl
  have := h1
  rw [h3] at this
  conv_rhs at this => rw [h2]
  exact List.append_cancel_left this

theorem nodeA_oob (a : List (Node K V)) (q : Nat) (h : a.length ≤ q) :
    nodeA a q = ⟨[], default, default⟩ := by
  unfold nodeA
  rw [List.get?_eq_getElem?, List.getElem?_eq_none (by omega)]
  rfl

theorem getForward_oob (a : List (Node K V)) (q m : Nat) (h : a.length ≤ q) :
    getForward a q m = none := by
  rw [getForward_eq, nodeA_oob a q h]
  simp [Node.next]

theorem getForward_append (a l : List (Node K V)) (q m : Nat)
    (h : q < a.length) : getForward (a ++ l) q m = getForward a q m := by
  rw [getForward_eq, getForward_eq, nodeA_append_lt a l q h]

theorem keyA_append_ne (a : List (Node K V)) (x : Node K V) (q : Nat)
    (h : q ≠ a.length) : keyA (a ++ [x]) q = keyA a q := by
  unfold keyA
  rcases Nat.lt_or_ge q a.length with h2 | h2
  · rw [nodeA_append_lt a [x] q h2]
  · rw [nodeA_oob a q h2, nodeA_oob (a ++ [x]) q (by simp; omega)]

theorem valA_append_ne (a : List (Node K V)) (x : Node K V) (q : Nat)
    (h : q ≠ a.length) : valA (a ++ [x]) q = valA a q := by
  unfold valA
  rcases Nat.lt_or_ge q a.length with h2 | h2
  · rw [nodeA_append_lt a [x] q h2]
  · rw [nodeA_oob a q h2, nodeA_oob (a ++ [x]) q (by simp; omega)]

theorem forwardLen_append_ne (a : List (Node K V)) (x : Node K V) (q : Nat)
    (h : q ≠ a.length) :
    (nodeA (a ++ [x]) q).forward.length = (nodeA a q).forward.length := by
  rcases Nat.lt_or_ge q a.length with h2 | h2
  · rw [nodeA_append_lt a [x] q h2]
  · rw [nodeA_oob a q h2, nodeA_oob (a ++ [x]) q (by simp; omega)]

theorem make_next (key : K) (value : V) (height m : Nat) :
    (Node.make key value height).next m = none := by
  unfold Node.make Node.next
  rcases Nat.lt_or_ge m (height + 1) with h | h
  · rw [List.get?_eq_getElem?]
    simp [List.getElem?_replicate, h]
  · rw [List.get?_eq_getElem?, List.getElem?_eq_none (by simp; omega)]
    rfl

theorem dropWhile_keys_gt (hG : Good s ids) (key : K)
    (hk : key ∉ ids.map (keyA s.nodes)) :
    ∀ d ∈ ids.dropWhile (keyLt s key), key < keyA s.nodes d := by
  intro d hd
  have hge := dropWhile_keys_ge hG.sorted key d hd
  have hmem : d ∈ ids := (List.dropWhile_sublist _).subset hd
  have hne : keyA s.nodes d ≠ key := by
    intro hc
    exact hk (List.mem_map.mpr ⟨d, hmem, hc⟩)
  rcases lt_trichotomy (keyA s.nodes d) key with h | h | h
  · exact absurd h hge
  · exact absurd h hne
  · exact h

theorem sigma_predL (hG : Good s ids) (key : K) (lvl : Nat) :
    getForward s.nodes (predL s ids key lvl) lvl
      = ((chainL s ids lvl).dropWhile (keyLt s key)).head? := by
  obtain ⟨pre, hpre⟩ :=
    cons_eq_append_getLastD ((chainL s ids lvl).takeWhile (keyLt s key))
      s.head_
  have hdec : s.head_ :: chainL s ids lvl
      = pre ++ (predL s ids key lvl)
          :: ((chainL s ids lvl).dropWhile (keyLt s key)) := by
    conv_lhs => rw [← List.takeWhile_append_dropWhile
      (p := keyLt s key) (l := chainL s ids lvl)]
    rw [← List.cons_append, hpre, List.append_assoc, List.singleton_append]
    rfl
  exact hG.sigma_eq lvl hdec

theorem chain_split (s : SkipListMap K V) (ids : List Nat) (key : K)
    (lvl : Nat) :
    chainL s ids lvl
      = (ids.takeWhile (keyLt s key)).filter
          (fun id => decide (lvl < plvA s.nodes id))
        ++ (ids.dropWhile (keyLt s key)).filter
          (fun id => decide (lvl < plvA s.nodes id)) := by
  unfold chainL
  conv_lhs => rw [← List.takeWhile_append_dropWhile
    (p := keyLt s key) (l := ids)]
  rw [List.filter_append]

theorem predL_lt (hG : Good s ids) (key : K) (lvl : Nat) :
    predL s ids key lvl < s.nodes.length := by
  rcases predL_entry hG key (le_refl lvl) with h | h
  · rw [h]
    exact hG.head_lt
  · exact hG.mem_lt _ ((chain_sublist s ids lvl).subset h.1)

theorem predL_ne_head_or (hG : Good s ids) (key : K) (lvl : Nat) :
    predL s ids key lvl = s.head_ ∨ predL s ids key lvl ∈ ids := by
  rcases predL_entry hG key (le_refl lvl) with h | h
  · exact Or.inl h
  · exact Or.inr ((chain_sublist s ids lvl).subset h.1)

theorem predL_forward_len (hG : Good s ids) (key : K) {m : Nat}
    (hm : m < s.maxHeight_) :
    m < (nodeA s.nodes (predL s ids key m)).forward.length := by
  rcases predL_entry hG key (le_refl m) with h | h
  · rw [h, hG.head_len]
    omega
  · have hmem : predL s ids key m ∈ ids :=
      (chain_sublist s ids m).subset h.1
    have hplv : m < plvA s.nodes (predL s ids key m) := by
      have := List.of_mem_filter h.1
      simpa using this
    have h1 := (hG.height_mem _ hmem).1
    unfold plvA heightA Node.height at hplv
    omega

end SearchLemmas2

/-! The fresh-key path of `insert`. -/

section StepInsert

variable {K V : Type} [LinearOrder K] [Inhabited K] [Inhabited V]
variable {s : SkipListMap K V} {ids : List Nat}

theorem insert_eq_fresh (hG : Good s ids) (key : K) (value : V) (height : Nat)
    (hk : key ∉ ids.map (keyA s.nodes)) :
    insert s key value height
      = (insertFresh s key value height
          (find_lower_bound_with_updates s key).2, none) := by
  have h1 : nextPtr s (find_lower_bound_with_updates s key).1 0
      = firstGE s ids key := by
    rw [(find_lower_bound_with_updates_spec hG key).1]
    exact nextPtr_predL0 hG key
  unfold insert
  simp only [h1]
  rcases h2 : firstGE s ids key with _ | nx
  · rfl
  · have hf := @firstGE_spec K V _ _ _ s ids key nx h2
    have hne : keyAt s nx ≠ key := by
      intro hc
      exact hk (List.mem_map.mpr ⟨nx, hf.2, hc⟩)
    simp only [hne, if_false]

theorem insertFresh_fields (key : K) (value : V) (height : Nat)
    (upd : List Nat) :
    (insertFresh s key value height upd).nodes.length = s.nodes.length + 1 ∧
    (insertFresh s key value height upd).head_ = s.head_ ∧
    (insertFresh s key value height upd).length_ = s.length_ + 1 ∧
    (insertFresh s key value height upd).height_ = max s.height_ height ∧
    (insertFresh s key value height upd).maxHeight_ = s.maxHeight_ := by
  unfold insertFresh
  refine ⟨?_, rfl, rfl, rfl, rfl⟩
  rw [spliceIn_length]
  simp

theorem insertFresh_keyA (key : K) (value : V) (height : Nat)
    (upd : List Nat) (q : Nat) :
    keyA (insertFresh s key value height upd).nodes q
      = if q = s.nodes.length then key else keyA s.nodes q := by
  unfold insertFresh
  simp only []
  rw [spliceIn_keyA]
  by_cases hq : q = s.nodes.length
  · subst hq
    rw [if_pos rfl]
    unfold keyA
    rw [nodeA_append_self]
    rfl
  · rw [if_neg hq, keyA_append_ne s.nodes _ q hq]

theorem insertFresh_valA (key : K) (value : V) (height : Nat)
    (upd : List Nat) (q : Nat) :
    valA (insertFresh s key value height upd).nodes q
      = if q = s.nodes.length then value else valA s.nodes q := by
  unfold insertFresh
  simp only []
  rw [spliceIn_valA]
  by_cases hq : q = s.nodes.length
  · subst hq
    rw [if_pos rfl]
    unfold valA
    rw [nodeA_append_self]
    rfl
  · rw [if_neg hq, valA_append_ne s.nodes _ q hq]

theorem insertFresh_forwardLen (key : K) (value : V) (height : Nat)
    (upd : List Nat) (q : Nat) :
    (nodeA (insertFresh s key value height upd).nodes q).forward.length
      = if q = s.nodes.length then height + 1
        else (nodeA s.nodes q).forward.length := by
  unfold insertFresh
  simp only []
  rw [spliceIn_forwardLen]
  by_cases hq : q = s.nodes.length
  · subst hq
    rw [if_pos rfl, nodeA_append_self]
    simp [Node.make]
  · rw [if_neg hq, forwardLen_append_ne s.nodes _ q hq]

theorem insertFresh_getForward (hG : Good s ids) (key : K) (value : V)
    (height : Nat) (hh : height ≤ s.maxHeight_) (upd : List Nat)
    (hlen : upd.length = s.maxHeight_)
    (hupd : ∀ j < s.maxHeight_, upd.get? j = some (predL s ids key j)) :
    ∀ q m, getForward (insertFresh s key value height upd).nodes q m =
      if m < max height 1 ∧ q = s.nodes.length then
        getForward s.nodes (predL s ids key m) m
      else if m < max height 1 ∧ q = predL s ids key m then
        some s.nodes.length
      else if q = s.nodes.length then none
      else getForward s.nodes q m := by
  intro q m
  have hcnt : max height 1 ≤ s.maxHeight_ := by
    have := hG.maxH_pos
    omega
  have hgetD : ∀ j, j < max height 1 → upd.getD j 0 = predL s ids key j := by
    intro j hj
    unfold List.getD
    rw [hupd j (by omega)]
    rfl
  have hmemlt : ∀ u ∈ upd, u < s.nodes.length := by
    intro u hu
    obtain ⟨j, hj⟩ := List.mem_iff_get?.mp hu
    have hjlen : j < upd.length := by
      rw [List.get?_eq_getElem?] at hj
      exact (List.getElem?_eq_some_iff.mp hj).1
    rw [hupd j (by omega)] at hj
    have : u = predL s ids key j := by
      injection hj.symm
    rw [this]
    exact predL_lt hG key j
  have hside1 : ∀ j < max height 1,
      j < (nodeA (s.nodes ++ [Node.make key value height])
        s.nodes.length).forward.length := by
    intro j hj
    rw [nodeA_append_self]
    unfold Node.make
    simp
    omega
  have hside2 : ∀ j, j < max height 1 → j < upd.length →
      j < (nodeA (s.nodes ++ [Node.make key value height])
        (upd.getD j 0)).forward.length := by
    intro j hj hjlen
    rw [hgetD j hj]
    have hplt : predL s ids key j < s.nodes.length := predL_lt hG key j
    rw [nodeA_append_lt s.nodes _ _ hplt]
    exact predL_forward_len hG key (by omega)
  have hCF := spliceIn_getForward (s.nodes ++ [Node.make key value height])
    s.nodes.length upd (max height 1)
    (fun u hu => hmemlt u hu) (by simp) hside1 hside2
  have hstate : (insertFresh s key value height upd).nodes
      = spliceIn (s.nodes ++ [Node.make key value height])
          s.nodes.length upd (max height 1) := rfl
  rw [hstate, hCF q m]
  by_cases h1 : m < max height 1
  · have h1b : m < upd.length := by omega
    have hrA : m < max height 1 ∧ m < upd.length := ⟨h1, h1b⟩
    rw [if_pos hrA, hgetD m h1]
    by_cases hqn : q = s.nodes.length
    · have hr : m < max height 1 ∧ q = s.nodes.length := ⟨h1, hqn⟩
      rw [if_pos hqn, if_pos hr,
        getForward_append s.nodes _ _ _ (predL_lt hG key m)]
    · have hr1 : ¬ (m < max height 1 ∧ q = s.nodes.length) :=
        fun hc => hqn hc.2
      rw [if_neg hqn, if_neg hr1]
      by_cases hqp : q = predL s ids key m
      · have hr2 : m < max height 1 ∧ q = predL s ids key m := ⟨h1, hqp⟩
        rw [if_pos hqp, if_pos hr2]
      · have hr2 : ¬ (m < max height 1 ∧ q = predL s ids key m) :=
          fun hc => hqp hc.2
        rw [if_neg hqp, if_neg hr2, if_neg hqn]
        rcases Nat.lt_or_ge q s.nodes.length with h2 | h2
        · rw [getForward_append s.nodes _ _ _ h2]
        · rw [getForward_oob _ _ _ (by simp; omega),
            getForward_oob _ _ _ (by omega)]
  · have hrA : ¬ (m < max height 1 ∧ m < upd.length) := fun hc => h1 hc.1
    have hrB : ¬ (m < max height 1 ∧ q = s.nodes.length) := fun hc => h1 hc.1
    have hrC : ¬ (m < max height 1 ∧ q = predL s ids key m) :=
      fun hc => h1 hc.1
    rw [if_neg hrA, if_neg hrB, if_neg hrC]
    by_cases hqn : q = s.nodes.length
    · subst hqn
      rw [if_pos rfl, getForward_eq, nodeA_append_self, make_next]
    · rw [if_neg hqn]
      rcases Nat.lt_or_ge q s.nodes.length with h2 | h2
      · rw [getForward_append s.nodes _ _ _ h2]
      · rw [getForward_oob _ _ _ (by simp; omega),
          getForward_oob _ _ _ (by omega)]

theorem insertFresh_plvA (key : K) (value : V) (height : Nat)
    (upd : List Nat) (q : Nat) :
    plvA (insertFresh s key value height upd).nodes q
      = if q = s.nodes.length then max height 1 else plvA s.nodes q := by
  unfold plvA heightA Node.height
  rw [insertFresh_forwardLen]
  by_cases hq : q = s.nodes.length
  · rw [if_pos hq, if_pos hq]
    omega
  · rw [if_neg hq, if_neg hq]

theorem insertFresh_good (hG : Good s ids) (key : K) (value : V)
    (height : Nat) (hk : key ∉ ids.map (keyA s.nodes))
    (hh : height ≤ s.maxHeight_) (upd : List Nat)
    (hlen : upd.length = s.maxHeight_)
    (hupd : ∀ j < s.maxHeight_, upd.get? j = some (predL s ids key j)) :
    Good (insertFresh s key value height upd)
      (ids.takeWhile (keyLt s key)
        ++ s.nodes.length :: ids.dropWhile (keyLt s key)) := by
  have hfields := insertFresh_fields (s := s) key value height upd
  have hCF := insertFresh_getForward hG key value height hh upd hlen hupd
  have hTsub : ∀ x ∈ ids.takeWhile (keyLt s key), x ∈ ids :=
    fun x hx => (List.takeWhile_sublist _).subset hx
  have hDsub : ∀ x ∈ ids.dropWhile (keyLt s key), x ∈ ids :=
    fun x hx => (List.dropWhile_sublist _).subset hx
  have hidlt : ∀ x ∈ ids, x < s.nodes.length := hG.mem_lt
  have hkeyA : ∀ x, x ≠ s.nodes.length →
      keyA (insertFresh s key value height upd).nodes x = keyA s.nodes x := by
    intro x hx
    rw [insertFresh_keyA, if_neg hx]
  have hkeyAn : keyA (insertFresh s key value height upd).nodes s.nodes.length
      = key := by
    rw [insertFresh_keyA, if_pos rfl]
  have hplvA : ∀ x, x ≠ s.nodes.length →
      plvA (insertFresh s key value height upd).nodes x = plvA s.nodes x := by
    intro x hx
    rw [insertFresh_plvA, if_neg hx]
  have hheadne : s.head_ ≠ s.nodes.length := Nat.ne_of_lt hG.head_lt
  have hTkey : ∀ x ∈ ids.takeWhile (keyLt s key), keyA s.nodes x < key := by
    intro x hx
    have := List.mem_takeWhile_imp hx
    simpa [keyLt] using this
  have hDkey : ∀ x ∈ ids.dropWhile (keyLt s key), key < keyA s.nodes x :=
    dropWhile_keys_gt hG key hk
  refine ⟨?_, ?_, ?_, ?_, ?_, ?_, ?_, ?_, ?_, ?_⟩
  · rw [hfields.1]
    show s.head_ < s.nodes.length + 1
    have := hG.head_lt
    omega
  · rw [hfields.2.1, hfields.2.2.2.2, insertFresh_forwardLen,
      if_neg hheadne]
    exact hG.head_len
  · rw [hfields.2.2.2.2]
    exact hG.maxH_pos
  · rw [hfields.2.2.2.1, hfields.2.2.2.2]
    have := hG.height_le
    omega
  · intro id hid
    rw [hfields.1]
    rcases List.mem_append.mp hid with h | h
    · have := hidlt _ (hTsub _ h)
      omega
    · rcases List.mem_cons.mp h with h2 | h2
      · omega
      · have := hidlt _ (hDsub _ h2)
        omega
  · intro id hid
    show id ≠ s.head_
    rcases List.mem_append.mp hid with h | h
    · exact hG.mem_ne_head _ (hTsub _ h)
    · rcases List.mem_cons.mp h with h2 | h2
      · rw [h2]
        exact fun hc => hheadne hc.symm
      · exact hG.mem_ne_head _ (hDsub _ h2)
  · rw [List.pairwise_append]
    refine ⟨?_, ?_, ?_⟩
    · refine (hG.sorted.sublist (List.takeWhile_sublist _)).imp_of_mem ?_
      intro a b ha hb hab
      rw [hkeyA a (Nat.ne_of_lt (hidlt _ (hTsub _ ha))),
        hkeyA b (Nat.ne_of_lt (hidlt _ (hTsub _ hb)))]
      exact hab
    · rw [List.pairwise_cons]
      refine ⟨?_, ?_⟩
      · intro b hb
        rw [hkeyAn, hkeyA b (Nat.ne_of_lt (hidlt _ (hDsub _ hb)))]
        exact hDkey b hb
      · refine (hG.sorted.sublist (List.dropWhile_sublist _)).imp_of_mem ?_
        intro a b ha hb hab
        rw [hkeyA a (Nat.ne_of_lt (hidlt _ (hDsub _ ha))),
          hkeyA b (Nat.ne_of_lt (hidlt _ (hDsub _ hb)))]
        exact hab
    · intro a ha b hb
      have hak : keyA (insertFresh s key value height upd).nodes a
          = keyA s.nodes a := hkeyA a (Nat.ne_of_lt (hidlt _ (hTsub _ ha)))
      rcases List.mem_cons.mp hb with h2 | h2
      · rw [h2, hak, hkeyAn]
        exact hTkey a ha
      · rw [hak, hkeyA b (Nat.ne_of_lt (hidlt _ (hDsub _ h2)))]
        exact lt_trans (hTkey a ha) (hDkey b h2)
  · intro id hid
    rw [insertFresh_forwardLen]
    unfold heightA Node.height
    rw [insertFresh_forwardLen, hfields.2.2.2.1]
    rcases List.mem_append.mp hid with h | h
    · rw [if_neg (Nat.ne_of_lt (hidlt _ (hTsub _ h)))]
      have := hG.height_mem _ (hTsub _ h)
      unfold heightA Node.height at this
      omega
    · rcases List.mem_cons.mp h with h2 | h2
      · rw [h2, if_pos rfl]
        omega
      · rw [if_neg (Nat.ne_of_lt (hidlt _ (hDsub _ h2)))]
        have := hG.height_mem _ (hDsub _ h2)
        unfold heightA Node.height at this
        omega
  · rw [hfields.2.2.1, List.length_append]
    have hsplit : (ids.takeWhile (keyLt s key)).length
        + (ids.dropWhile (keyLt s key)).length = ids.length := by
      rw [← List.length_append, List.takeWhile_append_dropWhile]
    rw [hG.len_eq]
    simp only [List.length_cons]
    omega
  · intro lvl
    have hchain2 : chainL (insertFresh s key value height upd)
        (ids.takeWhile (keyLt s key)
          ++ s.nodes.length :: ids.dropWhile (keyLt s key)) lvl
        = (ids.takeWhile (keyLt s key)).filter
            (fun id => decide (lvl < plvA s.nodes id))
          ++ (if lvl < max height 1 then
                s.nodes.length :: (ids.dropWhile (keyLt s key)).filter
                  (fun id => decide (lvl < plvA s.nodes id))
              else (ids.dropWhile (keyLt s key)).filter
                  (fun id => decide (lvl < plvA s.nodes id))) := by
      unfold chainL
      rw [List.filter_append]
      congr 1
      · refine List.filter_congr ?_
        intro x hx
        rw [hplvA x (Nat.ne_of_lt (hidlt _ (hTsub _ hx)))]
      · rw [List.filter_cons]
        have hpn : plvA (insertFresh s key value height upd).nodes
            s.nodes.length = max height 1 := by
          rw [insertFresh_plvA, if_pos rfl]
        have hfd : (ids.dropWhile (keyLt s key)).filter
              (fun id => decide (lvl < plvA
                (insertFresh s key value height upd).nodes id))
            = (ids.dropWhile (keyLt s key)).filter
              (fun id => decide (lvl < plvA s.nodes id)) := by
          refine List.filter_congr ?_
          intro x hx
          rw [hplvA x (Nat.ne_of_lt (hidlt _ (hDsub _ hx)))]
        rw [hpn, hfd]
        by_cases hlvl : lvl < max height 1
        · rw [if_pos (by simpa using hlvl), if_pos hlvl]
        · rw [if_neg (by simpa using hlvl), if_neg hlvl]
    rw [hchain2]
    have holdlinks := hG.links lvl
    rw [chain_split s ids key lvl] at holdlinks
    have hTfsub : ∀ x ∈ (ids.takeWhile (keyLt s key)).filter
        (fun id => decide (lvl < plvA s.nodes id)), x ∈ ids :=
      fun x hx => hTsub _ ((List.filter_sublist _).subset hx)
    have hDfsub : ∀ x ∈ (ids.dropWhile (keyLt s key)).filter
        (fun id => decide (lvl < plvA s.nodes id)), x ∈ ids :=
      fun x hx => hDsub _ ((List.filter_sublist _).subset hx)
    have hnodup : ((ids.takeWhile (keyLt s key)).filter
          (fun id => decide (lvl < plvA s.nodes id))
        ++ (ids.dropWhile (keyLt s key)).filter
          (fun id => decide (lvl < plvA s.nodes id))).Nodup := by
      rw [← chain_split s ids key lvl]
      exact hG.chain_nodup lvl
    have hheadmem : s.head_ ∉ (ids.takeWhile (keyLt s key)).filter
          (fun id => decide (lvl < plvA s.nodes id))
        ++ (ids.dropWhile (keyLt s key)).filter
          (fun id => decide (lvl < plvA s.nodes id)) := by
      intro hc
      rcases List.mem_append.mp hc with h | h
      · exact hG.mem_ne_head _ (hTfsub _ h) rfl
      · exact hG.mem_ne_head _ (hDfsub _ h) rfl
    have hnmem : s.nodes.length ∉ (ids.takeWhile (keyLt s key)).filter
          (fun id => decide (lvl < plvA s.nodes id))
        ++ (ids.dropWhile (keyLt s key)).filter
          (fun id => decide (lvl < plvA s.nodes id)) := by
      intro hc
      rcases List.mem_append.mp hc with h | h
      · exact absurd (hidlt _ (hTfsub _ h)) (by omega)
      · exact absurd (hidlt _ (hDfsub _ h)) (by omega)
    by_cases hlvl : lvl < max height 1
    · rw [if_pos hlvl]
      have hTf_pred : ((ids.takeWhile (keyLt s key)).filter
            (fun id => decide (lvl < plvA s.nodes id))).getLastD s.head_
          = predL s ids key lvl := by
        unfold predL
        rw [takeWhile_chain_eq hG key lvl]
      refine links_insert _ _ s.nodes.length _ _ s.head_ holdlinks ?_ ?_ ?_
        (Nat.ne_of_lt hG.head_lt) hheadmem hnodup hnmem
      · rw [hTf_pred, hCF (predL s ids key lvl) lvl]
        have hr1 : ¬ (lvl < max height 1
            ∧ predL s ids key lvl = s.nodes.length) :=
          fun hc => Nat.ne_of_lt (predL_lt hG key lvl) hc.2
        rw [if_neg hr1, if_pos ⟨hlvl, rfl⟩]
      · rw [hCF s.nodes.length lvl, if_pos ⟨hlvl, rfl⟩,
          sigma_predL hG key lvl, dropWhile_chain_eq hG key lvl]
      · intro q hq hq1 hq2
        rw [hTf_pred] at hq1
        rw [hCF q lvl]
        have hr1 : ¬ (lvl < max height 1 ∧ q = s.nodes.length) :=
          fun hc => hq2 hc.2
        have hr2 : ¬ (lvl < max height 1 ∧ q = predL s ids key lvl) :=
          fun hc => hq1 hc.2
        rw [if_neg hr1, if_neg hr2, if_neg hq2]
    · rw [if_neg hlvl]
      refine Links.congr ?_ holdlinks
      intro q hq
      have hqn : q ≠ s.nodes.length := by
        rcases hq with h | h
        · rw [h]; exact hheadne
        · intro hc
          exact hnmem (hc ▸ h)
      rw [hCF q lvl]
      have hr1 : ¬ (lvl < max height 1 ∧ q = s.nodes.length) :=
        fun hc => hlvl hc.1
      have hr2 : ¬ (lvl < max height 1 ∧ q = predL s ids key lvl) :=
        fun hc => hlvl hc.1
      rw [if_neg hr1, if_neg hr2, if_neg hqn]

end StepInsert

/-! The `remove` operation. -/

section StepRemove

variable {K V : Type} [LinearOrder K] [Inhabited K] [Inhabited V]
variable {s : SkipListMap K V} {ids : List Nat}

theorem remove_eq_miss (hG : Good s ids) (key : K)
    (hk : key ∉ ids.map (keyA s.nodes)) : remove s key = (s, none) := by
  have h1 : nextPtr s (find_lower_bound_with_updates s key).1 0
      = firstGE s ids key := by
    rw [(find_lower_bound_with_updates_spec hG key).1]
    exact nextPtr_predL0 hG key
  unfold remove
  simp only [h1]
  rcases h2 : firstGE s ids key with _ | r
  · rfl
  · have hf := @firstGE_spec K V _ _ _ s ids key r h2
    have hne : keyAt s r ≠ key := by
      intro hc
      exact hk (List.mem_map.mpr ⟨r, hf.2, hc⟩)
    simp only [ne_eq, hne, not_false_iff, if_true, if_pos]

theorem remove_eq_found (hG : Good s ids) (key : K) {r : Nat}
    (h2 : firstGE s ids key = some r) (hkey : keyA s.nodes r = key) :
    remove s key
      = ({ s with
            nodes := unlinkOut s.nodes r
              (find_lower_bound_with_updates s key).2
              (max (heightA s.nodes r) 1)
            length_ := s.length_ - 1 },
          some (valA s.nodes r)) := by
  have h1 : nextPtr s (find_lower_bound_with_updates s key).1 0
      = firstGE s ids key := by
    rw [(find_lower_bound_with_updates_spec hG key).1]
    exact nextPtr_predL0 hG key
  unfold remove
  simp only [h1, h2]
  have hkk : keyAt s r = key := hkey
  simp only [ne_eq, hkk, not_true_eq_false, if_false]
  rfl

theorem removeFound_good (hG : Good s ids) (key : K) {r : Nat} {D2 : List Nat}
    (hr : r ∈ ids) (hkey : keyA s.nodes r = key)
    (hD : ids.dropWhile (keyLt s key) = r :: D2)
    (upd : List Nat) (hlen : upd.length = s.maxHeight_)
    (hupd : ∀ j < s.maxHeight_, upd.get? j = some (predL s ids key j)) :
    Good
      ({ s with
          nodes := unlinkOut s.nodes r upd (max (heightA s.nodes r) 1)
          length_ := s.length_ - 1 })
      (ids.takeWhile (keyLt s key) ++ D2) := by
  have hgetD : ∀ j, j < s.maxHeight_ → upd.getD j 0 = predL s ids key j := by
    intro j hj
    unfold List.getD
    rw [hupd j hj]
    rfl
  have hcnt : max (heightA s.nodes r) 1 ≤ s.maxHeight_ := by
    have h1 := (hG.height_mem r hr).2
    have h2 := hG.height_le
    have h3 := hG.maxH_pos
    unfold heightA Node.height at *
    omega
  have hcntplv : max (heightA s.nodes r) 1 = plvA s.nodes r := rfl
  have hmemlt : ∀ u ∈ upd, u < s.nodes.length := by
    intro u hu
    obtain ⟨j, hj⟩ := List.mem_iff_get?.mp hu
    have hjlen : j < upd.length := by
      rw [List.get?_eq_getElem?] at hj
      exact (List.getElem?_eq_some_iff.mp hj).1
    rw [hupd j (by omega)] at hj
    have : u = predL s ids key j := by
      injection hj.symm
    rw [this]
    exact predL_lt hG key j
  have hpredne : ∀ m, m < s.maxHeight_ → predL s ids key m ≠ r := by
    intro m hm hc
    rcases predL_entry hG key (le_refl m) with h | h
    · rw [hc] at h
      exact hG.mem_ne_head r hr h
    · rw [hc, hkey] at h
      exact lt_irrefl _ h.2
  have hCF0 := unlinkOut_getForward s.nodes r upd (max (heightA s.nodes r) 1)
    hmemlt
    (by
      intro m hm1 hm2
      rw [hgetD m (by omega)]
      exact hpredne m (by omega))
    (by
      intro m hm1 hm2
      rw [hgetD m (by omega)]
      exact predL_forward_len hG key (by omega))
  have hCF : ∀ q m,
      getForward (unlinkOut s.nodes r upd (max (heightA s.nodes r) 1)) q m =
        if m < max (heightA s.nodes r) 1 ∧ q = predL s ids key m then
          getForward s.nodes r m
        else getForward s.nodes q m := by
    intro q m
    rw [hCF0 q m]
    by_cases h1 : m < max (heightA s.nodes r) 1
    · have h1b : m < upd.length := by omega
      by_cases h2 : q = predL s ids key m
      · have hx1 : m < max (heightA s.nodes r) 1 ∧ m < upd.length
            ∧ q = upd.getD m 0 := ⟨h1, h1b, by rw [hgetD m (by omega)]; exact h2⟩
        rw [if_pos hx1, if_pos ⟨h1, h2⟩]
      · have hx1 : ¬ (m < max (heightA s.nodes r) 1 ∧ m < upd.length
            ∧ q = upd.getD m 0) := by
          intro hc
          rw [hgetD m (by omega)] at hc
          exact h2 hc.2.2
        have hx2 : ¬ (m < max (heightA s.nodes r) 1
            ∧ q = predL s ids key m) := fun hc => h2 hc.2
        rw [if_neg hx1, if_neg hx2]
    · have hx1 : ¬ (m < max (heightA s.nodes r) 1 ∧ m < upd.length
          ∧ q = upd.getD m 0) := fun hc => h1 hc.1
      have hx2 : ¬ (m < max (heightA s.nodes r) 1
          ∧ q = predL s ids key m) := fun hc => h1 hc.1
      rw [if_neg hx1, if_neg hx2]
  have hTsub : ∀ x ∈ ids.takeWhile (keyLt s key), x ∈ ids :=
    fun x hx => (List.takeWhile_sublist _).subset hx
  have hD2sub : ∀ x ∈ D2, x ∈ ids := by
    intro x hx
    refine (List.dropWhile_sublist (keyLt s key)).subset ?_
    rw [hD]
    exact List.mem_cons_of_mem r hx
  have hids2sub : ∀ x ∈ ids.takeWhile (keyLt s key) ++ D2, x ∈ ids := by
    intro x hx
    rcases List.mem_append.mp hx with h | h
    · exact hTsub x h
    · exact hD2sub x h
  have hkeyA2 : ∀ q, keyA (unlinkOut s.nodes r upd
      (max (heightA s.nodes r) 1)) q = keyA s.nodes q :=
    fun q => unlinkOut_keyA s.nodes r upd _ q
  have hplv2 : ∀ q, plvA (unlinkOut s.nodes r upd
      (max (heightA s.nodes r) 1)) q = plvA s.nodes q := by
    intro q
    unfold plvA heightA Node.height
    rw [unlinkOut_forwardLen]
  have hsub2 : List.Sublist (ids.takeWhile (keyLt s key) ++ D2) ids := by
    have h1 : List.Sublist (ids.takeWhile (keyLt s key) ++ D2)
        (ids.takeWhile (keyLt s key) ++ r :: D2) :=
      List.Sublist.append (List.Sublist.refl _) (List.Sublist.cons r (List.Sublist.refl D2))
    have h2 : ids.takeWhile (keyLt s key) ++ r :: D2 = ids := by
      rw [← hD, List.takeWhile_append_dropWhile]
    rw [h2] at h1
    exact h1
  refine ⟨?_, ?_, ?_, ?_, ?_, ?_, ?_, ?_, ?_, ?_⟩
  · show s.head_ < (unlinkOut s.nodes r upd _).length
    rw [unlinkOut_length]
    exact hG.head_lt
  · show (nodeA (unlinkOut s.nodes r upd _) s.head_).forward.length
      = s.maxHeight_ + 1
    rw [unlinkOut_forwardLen]
    exact hG.head_len
  · exact hG.maxH_pos
  · exact hG.height_le
  · intro id hid
    show id < (unlinkOut s.nodes r upd _).length
    rw [unlinkOut_length]
    exact hG.mem_lt _ (hids2sub _ hid)
  · intro id hid
    exact hG.mem_ne_head _ (hids2sub _ hid)
  · refine (hG.sorted.sublist hsub2).imp_of_mem ?_
    intro a b _ _ hab
    show keyA (unlinkOut s.nodes r upd _) a
      < keyA (unlinkOut s.nodes r upd _) b
    rw [hkeyA2 a, hkeyA2 b]
    exact hab
  · intro id hid
    have := hG.height_mem _ (hids2sub _ hid)
    show 1 ≤ (nodeA (unlinkOut s.nodes r upd _) id).forward.length
      ∧ (nodeA (unlinkOut s.nodes r upd _) id).forward.length - 1 ≤ s.height_
    rw [unlinkOut_forwardLen]
    unfold heightA Node.height at this
    omega
  · show s.length_ - 1 = (ids.takeWhile (keyLt s key) ++ D2).length
    have h2 : ids.takeWhile (keyLt s key) ++ r :: D2 = ids := by
      rw [← hD, List.takeWhile_append_dropWhile]
    have h3 : ids.length = (ids.takeWhile (keyLt s key)).length
        + (D2.length + 1) := by
      conv_lhs => rw [← h2]
      rw [List.length_append]
      simp
    rw [hG.len_eq, List.length_append]
    omega
  · intro lvl
    have hchaineq : ∀ (l : List Nat),
        chainL { s with
            nodes := unlinkOut s.nodes r upd (max (heightA s.nodes r) 1)
            length_ := s.length_ - 1 } l lvl
          = l.filter (fun id => decide (lvl < plvA s.nodes id)) := by
      intro l
      unfold chainL
      refine List.filter_congr ?_
      intro x _
      show (decide (lvl < plvA (unlinkOut s.nodes r upd _) x))
        = decide (lvl < plvA s.nodes x)
      rw [hplv2 x]
    rw [hchaineq]
    have holdlinks := hG.links lvl
    rw [chain_split s ids key lvl, hD, List.filter_cons] at holdlinks
    rw [List.filter_append]
    have hTf_pred : ((ids.takeWhile (keyLt s key)).filter
          (fun id => decide (lvl < plvA s.nodes id))).getLastD s.head_
        = predL s ids key lvl := by
      unfold predL
      rw [takeWhile_chain_eq hG key lvl]
    have hTfsub : ∀ x ∈ (ids.takeWhile (keyLt s key)).filter
        (fun id => decide (lvl < plvA s.nodes id)), x ∈ ids :=
      fun x hx => hTsub _ ((List.filter_sublist _).subset hx)
    have hD2fsub : ∀ x ∈ D2.filter
        (fun id => decide (lvl < plvA s.nodes id)), x ∈ ids :=
      fun x hx => hD2sub _ ((List.filter_sublist _).subset hx)
    by_cases hlvl : lvl < plvA s.nodes r
    · rw [if_pos (by simpa using hlvl)] at holdlinks
      have hnodup : ((ids.takeWhile (keyLt s key)).filter
            (fun id => decide (lvl < plvA s.nodes id))
          ++ r :: D2.filter
            (fun id => decide (lvl < plvA s.nodes id))).Nodup := by
        have h0 := hG.chain_nodup lvl
        rw [chain_split s ids key lvl, hD, List.filter_cons,
          if_pos (by simpa using hlvl)] at h0
        exact h0
      have hheadnm : s.head_ ∉ (ids.takeWhile (keyLt s key)).filter
            (fun id => decide (lvl < plvA s.nodes id))
          ++ r :: D2.filter (fun id => decide (lvl < plvA s.nodes id)) := by
        intro hc
        rcases List.mem_append.mp hc with h | h
        · exact hG.mem_ne_head _ (hTfsub _ h) rfl
        · rcases List.mem_cons.mp h with h2 | h2
          · exact hG.mem_ne_head r hr h2.symm
          · exact hG.mem_ne_head _ (hD2fsub _ h2) rfl
      refine links_remove _ _ r _ _ s.head_ holdlinks ?_ ?_ hheadnm hnodup
      · rw [hTf_pred]
        show getForward (unlinkOut s.nodes r upd _) (predL s ids key lvl) lvl
          = _
        rw [hCF (predL s ids key lvl) lvl, if_pos ⟨hlvl, rfl⟩]
        have hdec : s.head_ :: chainL s ids lvl
            = (s.head_ :: (ids.takeWhile (keyLt s key)).filter
                (fun id => decide (lvl < plvA s.nodes id)))
              ++ r :: D2.filter (fun id => decide (lvl < plvA s.nodes id)) := by
          rw [chain_split s ids key lvl, hD, List.filter_cons,
            if_pos (by simpa using hlvl)]
          rfl
        exact hG.sigma_eq lvl hdec
      · intro q hq hq1
        rw [hTf_pred] at hq1
        show getForward (unlinkOut s.nodes r upd _) q lvl = _
        rw [hCF q lvl, if_neg (fun hc => hq1 hc.2)]
    · rw [if_neg (by simpa using hlvl)] at holdlinks
      refine Links.congr ?_ holdlinks
      intro q hq
      show getForward (unlinkOut s.nodes r upd _) q lvl
        = getForward s.nodes q lvl
      rw [hCF q lvl, if_neg ?_]
      intro hc
      rw [hcntplv] at hc
      exact hlvl hc.1

end StepRemove

/-! The duplicate-key path of `insert`, and the empty map. -/

section StepDup

variable {K V : Type} [LinearOrder K] [Inhabited K] [Inhabited V]
variable {s : SkipListMap K V} {ids : List Nat}

theorem forwardLen_setValue (a : List (Node K V)) (p : Nat) (v : V)
    (q : Nat) :
    (nodeA (setValue a p v) q).forward.length
      = (nodeA a q).forward.length := by
  by_cases hq : q = p
  · subst hq
    by_cases hp : q < a.length
    · rw [nodeA_setValue_self a q v hp]
    · unfold setValue
      cases h : a.get? q
      · rfl
      · rw [List.get?_eq_getElem?] at h
        exact absurd (List.getElem?_eq_some_iff.mp h).1 hp
  · rw [nodeA_setValue_ne a p v q hq]

theorem insert_eq_dup (hG : Good s ids) (key : K) (value : V) (height : Nat)
    (hk : key ∈ ids.map (keyA s.nodes)) :
    ∃ nx, firstGE s ids key = some nx ∧ nx ∈ ids ∧ keyA s.nodes nx = key ∧
      insert s key value height
        = ({ s with nodes := setValue s.nodes nx value },
            some (valA s.nodes nx)) := by
  obtain ⟨nx, hnx, hnxkey, hnxmem⟩ := firstGE_of_mem hG key hk
  refine ⟨nx, hnx, hnxmem, hnxkey, ?_⟩
  have h1 : nextPtr s (find_lower_bound_with_updates s key).1 0
      = firstGE s ids key := by
    rw [(find_lower_bound_with_updates_spec hG key).1]
    exact nextPtr_predL0 hG key
  unfold insert
  simp only [h1, hnx]
  have hkk : keyAt s nx = key := hnxkey
  simp only [hkk, if_true, if_pos]
  rfl

theorem setValue_good (hG : Good s ids) (nx : Nat) (value : V) :
    Good ({ s with nodes := setValue s.nodes nx value }) ids := by
  have hplv : ∀ q, plvA (setValue s.nodes nx value) q = plvA s.nodes q :=
    plvA_setValue s.nodes nx value
  refine ⟨?_, ?_, ?_, ?_, ?_, ?_, ?_, ?_, ?_, ?_⟩
  · show s.head_ < (setValue s.nodes nx value).length
    rw [length_setValue]
    exact hG.head_lt
  · show (nodeA (setValue s.nodes nx value) s.head_).forward.length
      = s.maxHeight_ + 1
    rw [forwardLen_setValue]
    exact hG.head_len
  · exact hG.maxH_pos
  · exact hG.height_le
  · intro id hid
    show id < (setValue s.nodes nx value).length
    rw [length_setValue]
    exact hG.mem_lt _ hid
  · exact hG.mem_ne_head
  · refine hG.sorted.imp_of_mem ?_
    intro a b _ _ hab
    show keyA (setValue s.nodes nx value) a < keyA (setValue s.nodes nx value) b
    rw [keyA_setValue, keyA_setValue]
    exact hab
  · intro id hid
    have := hG.height_mem _ hid
    show 1 ≤ (nodeA (setValue s.nodes nx value) id).forward.length
      ∧ (nodeA (setValue s.nodes nx value) id).forward.length - 1 ≤ s.height_
    rw [forwardLen_setValue]
    unfold heightA Node.height at this
    omega
  · exact hG.len_eq
  · intro lvl
    have hchaineq :
        chainL { s with nodes := setValue s.nodes nx value } ids lvl
          = chainL s ids lvl := by
      unfold chainL
      refine List.filter_congr ?_
      intro x _
      show (decide (lvl < plvA (setValue s.nodes nx value) x))
        = decide (lvl < plvA s.nodes x)
      rw [hplv x]
    rw [hchaineq]
    refine Links.congr ?_ (hG.links lvl)
    intro q _
    exact getForward_setValue s.nodes nx value q lvl

theorem dummy_next (maxHeight m : Nat) :
    (allocate_dummy_node (K := K) (V := V) maxHeight).next m = none := by
  unfold allocate_dummy_node Node.next
  rcases Nat.lt_or_ge m (maxHeight + 1) with h | h
  · rw [List.get?_eq_getElem?]
    simp [List.getElem?_replicate, h]
  · rw [List.get?_eq_getElem?, List.getElem?_eq_none (by simp; omega)]
    rfl

theorem good_new (maxHeight : Nat) (hmh : 1 ≤ maxHeight) :
    Good (new (K := K) (V := V) maxHeight) [] := by
  refine ⟨?_, ?_, hmh, ?_, ?_, ?_, ?_, ?_, rfl, ?_⟩
  · show 0 < 1
    omega
  · show (nodeA [allocate_dummy_node maxHeight] 0).forward.length
      = maxHeight + 1
    unfold nodeA allocate_dummy_node
    simp
  · show 0 ≤ maxHeight
    omega
  · intro id hid
    exact absurd hid (List.not_mem_nil id)
  · intro id hid
    exact absurd hid (List.not_mem_nil id)
  · exact List.Pairwise.nil
  · intro id hid
    exact absurd hid (List.not_mem_nil id)
  · intro lvl
    show Links _ 0 (chainL (new maxHeight) [] lvl)
    have : chainL (new (K := K) (V := V) maxHeight) [] lvl = [] := rfl
    rw [this]
    show getForward (new (K := K) (V := V) maxHeight).nodes 0 lvl = none
    rw [getForward_eq]
    have : nodeA (new (K := K) (V := V) maxHeight).nodes 0
        = allocate_dummy_node maxHeight := by
      unfold new nodeA
      rfl
    rw [this, dummy_next]

end StepDup

/-! Preservation of the invariant along any sequence of operations, and the
characterization of iteration. -/

section RunLemmas

variable {K V : Type} [LinearOrder K] [Inhabited K] [Inhabited V]
variable {s : SkipListMap K V} {ids : List Nat}

theorem head?_dropWhile_cons (l : List Nat) (p : Nat → Bool) {r : Nat}
    (h : (l.dropWhile p).head? = some r) :
    l.dropWhile p = r :: (l.dropWhile p).tail := by
  cases hDD : l.dropWhile p with
  | nil =>
    rw [hDD] at h
    exact absurd h (by simp)
  | cons a t =>
    rw [hDD] at h
    have : a = r := by simpa using h
    rw [this]
    rfl

theorem applyOp_good (hG : Good s ids) (op : Op K V)
    (hop : match op with
      | .ins _ _ h => h ≤ s.maxHeight_
      | .del _ => True) :
    (∃ ids2, Good (applyOp s op) ids2)
      ∧ (applyOp s op).maxHeight_ = s.maxHeight_ := by
  cases op with
  | ins k v h =>
    simp only [applyOp]
    by_cases hk : k ∈ ids.map (keyA s.nodes)
    · obtain ⟨nx, _, _, _, heq⟩ := insert_eq_dup hG k v h hk
      rw [heq]
      exact ⟨⟨ids, setValue_good hG nx v⟩, rfl⟩
    · have hspec := find_lower_bound_with_updates_spec hG k
      rw [insert_eq_fresh hG k v h hk]
      refine ⟨⟨_, insertFresh_good hG k v h hk hop _ hspec.2.1
        (fun j hj => hspec.2.2 j hj)⟩, ?_⟩
      exact (insertFresh_fields k v h _).2.2.2.2
  | del k =>
    simp only [applyOp]
    by_cases hk : k ∈ ids.map (keyA s.nodes)
    · obtain ⟨nx, hnx, hnxkey, hnxmem⟩ := firstGE_of_mem hG k hk
      have hD : ids.dropWhile (keyLt s k)
          = nx :: (ids.dropWhile (keyLt s k)).tail :=
        head?_dropWhile_cons ids (keyLt s k) hnx
      have hspec := find_lower_bound_with_updates_spec hG k
      rw [remove_eq_found hG k hnx hnxkey]
      exact ⟨⟨_, removeFound_good hG k hnxmem hnxkey hD _ hspec.2.1
        (fun j hj => hspec.2.2 j hj)⟩, rfl⟩
    · rw [remove_eq_miss hG k hk]
      exact ⟨⟨ids, hG⟩, rfl⟩

theorem foldl_applyOp_good :
    ∀ (ops : List (Op K V)) (s : SkipListMap K V) (ids : List Nat),
      Good s ids → wfOps s.maxHeight_ ops →
      (∃ ids2, Good (ops.foldl applyOp s) ids2)
        ∧ (ops.foldl applyOp s).maxHeight_ = s.maxHeight_ := by
  intro ops
  induction ops with
  | nil =>
    intro s ids hG _
    exact ⟨⟨ids, hG⟩, rfl⟩
  | cons op rest ih =>
    intro s ids hG hwf
    have hop := hwf op (List.mem_cons_self op rest)
    obtain ⟨⟨ids2, hG2⟩, hmx⟩ := applyOp_good hG op hop
    have hwf2 : wfOps (applyOp s op).maxHeight_ rest := by
      intro o ho
      have := hwf o (List.mem_cons_of_mem op ho)
      rw [hmx]
      exact this
    obtain ⟨hgood, hmx2⟩ := ih (applyOp s op) ids2 hG2 hwf2
    exact ⟨hgood, by rw [List.foldl_cons, hmx2, hmx]⟩

theorem runOps_good (mh : Nat) (hmh : 1 ≤ mh) (ops : List (Op K V))
    (hwf : wfOps mh ops) : ∃ ids2, Good (runOps mh ops) ids2 := by
  unfold runOps
  exact (foldl_applyOp_good ops (new mh) [] (good_new mh hmh) hwf).1

theorem chainPairs_links :
    ∀ (l : List Nat) (p fuel : Nat),
      Links (fun q => getForward s.nodes q 0) p l → l.length ≤ fuel →
      chainPairs s fuel (getForward s.nodes p 0)
        = l.map (fun id => (keyA s.nodes id, valA s.nodes id)) := by
  intro l
  induction l with
  | nil =>
    intro p fuel hL _
    have h0 : getForward s.nodes p 0 = none := hL
    cases fuel with
    | zero => rw [h0]; rfl
    | succ f => rw [h0]; rfl
  | cons q t ih =>
    intro p fuel hL hfuel
    cases fuel with
    | zero => exact absurd hfuel (by simp)
    | succ f =>
      have h1 : getForward s.nodes p 0 = some q := hL.1
      rw [h1]
      show (keyAt s q, valAt s q) :: chainPairs s f (getForward s.nodes q 0) = _
      have := ih q f hL.2 (by simpa using hfuel)
      rw [List.map_cons, this]
      rfl

theorem iterList_eq (hG : Good s ids) :
    iterList s = ids.map (fun id => (keyA s.nodes id, valA s.nodes id)) := by
  unfold iterList
  have h0 := hG.links 0
  rw [chain_zero s ids] at h0
  exact chainPairs_links ids s.head_ s.nodes.length h0 hG.ids_length_le

theorem chainIdx_links (lvl : Nat) :
    ∀ (l : List Nat) (p fuel : Nat),
      Links (fun q => getForward s.nodes q lvl) p l → l.length ≤ fuel →
      chainIdx s lvl fuel (getForward s.nodes p lvl) = l := by
  intro l
  induction l with
  | nil =>
    intro p fuel hL _
    have h0 : getForward s.nodes p lvl = none := hL
    cases fuel with
    | zero => rw [h0]; rfl
    | succ f => rw [h0]; rfl
  | cons q t ih =>
    intro p fuel hL hfuel
    cases fuel with
    | zero => exact absurd hfuel (by simp)
    | succ f =>
      have h1 : getForward s.nodes p lvl = some q := hL.1
      rw [h1]
      show q :: chainIdx s lvl f (getForward s.nodes q lvl) = q :: t
      have := ih q f hL.2 (by simpa using hfuel)
      rw [this]

theorem levelChain_eq (hG : Good s ids) (lvl : Nat) :
    levelChain s lvl = chainL s ids lvl := by
  unfold levelChain
  exact chainIdx_links lvl (chainL s ids lvl) s.head_ s.nodes.length
    (hG.links lvl) (hG.chain_length_le lvl)

theorem iterKeys_eq (hG : Good s ids) :
    iterKeys s = ids.map (keyA s.nodes) := by
  unfold iterKeys
  rw [iterList_eq hG, List.map_map]
  rfl

theorem iterKeys_sorted (hG : Good s ids) :
    (iterKeys s).Pairwise (fun a b => a < b) := by
  rw [iterKeys_eq hG]
  exact List.pairwise_map.mpr hG.sorted

end RunLemmas

/-! Characterization of `Range` (`iter.rs`). -/

section RangeLemmas

variable {K V : Type} [LinearOrder K] [Inhabited K] [Inhabited V]
variable {s : SkipListMap K V} {ids : List Nat}

theorem takeWhile_congr_mem {α : Type} (l : List α) (p q : α → Bool)
    (h : ∀ x ∈ l, p x = q x) : l.takeWhile p = l.takeWhile q := by
  induction l with
  | nil => rfl
  | cons a t ih =>
    have ha := h a (List.mem_cons_self a t)
    have iht := ih (fun x hx => h x (List.mem_cons_of_mem a hx))
    cases hq : q a with
    | false =>
      rw [List.takeWhile_cons_of_neg (by rw [ha, hq]; simp),
        List.takeWhile_cons_of_neg (by rw [hq]; simp)]
    | true =>
      rw [List.takeWhile_cons_of_pos (by rw [ha, hq]),
        List.takeWhile_cons_of_pos (by rw [hq]), iht]

theorem dropWhile_nil_of_all {α : Type} (l : List α) (p : α → Bool)
    (h : ∀ x ∈ l, p x = true) : l.dropWhile p = [] := by
  induction l with
  | nil => rfl
  | cons a t ih =>
    rw [List.dropWhile_cons_of_pos (h a (List.mem_cons_self a t))]
    exact ih (fun x hx => h x (List.mem_cons_of_mem a hx))

theorem dropWhile_false (l : List Nat) (p : Nat → Bool)
    (h : ∀ x ∈ l, p x = false) : l.dropWhile p = l := by
  cases l with
  | nil => rfl
  | cons a t =>
    rw [List.dropWhile_cons_of_neg (by rw [h a (List.mem_cons_self a t)]; simp)]

theorem le_getLastD_of_sorted :
    ∀ (l : List Nat),
      l.Pairwise (fun a b => keyA (K := K) (V := V) s.nodes a < keyA s.nodes b) →
      ∀ x ∈ l, ∀ d, keyA s.nodes x ≤ keyA s.nodes (l.getLastD d) := by
  intro l
  induction l with
  | nil =>
    intro _ x hx
    exact absurd hx (List.not_mem_nil x)
  | cons a t ih =>
    intro hs x hx d
    rw [List.getLastD_cons]
    rcases List.mem_cons.mp hx with h | h
    · subst h
      cases t with
      | nil => exact le_refl _
      | cons b t2 =>
        have hmem : (b :: t2).getLastD x ∈ b :: t2 :=
          getLastD_mem _ _ (by simp)
        exact le_of_lt ((List.pairwise_cons.mp hs).1 _ hmem)
    · exact ih (List.pairwise_cons.mp hs).2 x h a

theorem filter_eq_takeWhile_of_sorted :
    ∀ (l : List Nat),
      l.Pairwise (fun a b => keyA (K := K) (V := V) s.nodes a < keyA s.nodes b) →
      ∀ (P : Nat → Bool),
      (∀ a ∈ l, ∀ b ∈ l, keyA s.nodes a ≤ keyA s.nodes b → P b = true →
        P a = true) →
      l.filter P = l.takeWhile P := by
  intro l
  induction l with
  | nil => intro _ P _; rfl
  | cons a t ih =>
    intro hs P hmono
    have hst := (List.pairwise_cons.mp hs).2
    cases ha : P a with
    | true =>
      rw [List.filter_cons_of_pos ha, List.takeWhile_cons_of_pos ha,
        ih hst P (fun x hx y hy hxy hy2 =>
          hmono x (List.mem_cons_of_mem a hx) y (List.mem_cons_of_mem a hy)
            hxy hy2)]
    | false =>
      rw [List.filter_cons_of_neg (by simp [ha]),
        List.takeWhile_cons_of_neg (by simp [ha])]
      have hnone : ∀ y ∈ t, P y = false := by
        intro y hy
        cases hPy : P y with
        | false => rfl
        | true =>
          have := hmono a (List.mem_cons_self a t) y
            (List.mem_cons_of_mem a hy)
            (le_of_lt ((List.pairwise_cons.mp hs).1 y hy)) hPy
          rw [this] at ha
          exact absurd ha (by simp)
      exact filter_eq_nil_of t P hnone

theorem inLower_mono (lo : RBound K) (x y : K) (hxy : x ≤ y)
    (hx : inLower lo x = true) : inLower lo y = true := by
  cases lo with
  | unbounded => rfl
  | included k =>
    simp only [inLower, decide_eq_true_eq] at hx ⊢
    exact le_trans hx hxy
  | excluded k =>
    simp only [inLower, decide_eq_true_eq] at hx ⊢
    exact lt_of_lt_of_le hx hxy

theorem inUpper_anti (hi : RBound K) (x y : K) (hxy : x ≤ y)
    (hy : inUpper hi y = true) : inUpper hi x = true := by
  cases hi with
  | unbounded => rfl
  | included k =>
    simp only [inUpper, decide_eq_true_eq] at hy ⊢
    exact le_trans hxy hy
  | excluded k =>
    simp only [inUpper, decide_eq_true_eq] at hy ⊢
    exact lt_of_le_of_lt hxy hy

theorem rangeAux_none (e : Option Nat) (fuel : Nat) :
    rangeAux s e fuel none = [] := by
  cases fuel with
  | zero => rfl
  | succ f => rfl

theorem rangeAux_walk (hG : Good s ids) (e : Option Nat) :
    ∀ (rest pre : List Nat) (p fuel : Nat),
      s.head_ :: ids = pre ++ p :: rest → rest.length < fuel →
      rangeAux s e fuel (some p)
        = (p :: rest.takeWhile (fun q =>
            match e with
            | none => true
            | some ei => decide (keyA s.nodes q ≤ keyA s.nodes ei))).map
            (fun id => (keyA s.nodes id, valA s.nodes id)) := by
  intro rest
  induction rest with
  | nil =>
    intro pre p fuel hdec hfuel
    cases fuel with
    | zero => exact absurd hfuel (by simp)
    | succ f =>
      have hdec0 : s.head_ :: chainL s ids 0 = pre ++ p :: [] := by
        rw [chain_zero s ids]; exact hdec
      have hnx : getForward s.nodes p 0 = ([] : List Nat).head? :=
        hG.sigma_eq 0 hdec0
      have hnp : nextPtr s p 0 = none := hnx
      simp only [rangeAux, hnp, rangeAux_none]
      rfl
  | cons nx rest2 ih =>
    intro pre p fuel hdec hfuel
    cases fuel with
    | zero => exact absurd hfuel (by simp)
    | succ f =>
      have hdec0 : s.head_ :: chainL s ids 0 = pre ++ p :: (nx :: rest2) := by
        rw [chain_zero s ids]; exact hdec
      have hnx : getForward s.nodes p 0 = (nx :: rest2).head? :=
        hG.sigma_eq 0 hdec0
      have hnp : nextPtr s p 0 = some nx := hnx
      have hdec2 : s.head_ :: ids = (pre ++ [p]) ++ nx :: rest2 := by
        rw [hdec, List.append_assoc, List.singleton_append]
      have hf2 : rest2.length < f := by
        have : (nx :: rest2).length = rest2.length + 1 := rfl
        omega
      cases e with
      | none =>
        simp only [rangeAux, hnp]
        rw [ih (pre ++ [p]) nx f hdec2 hf2]
        rw [List.takeWhile_cons_of_pos (by rfl)]
        rfl
      | some ei =>
        simp only [rangeAux, hnp]
        by_cases hcmp : keyA s.nodes nx ≤ keyA s.nodes ei
        · have hcmp2 : keyAt s nx ≤ keyAt s ei := hcmp
          rw [if_pos hcmp2, ih (pre ++ [p]) nx f hdec2 hf2]
          rw [List.takeWhile_cons_of_pos (by simpa using hcmp)]
          rfl
        · have hcmp2 : ¬ keyAt s nx ≤ keyAt s ei := hcmp
          rw [if_neg hcmp2]
          simp only [rangeAux_none]
          rw [List.takeWhile_cons_of_neg (by simpa using hcmp)]
          rfl

theorem rangeStart_eq (hG : Good s ids) (lo : RBound K) :
    rangeStart s lo
      = (ids.dropWhile (fun q => ! inLower lo (keyA s.nodes q))).head? := by
  cases lo with
  | unbounded =>
    have hdec : s.head_ :: chainL s ids 0
        = [] ++ s.head_ :: chainL s ids 0 := rfl
    have h0 : getForward s.nodes s.head_ 0 = (chainL s ids 0).head? :=
      hG.sigma_eq 0 hdec
    show nextPtr s s.head_ 0 = _
    rw [chain_zero s ids] at h0
    have hfalse : ∀ x ∈ ids,
        (fun q => ! inLower (RBound.unbounded (K := K)) (keyA s.nodes q)) x
          = false := by
      intro x _
      simp [inLower]
    rw [dropWhile_false ids _ hfalse]
    exact h0
  | included k =>
    show nextPtr s (find_lower_bound s k) 0 = _
    rw [find_lower_bound_spec hG k, nextPtr_predL0 hG k]
    unfold firstGE
    have hp : keyLt s k
        = (fun q => ! inLower (RBound.included k) (keyA s.nodes q)) := by
      funext q
      show decide (keyA s.nodes q < k) = ! decide (k ≤ keyA s.nodes q)
      rw [← decide_not]
      exact decide_eq_decide.mpr not_le.symm
    rw [hp]
  | excluded k =>
    have hfl : nextPtr s (find_lower_bound s k) 0 = firstGE s ids k := by
      rw [find_lower_bound_spec hG k]
      exact nextPtr_predL0 hG k
    rcases hD : ids.dropWhile (keyLt s k) with _ | ⟨nx, D2⟩
    · have hfge : firstGE s ids k = none := by
        unfold firstGE
        rw [hD]
        rfl
      simp only [rangeStart, hfl, hfge]
      have hall : ∀ x ∈ ids,
          (fun q => ! inLower (RBound.excluded k) (keyA s.nodes q)) x
            = true := by
        intro x hx
        have hTeq : ids.takeWhile (keyLt s k) = ids := by
          have happ := List.takeWhile_append_dropWhile
            (p := keyLt s k) (l := ids)
          rw [hD, List.append_nil] at happ
          exact happ
        have hx2 : x ∈ ids.takeWhile (keyLt s k) := by
          rw [hTeq]
          exact hx
        have hlt : keyA s.nodes x < k := by
          simpa [keyLt] using List.mem_takeWhile_imp hx2
        simp only [inLower, Bool.not_eq_true', decide_eq_false_iff_not]
        exact not_lt.mpr (le_of_lt hlt)
      rw [dropWhile_nil_of_all ids _ hall]
      rfl
    · have hfge : firstGE s ids k = some nx := by
        unfold firstGE
        rw [hD]
        rfl
      simp only [rangeStart, hfl, hfge]
      have hids : ids = ids.takeWhile (keyLt s k) ++ nx :: D2 := by
        conv_lhs => rw [← List.takeWhile_append_dropWhile
          (p := keyLt s k) (l := ids)]
        rw [hD]
      have hTall : ∀ x ∈ ids.takeWhile (keyLt s k),
          (fun q => ! inLower (RBound.excluded k) (keyA s.nodes q)) x
            = true := by
        intro x hx
        have hlt : keyA s.nodes x < k := by
          simpa [keyLt] using List.mem_takeWhile_imp hx
        simp only [inLower, Bool.not_eq_true', decide_eq_false_iff_not]
        exact not_lt.mpr (le_of_lt hlt)
      have hDrop : ids.dropWhile
            (fun q => ! inLower (RBound.excluded k) (keyA s.nodes q))
          = (nx :: D2).dropWhile
            (fun q => ! inLower (RBound.excluded k) (keyA s.nodes q)) := by
        conv_lhs => rw [hids]
        exact dropWhile_append_all _ _ _ hTall
      have hnge : ¬ keyA s.nodes nx < k := by
        have := dropWhile_head_not ids (keyLt s k) nx (by rw [hD]; rfl)
        simpa [keyLt] using this
      by_cases hk : keyA s.nodes nx = k
      · have hkk : keyAt s nx = k := hk
        rw [if_pos hkk, hDrop]
        have hQnx : (! inLower (RBound.excluded k) (keyA s.nodes nx))
            = true := by
          simp [inLower, hk]
        rw [List.dropWhile_cons_of_pos
          (p := fun q => ! inLower (RBound.excluded k) (keyA s.nodes q))
          (by exact hQnx)]
        have hD2gt : ∀ x ∈ D2, k < keyA s.nodes x := by
          intro x hx
          have hsd : (ids.dropWhile (keyLt s k)).Pairwise
              (fun a b => keyA s.nodes a < keyA s.nodes b) :=
            hG.sorted.sublist (List.dropWhile_sublist _)
          rw [hD] at hsd
          have hlt := (List.pairwise_cons.mp hsd).1 x hx
          rw [hk] at hlt
          exact hlt
        have hD2f : ∀ x ∈ D2,
            (fun q => ! inLower (RBound.excluded k) (keyA s.nodes q)) x
              = false := by
          intro x hx
          simp only [inLower, Bool.not_eq_false', decide_eq_true_eq]
          exact hD2gt x hx
        rw [dropWhile_false D2 _ hD2f]
        have hdec0 : s.head_ :: chainL s ids 0
            = (s.head_ :: ids.takeWhile (keyLt s k)) ++ nx :: D2 := by
          rw [chain_zero s ids]
          conv_lhs => rw [hids]
          rfl
        exact hG.sigma_eq 0 hdec0
      · have hkk : ¬ keyAt s nx = k := hk
        rw [if_neg hkk, hDrop]
        have hQnx : (! inLower (RBound.excluded k) (keyA s.nodes nx))
            = false := by
          have hgt : k < keyA s.nodes nx :=
            lt_of_le_of_ne (not_lt.mp hnge) (fun hc => hk hc.symm)
          simp only [inLower, Bool.not_eq_false', decide_eq_true_eq]
          exact hgt
        rw [List.dropWhile_cons_of_neg
          (p := fun q => ! inLower (RBound.excluded k) (keyA s.nodes q))
          (by simp [hQnx])]
        rfl

theorem all_of_dropWhile_nil {α : Type} (l : List α) (p : α → Bool)
    (h : l.dropWhile p = []) : ∀ x ∈ l, p x = true := by
  induction l with
  | nil => intro x hx; exact absurd hx (List.not_mem_nil x)
  | cons a t ih =>
    by_cases hpa : p a = true
    · rw [List.dropWhile_cons_of_pos hpa] at h
      intro x hx
      rcases List.mem_cons.mp hx with h1 | h1
      · rw [h1]; exact hpa
      · exact ih h x h1
    · rw [List.dropWhile_cons_of_neg hpa] at h
      exact absurd h (by simp)

theorem range_spec (hG : Good s ids) (lo hi : RBound K)
    (hup : upperCompat s ids lo hi)
    (hstart : ∀ p, rangeStart s lo = some p →
      inUpper hi (keyA s.nodes p) = true) :
    rangeList s lo hi
      = (ids.filter (fun id =>
          inLower lo (keyA s.nodes id) && inUpper hi (keyA s.nodes id))).map
        (fun id => (keyA s.nodes id, valA s.nodes id)) := by
  have hSE := rangeStart_eq hG lo
  unfold rangeList
  rcases hDL : ids.dropWhile (fun q => ! inLower lo (keyA s.nodes q))
    with _ | ⟨p, rest⟩
  · rw [hSE, hDL]
    have hall := all_of_dropWhile_nil ids _ hDL
    have hfnil : ∀ x ∈ ids,
        (inLower lo (keyA s.nodes x) && inUpper hi (keyA s.nodes x))
          = false := by
      intro x hx
      have h2 : inLower lo (keyA s.nodes x) = false := by
        simpa using hall x hx
      rw [h2, Bool.false_and]
    rw [filter_eq_nil_of ids _ hfnil]
    show rangeAux s (rangeEnd s hi) s.nodes.length none = List.map _ []
    rw [rangeAux_none]
    rfl
  · have hstartp : rangeStart s lo = some p := by
      rw [hSE, hDL]
      rfl
    have hidsdec : ids
        = ids.takeWhile (fun q => ! inLower lo (keyA s.nodes q))
          ++ p :: rest := by
      conv_lhs => rw [← List.takeWhile_append_dropWhile
        (p := fun q => ! inLower lo (keyA s.nodes q)) (l := ids)]
      rw [hDL]
    have hdec : s.head_ :: ids
        = (s.head_ :: ids.takeWhile (fun q => ! inLower lo (keyA s.nodes q)))
          ++ p :: rest := by
      conv_lhs => rw [hidsdec]
      rfl
    have hfuel : rest.length < s.nodes.length := by
      have h1 := (List.dropWhile_sublist
        (l := ids) (fun q => ! inLower lo (keyA s.nodes q))).length_le
      rw [hDL] at h1
      have h2 := hG.ids_length_le
      simp only [List.length_cons] at h1
      omega
    rw [hstartp,
      rangeAux_walk hG (rangeEnd s hi) rest _ p s.nodes.length hdec hfuel]
    have hmemP : p ∈ ids := by
      rw [hidsdec]
      exact List.mem_append.mpr (Or.inr (List.mem_cons_self _ _))
    have hrest_mem : ∀ x ∈ rest, x ∈ ids := by
      intro x hx
      rw [hidsdec]
      exact List.mem_append.mpr (Or.inr (List.mem_cons_of_mem _ hx))
    have hlowp : inLower lo (keyA s.nodes p) = true := by
      have := dropWhile_head_not ids
        (fun q => ! inLower lo (keyA s.nodes q)) p (by rw [hDL]; rfl)
      simpa using this
    have hsorted_pr : (p :: rest).Pairwise
        (fun a b => keyA s.nodes a < keyA s.nodes b) := by
      have hsub := hG.sorted.sublist (List.dropWhile_sublist
        (l := ids) (fun q => ! inLower lo (keyA s.nodes q)))
      rw [hDL] at hsub
      exact hsub
    have hlow_all : ∀ x ∈ p :: rest, inLower lo (keyA s.nodes x) = true := by
      intro x hx
      rcases List.mem_cons.mp hx with h1 | h1
      · rw [h1]; exact hlowp
      · exact inLower_mono lo _ _
          (le_of_lt ((List.pairwise_cons.mp hsorted_pr).1 x h1)) hlowp
    have hupp : inUpper hi (keyA s.nodes p) = true := hstart p hstartp
    have hfT : ∀ x ∈ ids.takeWhile (fun q => ! inLower lo (keyA s.nodes q)),
        (inLower lo (keyA s.nodes x) && inUpper hi (keyA s.nodes x))
          = false := by
      intro x hx
      have h1 : (! inLower lo (keyA s.nodes x)) = true :=
        List.mem_takeWhile_imp
          (p := fun q => ! inLower lo (keyA s.nodes q)) hx
      have h2 : inLower lo (keyA s.nodes x) = false := by
        simpa using h1
      rw [h2, Bool.false_and]
    have hfilter1 : ids.filter (fun id =>
          inLower lo (keyA s.nodes id) && inUpper hi (keyA s.nodes id))
        = (p :: rest).filter (fun id =>
            inLower lo (keyA s.nodes id) && inUpper hi (keyA s.nodes id)) := by
      conv_lhs => rw [hidsdec]
      rw [List.filter_append, filter_eq_nil_of _ _ hfT, List.nil_append]
    have hfilter2 : (p :: rest).filter (fun id =>
          inLower lo (keyA s.nodes id) && inUpper hi (keyA s.nodes id))
        = (p :: rest).filter (fun id => inUpper hi (keyA s.nodes id)) := by
      refine List.filter_congr ?_
      intro x hx
      rw [hlow_all x hx, Bool.true_and]
    have hfilter3 : (p :: rest).filter (fun id => inUpper hi (keyA s.nodes id))
        = (p :: rest).takeWhile (fun id => inUpper hi (keyA s.nodes id)) :=
      filter_eq_takeWhile_of_sorted (p :: rest) hsorted_pr _
        (fun a _ b _ hab hb => inUpper_anti hi _ _ hab hb)
    have hfilter4 : (p :: rest).takeWhile
          (fun id => inUpper hi (keyA s.nodes id))
        = p :: rest.takeWhile (fun id => inUpper hi (keyA s.nodes id)) :=
      List.takeWhile_cons_of_pos
        (p := fun id => inUpper hi (keyA s.nodes id)) (by exact hupp)
    rw [hfilter1, hfilter2, hfilter3, hfilter4]
    have hcont : ∀ q ∈ rest,
        (fun q => match rangeEnd s hi with
          | none => true
          | some ei => decide (keyA s.nodes q ≤ keyA s.nodes ei)) q
          = (fun id => inUpper hi (keyA s.nodes id)) q := by
      cases hi with
      | unbounded =>
        intro q _
        rfl
      | included k =>
        have hup2 : (∃ id ∈ ids, keyA s.nodes id = k)
            ∨ (∀ id ∈ ids, keyA s.nodes id < k) := hup
        rcases hup2 with ⟨id0, hid0m, hid0k⟩ | hall
        · obtain ⟨nx, hnx, hnxkey, _⟩ := firstGE_of_mem hG k
            (List.mem_map.mpr ⟨id0, hid0m, hid0k⟩)
          have hre : rangeEnd s (RBound.included k) = some nx := by
            show nextPtr s (find_lower_bound s k) 0 = some nx
            rw [find_lower_bound_spec hG k, nextPtr_predL0 hG k]
            exact hnx
          intro q _
          simp only [hre]
          rw [hnxkey]
          rfl
        · have hre : rangeEnd s (RBound.included k) = none := by
            show nextPtr s (find_lower_bound s k) 0 = none
            rw [find_lower_bound_spec hG k, nextPtr_predL0 hG k]
            unfold firstGE
            rw [dropWhile_nil_of_all ids _ ?_]
            · rfl
            · intro x hx
              simp only [keyLt, decide_eq_true_eq]
              exact hall x hx
          intro q hq
          simp only [hre]
          have hle : keyA s.nodes q ≤ k := le_of_lt (hall q (hrest_mem q hq))
          show true = inUpper (RBound.included k) (keyA s.nodes q)
          rw [show inUpper (RBound.included k) (keyA s.nodes q)
            = decide (keyA s.nodes q ≤ k) from rfl, decide_eq_true hle]
      | excluded k =>
        have hup2 : (∃ id ∈ ids, keyA s.nodes id < k)
            ∨ (∀ id ∈ ids, inLower lo (keyA s.nodes id) = false) := hup
        have hex : ∃ id ∈ ids, keyA s.nodes id < k := by
          rcases hup2 with h | h
          · exact h
          · exfalso
            rw [h p hmemP] at hlowp
            exact absurd hlowp (by simp)
        obtain ⟨id0, hid0m, hid0k⟩ := hex
        have hpredL : predL s ids k 0
            = (ids.takeWhile (keyLt s k)).getLastD s.head_ := by
          unfold predL
          rw [chain_zero s ids]
        have hid0T : id0 ∈ ids.takeWhile (keyLt s k) :=
          sorted_mem_takeWhile hG.sorted hid0m hid0k
        have hTne : ids.takeWhile (keyLt s k) ≠ [] :=
          List.ne_nil_of_mem hid0T
        have huT : predL s ids k 0 ∈ ids.takeWhile (keyLt s k) := by
          rw [hpredL]
          exact getLastD_mem _ _ hTne
        have huk : keyA s.nodes (predL s ids k 0) < k := by
          simpa [keyLt] using List.mem_takeWhile_imp huT
        have humax : ∀ q ∈ ids, keyA s.nodes q < k →
            keyA s.nodes q ≤ keyA s.nodes (predL s ids k 0) := by
          intro q hq hqk
          have hqT : q ∈ ids.takeWhile (keyLt s k) :=
            sorted_mem_takeWhile hG.sorted hq hqk
          have hsT : (ids.takeWhile (keyLt s k)).Pairwise
              (fun a b => keyA s.nodes a < keyA s.nodes b) :=
            hG.sorted.sublist (List.takeWhile_sublist _)
          have := le_getLastD_of_sorted _ hsT q hqT s.head_
          rw [hpredL]
          exact this
        have hre : rangeEnd s (RBound.excluded k)
            = some (predL s ids k 0) := by
          show some (find_lower_bound s k) = _
          rw [find_lower_bound_spec hG k]
        intro q hq
        simp only [hre]
        show decide (keyA s.nodes q ≤ keyA s.nodes (predL s ids k 0))
          = inUpper (RBound.excluded k) (keyA s.nodes q)
        rw [show inUpper (RBound.excluded k) (keyA s.nodes q)
          = decide (keyA s.nodes q < k) from rfl]
        by_cases hlt : keyA s.nodes q < k
        · rw [decide_eq_true (humax q (hrest_mem q hq) hlt),
            decide_eq_true hlt]
        · have h1 : ¬ keyA s.nodes q
              ≤ keyA s.nodes (predL s ids k 0) :=
            fun hc => hlt (lt_of_le_of_lt hc huk)
          rw [decide_eq_false h1, decide_eq_false hlt]
    rw [takeWhile_congr_mem rest _ _ hcont]

end RangeLemmas

/-! Bounds on the height generators (`height_control.rs`). -/

section GenLemmas

theorem geoAux_le (u : Nat → Bool) :
    ∀ (fuel h : Nat), geoAux u fuel h ≤ h + fuel := by
  intro fuel
  induction fuel with
  | zero => intro h; exact Nat.le_refl h
  | succ f ih =>
    intro h
    show (if u h then geoAux u f (h + 1) else h) ≤ h + (f + 1)
    by_cases hu : u h
    · rw [if_pos hu]
      have := ih (h + 1)
      omega
    · rw [if_neg hu]
      omega

theorem geoAux_true :
    ∀ (fuel h : Nat), geoAux (fun _ => true) fuel h = h + fuel := by
  intro fuel
  induction fuel with
  | zero => intro h; rfl
  | succ f ih =>
    intro h
    show (if true then geoAux (fun _ => true) f (h + 1) else h) = h + (f + 1)
    rw [if_pos rfl, ih (h + 1)]
    omega

theorem geo_height_le (g : GeometricalGenerator) (u : Nat → Bool) :
    g.get_height u ≤ g.max_height := by
  have := geoAux_le u g.maxHeight_ 0
  simpa [GeometricalGenerator.get_height, GeometricalGenerator.max_height]
    using this

theorem geo_attains_max (g : GeometricalGenerator) :
    g.get_height (fun _ => true) = g.max_height := by
  have := geoAux_true g.maxHeight_ 0
  simpa [GeometricalGenerator.get_height, GeometricalGenerator.max_height]
    using this

theorem hashcoin_height_lt {S K2 : Type} (g : HashCoinGenerator S)
    (hw : S → K2 → S) (f : S → Nat) (key : K2) (hpos : 1 ≤ g.maxHeight_) :
    (g.get_height hw f key).1 < g.max_height
      ∧ ((g.get_height hw f key).2).max_height = g.max_height := by
  refine ⟨?_, rfl⟩
  show trailingZeros64 (f (hw g.hasher_ key) % 2 ^ 64) % g.maxHeight_
    < g.maxHeight_
  exact Nat.mod_lt _ (by omega)

theorem twopow_height_lt (mh : Nat) (g : TwoPowGenerator) (r : Nat)
    (hnew : TwoPowGenerator.new mh = some g) :
    g.get_height r < g.max_height := by
  show Nat.land (trailingZeros64 (r % 2 ^ 64)) g.maxPow_ < g.maxPow_ + 1
  have hle : Nat.land (trailingZeros64 (r % 2 ^ 64)) g.maxPow_ ≤ g.maxPow_ :=
    Nat.and_le_right
  omega

end GenLemmas

/-! Behavioral corollaries of the step lemmas, at the level of the public
operations. -/

section Corollaries

variable {K V : Type} [LinearOrder K] [Inhabited K] [Inhabited V]
variable {s : SkipListMap K V} {ids : List Nat}

theorem insertFresh_get_spec (hG : Good s ids) (key : K) (value : V)
    (height : Nat) (hk : key ∉ ids.map (keyA s.nodes))
    (hh : height ≤ s.maxHeight_) (upd : List Nat)
    (hlen : upd.length = s.maxHeight_)
    (hupd : ∀ j < s.maxHeight_, upd.get? j = some (predL s ids key j)) :
    get (insertFresh s key value height upd) key = some value
      ∧ (∀ k2, k2 ≠ key →
          get (insertFresh s key value height upd) k2 = get s k2) := by
  have hG2 := insertFresh_good hG key value height hk hh upd hlen hupd
  have hn_mem : s.nodes.length
      ∈ ids.takeWhile (keyLt s key)
        ++ s.nodes.length :: ids.dropWhile (keyLt s key) :=
    List.mem_append.mpr (Or.inr (List.mem_cons_self _ _))
  have hkeyn : keyA (insertFresh s key value height upd).nodes s.nodes.length
      = key := by
    rw [insertFresh_keyA, if_pos rfl]
  constructor
  · rw [get_of_mem hG2 key hn_mem hkeyn, insertFresh_valA, if_pos rfl]
  · intro k2 hne
    by_cases hmem : k2 ∈ ids.map (keyA s.nodes)
    · obtain ⟨id, hidm, hidk⟩ := List.mem_map.mp hmem
      have hidne : id ≠ s.nodes.length := Nat.ne_of_lt (hG.mem_lt id hidm)
      have hid2 : id ∈ ids.takeWhile (keyLt s key)
          ++ s.nodes.length :: ids.dropWhile (keyLt s key) := by
        have hsplit : id ∈ ids.takeWhile (keyLt s key)
            ++ ids.dropWhile (keyLt s key) := by
          rw [List.takeWhile_append_dropWhile]
          exact hidm
        rcases List.mem_append.mp hsplit with h | h
        · exact List.mem_append.mpr (Or.inl h)
        · exact List.mem_append.mpr (Or.inr (List.mem_cons_of_mem _ h))
      have hkey2 : keyA (insertFresh s key value height upd).nodes id
          = k2 := by
        rw [insertFresh_keyA, if_neg hidne]
        exact hidk
      rw [get_of_mem hG2 k2 hid2 hkey2, get_of_mem hG k2 hidm hidk,
        insertFresh_valA, if_neg hidne]
    · have hnm2 : k2 ∉ (ids.takeWhile (keyLt s key)
          ++ s.nodes.length :: ids.dropWhile (keyLt s key)).map
            (keyA (insertFresh s key value height upd).nodes) := by
        intro hc
        obtain ⟨x, hxm, hxk⟩ := List.mem_map.mp hc
        by_cases hx : x = s.nodes.length
        · subst hx
          rw [insertFresh_keyA, if_pos rfl] at hxk
          exact hne hxk.symm
        · rw [insertFresh_keyA, if_neg hx] at hxk
          have hxids : x ∈ ids := by
            rcases List.mem_append.mp hxm with h | h
            · exact (List.takeWhile_sublist _).subset h
            · rcases List.mem_cons.mp h with h1 | h1
              · exact absurd h1 hx
              · exact (List.dropWhile_sublist _).subset h1
          exact hmem (List.mem_map.mpr ⟨x, hxids, hxk⟩)
      rw [get_of_not_mem hG2 k2 hnm2, get_of_not_mem hG k2 hmem]

theorem insert_fresh_spec (hG : Good s ids) (key : K) (value : V)
    (height : Nat) (hk : key ∉ ids.map (keyA s.nodes))
    (hh : height ≤ s.maxHeight_) :
    (insert s key value height).2 = none
      ∧ get (insert s key value height).1 key = some value
      ∧ contains_key (insert s key value height).1 key = true
      ∧ len (insert s key value height).1 = len s + 1
      ∧ (∀ k2, k2 ≠ key →
          get (insert s key value height).1 k2 = get s k2) := by
  have hspec := find_lower_bound_with_updates_spec hG key
  have hget := insertFresh_get_spec hG key value height hk hh
    (find_lower_bound_with_updates s key).2 hspec.2.1
    (fun j hj => hspec.2.2 j hj)
  rw [insert_eq_fresh hG key value height hk]
  refine ⟨rfl, hget.1, ?_, ?_, hget.2⟩
  · show (get (insertFresh s key value height
      (find_lower_bound_with_updates s key).2) key).isSome = true
    rw [hget.1]
    rfl
  · show (insertFresh s key value height
      (find_lower_bound_with_updates s key).2).length_ = s.length_ + 1
    exact (insertFresh_fields key value height _).2.2.1

theorem insert_dup_core (hG : Good s ids) (key : K) (value : V)
    (height : Nat) (hk : key ∈ ids.map (keyA s.nodes)) :
    (∃ w, (insert s key value height).2 = some w ∧ get s key = some w)
      ∧ get (insert s key value height).1 key = some value
      ∧ len (insert s key value height).1 = len s
      ∧ (insert s key value height).1.height_ = s.height_
      ∧ (∀ q lvl, getForward (insert s key value height).1.nodes q lvl
          = getForward s.nodes q lvl)
      ∧ (∀ k2, k2 ≠ key →
          get (insert s key value height).1 k2 = get s k2) := by
  obtain ⟨nx, hnx, hnxmem, hnxkey, heq⟩ := insert_eq_dup hG key value height hk
  have hG2 := setValue_good hG nx value
  have hfun : keyA (setValue s.nodes nx value) = keyA s.nodes :=
    funext (keyA_setValue s.nodes nx value)
  rw [heq]
  refine ⟨⟨valA s.nodes nx, rfl, get_of_mem hG key hnxmem hnxkey⟩,
    ?_, rfl, rfl, ?_, ?_⟩
  · have hkey2 : keyA ({ s with nodes := setValue s.nodes nx value }).nodes nx
        = key := by
      show keyA (setValue s.nodes nx value) nx = key
      rw [hfun]
      exact hnxkey
    rw [get_of_mem hG2 key hnxmem hkey2]
    show some (valA (setValue s.nodes nx value) nx) = some value
    rw [valA_setValue_self s.nodes nx value (hG.mem_lt nx hnxmem)]
  · intro q lvl
    exact getForward_setValue s.nodes nx value q lvl
  · intro k2 hne
    by_cases hmem : k2 ∈ ids.map (keyA s.nodes)
    · obtain ⟨id, hidm, hidk⟩ := List.mem_map.mp hmem
      have hkey2 : keyA ({ s with nodes := setValue s.nodes nx value }).nodes
          id = k2 := by
        show keyA (setValue s.nodes nx value) id = k2
        rw [hfun]
        exact hidk
      have hidne : id ≠ nx := by
        intro hc
        rw [hc, hnxkey] at hidk
        exact hne hidk.symm
      rw [get_of_mem hG2 k2 hidm hkey2, get_of_mem hG k2 hidm hidk]
      show some (valA (setValue s.nodes nx value) id) = _
      rw [valA_setValue_ne s.nodes nx value id hidne]
    · have hmem2 : k2 ∉ ids.map
          (keyA ({ s with nodes := setValue s.nodes nx value }).nodes) := by
        show k2 ∉ ids.map (keyA (setValue s.nodes nx value))
        rw [hfun]
        exact hmem
      rw [get_of_not_mem hG2 k2 hmem2, get_of_not_mem hG k2 hmem]

theorem remove_found_spec (hG : Good s ids) (key : K)
    (hk : key ∈ ids.map (keyA s.nodes)) :
    (∃ w, (remove s key).2 = some w ∧ get s key = some w)
      ∧ len (remove s key).1 = len s - 1
      ∧ get (remove s key).1 key = none
      ∧ (∀ k2, k2 ≠ key → get (remove s key).1 k2 = get s k2)
      ∧ (∃ ids2, Good (remove s key).1 ids2
          ∧ key ∉ ids2.map (keyA (remove s key).1.nodes)) := by
  obtain ⟨nx, hnx, hnxkey, hnxmem⟩ := firstGE_of_mem hG key hk
  have hD := head?_dropWhile_cons ids (keyLt s key) hnx
  have hspec := find_lower_bound_with_updates_spec hG key
  have heq := remove_eq_found hG key hnx hnxkey
  have hG2 := removeFound_good hG key hnxmem hnxkey hD
    (find_lower_bound_with_updates s key).2 hspec.2.1
    (fun j hj => hspec.2.2 j hj)
  have hkfun : keyA (unlinkOut s.nodes nx
        (find_lower_bound_with_updates s key).2
        (max (heightA s.nodes nx) 1))
      = keyA s.nodes :=
    funext (unlinkOut_keyA s.nodes nx _ _)
  have hDgt : ∀ x ∈ (ids.dropWhile (keyLt s key)).tail,
      key < keyA s.nodes x := by
    intro x hx
    have hsd : (ids.dropWhile (keyLt s key)).Pairwise
        (fun a b => keyA s.nodes a < keyA s.nodes b) :=
      hG.sorted.sublist (List.dropWhile_sublist _)
    rw [hD] at hsd
    have := (List.pairwise_cons.mp hsd).1 x hx
    rw [hnxkey] at this
    exact this
  have hnm : key ∉ (ids.takeWhile (keyLt s key)
      ++ (ids.dropWhile (keyLt s key)).tail).map
        (keyA (unlinkOut s.nodes nx
          (find_lower_bound_with_updates s key).2
          (max (heightA s.nodes nx) 1))) := by
    intro hc
    obtain ⟨x, hxm, hxk⟩ := List.mem_map.mp hc
    have hxk2 : keyA s.nodes x = key := by
      show (fun q => keyA s.nodes q) x = key
      rw [← hkfun]
      exact hxk
    rcases List.mem_append.mp hxm with h | h
    · have : keyA s.nodes x < key := by
        simpa [keyLt] using List.mem_takeWhile_imp h
      rw [hxk2] at this
      exact lt_irrefl _ this
    · have := hDgt x h
      rw [hxk2] at this
      exact lt_irrefl _ this
  have hsub2 : ∀ x ∈ ids.takeWhile (keyLt s key)
      ++ (ids.dropWhile (keyLt s key)).tail, x ∈ ids := by
    intro x hx
    rcases List.mem_append.mp hx with h | h
    · exact (List.takeWhile_sublist _).subset h
    · refine (List.dropWhile_sublist (keyLt s key)).subset ?_
      rw [hD]
      exact List.mem_cons_of_mem _ h
  refine ⟨⟨valA s.nodes nx, by rw [heq], get_of_mem hG key hnxmem hnxkey⟩,
    by rw [heq]; rfl, ?_, ?_, ?_⟩
  · rw [heq]
    exact get_of_not_mem hG2 key hnm
  · intro k2 hne
    rw [heq]
    by_cases hmem : k2 ∈ ids.map (keyA s.nodes)
    · obtain ⟨id, hidm, hidk⟩ := List.mem_map.mp hmem
      have hidne : id ≠ nx := by
        intro hc
        rw [hc, hnxkey] at hidk
        exact hne hidk.symm
      have hid2 : id ∈ ids.takeWhile (keyLt s key)
          ++ (ids.dropWhile (keyLt s key)).tail := by
        have hsplit : id ∈ ids.takeWhile (keyLt s key)
            ++ ids.dropWhile (keyLt s key) := by
          rw [List.takeWhile_append_dropWhile]
          exact hidm
        rcases List.mem_append.mp hsplit with h | h
        · exact List.mem_append.mpr (Or.inl h)
        · rw [hD] at h
          rcases List.mem_cons.mp h with h1 | h1
          · exact absurd h1 hidne
          · exact List.mem_append.mpr (Or.inr h1)
      have hkey2 : keyA ({ s with
            nodes := unlinkOut s.nodes nx
              (find_lower_bound_with_updates s key).2
              (max (heightA s.nodes nx) 1)
            length_ := s.length_ - 1 } : SkipListMap K V).nodes id = k2 := by
        show keyA (unlinkOut s.nodes nx _ _) id = k2
        rw [hkfun]
        exact hidk
      rw [get_of_mem hG2 k2 hid2 hkey2, get_of_mem hG k2 hidm hidk]
      show some (valA (unlinkOut s.nodes nx _ _) id) = _
      rw [unlinkOut_valA]
    · have hmem2 : k2 ∉ (ids.takeWhile (keyLt s key)
          ++ (ids.dropWhile (keyLt s key)).tail).map
            (keyA ({ s with
              nodes := unlinkOut s.nodes nx
                (find_lower_bound_with_updates s key).2
                (max (heightA s.nodes nx) 1)
              length_ := s.length_ - 1 } : SkipListMap K V).nodes) := by
        intro hc
        obtain ⟨x, hxm, hxk⟩ := List.mem_map.mp hc
        have hxk2 : keyA s.nodes x = k2 := by
          show (fun q => keyA s.nodes q) x = k2
          rw [← hkfun]
          exact hxk
        exact hmem (List.mem_map.mpr ⟨x, hsub2 x hxm, hxk2⟩)
      rw [get_of_not_mem hG2 k2 hmem2, get_of_not_mem hG k2 hmem]
  · rw [heq]
    exact ⟨_, hG2, hnm⟩

theorem remove_remove_none (hG : Good s ids) (key : K) :
    (remove (remove s key).1 key).2 = none := by
  by_cases hk : key ∈ ids.map (keyA s.nodes)
  · obtain ⟨ids2, hG2, hnm⟩ := (remove_found_spec hG key hk).2.2.2.2
    rw [remove_eq_miss hG2 key hnm]
  · rw [remove_eq_miss hG key hk, remove_eq_miss hG key hk]

end Corollaries

/-- A small concrete well-formed state used to instantiate the hypotheses of
the general theorems: the map over `Int` with `max_height = 3` holding the
single binding `10 ↦ 100` at a node of allocated height 2 (arena index 1). -/
theorem good_one :
    Good ((insert (new (K := Int) (V := Int) 3) 10 100 2).1) [1] := by
  have hG0 : Good (new (K := Int) (V := Int) 3) [] := good_new 3 (by omega)
  have heq := insert_eq_fresh hG0 10 100 2 (by simp)
  have hspec := find_lower_bound_with_updates_spec hG0 (10 : Int)
  have hGf := insertFresh_good hG0 10 100 2 (by simp) (by decide)
    (find_lower_bound_with_updates (new (K := Int) (V := Int) 3) 10).2
    hspec.2.1 (fun j hj => hspec.2.2 j hj)
  rw [heq]
  exact hGf

/-! Settlement of the specification claims. -/

section Claims

/-- C1: for every sequence of inserts and removes run on an initially empty
container (with well-formed generated heights), iteration yields the keys in
strictly ascending order; for every level `i` the chain of nodes reachable
from the head along the level-`i` forward pointers is strictly increasing in
key order and is a subsequence of the level-`(i-1)` chain; and this holds
after every operation (the conclusion holds for every prefix, each prefix
being itself such a sequence). -/
theorem C1_ordering_invariant {K V : Type} [LinearOrder K] [Inhabited K]
    [Inhabited V] (maxHeight : Nat) (hmh : 1 ≤ maxHeight)
    (ops : List (Op K V)) (hwf : wfOps maxHeight ops) :
    (iterKeys (runOps maxHeight ops)).Pairwise (fun a b => a < b)
      ∧ (∀ lvl, ((levelChain (runOps maxHeight ops) lvl).map
          (keyA (runOps maxHeight ops).nodes)).Pairwise (fun a b => a < b))
      ∧ (∀ lvl, List.Sublist (levelChain (runOps maxHeight ops) (lvl + 1))
          (levelChain (runOps maxHeight ops) lvl)) := by
  obtain ⟨ids2, hG2⟩ := runOps_good maxHeight hmh ops hwf
  refine ⟨iterKeys_sorted hG2, ?_, ?_⟩
  · intro lvl
    rw [levelChain_eq hG2 lvl]
    exact List.pairwise_map.mpr (hG2.chain_sorted lvl)
  · intro lvl
    rw [levelChain_eq hG2 (lvl + 1), levelChain_eq hG2 lvl]
    exact chain_anti _ _ (Nat.le_succ lvl)

/-- Witness for C1 at a concrete run: `max_height = 3` and the operation
sequence insert 5, insert 2, remove 5, insert 7 over `Int` keys. -/
theorem C1_ordering_invariant_witness :
    ((1 : Nat) ≤ 3
      ∧ wfOps 3 ([Op.ins 5 50 1, Op.ins 2 20 0, Op.del 5, Op.ins 7 70 2]
          : List (Op Int Int)))
    ∧ ((iterKeys (runOps 3
          ([Op.ins 5 50 1, Op.ins 2 20 0, Op.del 5, Op.ins 7 70 2]
            : List (Op Int Int)))).Pairwise (fun a b => a < b)
      ∧ (∀ lvl, ((levelChain (runOps 3
            ([Op.ins 5 50 1, Op.ins 2 20 0, Op.del 5, Op.ins 7 70 2]
              : List (Op Int Int))) lvl).map
            (keyA (runOps 3
              ([Op.ins 5 50 1, Op.ins 2 20 0, Op.del 5, Op.ins 7 70 2]
                : List (Op Int Int))).nodes)).Pairwise (fun a b => a < b))
      ∧ (∀ lvl, List.Sublist (levelChain (runOps 3
            ([Op.ins 5 50 1, Op.ins 2 20 0, Op.del 5, Op.ins 7 70 2]
              : List (Op Int Int))) (lvl + 1))
          (levelChain (runOps 3
            ([Op.ins 5 50 1, Op.ins 2 20 0, Op.del 5, Op.ins 7 70 2]
              : List (Op Int Int))) lvl))) := by
  have hwf : wfOps 3 ([Op.ins 5 50 1, Op.ins 2 20 0, Op.del 5, Op.ins 7 70 2]
      : List (Op Int Int)) := by
    intro op hop
    simp only [List.mem_cons, List.not_mem_nil, or_false] at hop
    rcases hop with rfl | rfl | rfl | rfl
    · show (1 : Nat) ≤ 3
      decide
    · show (0 : Nat) ≤ 3
      decide
    · trivial
    · show (2 : Nat) ≤ 3
      decide
  exact ⟨⟨by decide, hwf⟩, C1_ordering_invariant 3 (by decide) _ hwf⟩

/-- C2 (corrected): the geometric-simulation generator only satisfies the
weak bound `next_height ≤ max_height` and can attain `max_height` exactly
(when every draw upgrades, the loop exits with `h = max_height`), so the
claimed strict bound fails for it; the hash-based coin generator satisfies
the strict bound whenever its `max_height` is positive (a zero `max_height`
would make the source's `%` panic), and its successor state reports the same
`max_height`; the single-draw power-of-two generator always satisfies the
strict bound.  The modelled `max_height` functions are pure projections of
the generator value, so constancy across calls is immediate. -/
theorem C2_generator_bounds :
    (∀ (g : GeometricalGenerator) (u : Nat → Bool),
        g.get_height u ≤ g.max_height)
    ∧ (∀ g : GeometricalGenerator,
        g.get_height (fun _ => true) = g.max_height)
    ∧ (∀ (S K2 : Type) (g : HashCoinGenerator S) (hw : S → K2 → S)
        (f : S → Nat) (key : K2), 1 ≤ g.maxHeight_ →
          (g.get_height hw f key).1 < g.max_height
            ∧ ((g.get_height hw f key).2).max_height = g.max_height)
    ∧ (∀ (mh : Nat) (g : TwoPowGenerator) (r : Nat),
        TwoPowGenerator.new mh = some g →
          g.get_height r < g.max_height) :=
  ⟨geo_height_le, geo_attains_max,
    fun _ _ g hw f key h => hashcoin_height_lt g hw f key h,
    twopow_height_lt⟩

/-- Witness for C2 at concrete generators: a hash-coin generator with
`max_height = 2` over `Nat` hasher state, and the power-of-two generator
constructed from `max_height = 4`. -/
theorem C2_generator_bounds_witness :
    ((1 : Nat) ≤ (⟨2, 0⟩ : HashCoinGenerator Nat).maxHeight_
      ∧ ((⟨2, 0⟩ : HashCoinGenerator Nat).get_height
          (fun s _ => s + 1) (fun s => s) (0 : Nat)).1
        < (⟨2, 0⟩ : HashCoinGenerator Nat).max_height)
    ∧ (TwoPowGenerator.new 4 = some ⟨3⟩
      ∧ TwoPowGenerator.get_height ⟨3⟩ 12
        < TwoPowGenerator.max_height ⟨3⟩) :=
  ⟨⟨by decide,
    (C2_generator_bounds.2.2.1 Nat Nat ⟨2, 0⟩ (fun s _ => s + 1)
      (fun s => s) 0 (by decide)).1⟩,
   ⟨by decide, C2_generator_bounds.2.2.2 4 ⟨3⟩ 12 (by decide)⟩⟩

/-- Counterexample to C2 as stated: for the geometric generator with
`max_height = 2`, a randomness stream whose draws always upgrade makes
`get_height` return exactly `max_height`, violating the claimed strict
inequality `next_height < max_height`. -/
theorem C2_counterexample :
    ¬ (GeometricalGenerator.get_height ⟨2⟩ (fun _ => true)
        < GeometricalGenerator.max_height ⟨2⟩) := by
  decide

/-- C3 (corrected): when `insert` adds a genuinely new key with generated
height `h`, the splice loop runs over levels `0 .. max(h, 1) - 1` (the
source's `take(max(height, 1))`), not over `0 ..= h` as claimed: at each
spliced level the new node takes the predecessor's old forward pointer and
the predecessor is redirected to the new node; at every level from
`max(h, 1)` upward — including level `h` itself — the new node's pointer is
left null and every other node is untouched; and at least level 0 is spliced
even when `h = 0`. -/
theorem C3_splice_levels {K V : Type} [LinearOrder K] [Inhabited K]
    [Inhabited V] {s : SkipListMap K V} {ids : List Nat} (hG : Good s ids)
    (key : K) (value : V) (height : Nat)
    (hk : key ∉ ids.map (keyA s.nodes)) (hh : height ≤ s.maxHeight_) :
    (∀ lvl, lvl < max height 1 →
        getForward (insert s key value height).1.nodes s.nodes.length lvl
          = getForward s.nodes (predL s ids key lvl) lvl
        ∧ getForward (insert s key value height).1.nodes
            (predL s ids key lvl) lvl = some s.nodes.length)
    ∧ (∀ lvl, max height 1 ≤ lvl →
        getForward (insert s key value height).1.nodes s.nodes.length lvl
          = none
        ∧ (∀ q, q ≠ s.nodes.length →
            getForward (insert s key value height).1.nodes q lvl
              = getForward s.nodes q lvl))
    ∧ 0 < max height 1 := by
  have hspec := find_lower_bound_with_updates_spec hG key
  have hCF := insertFresh_getForward hG key value height hh
    (find_lower_bound_with_updates s key).2 hspec.2.1
    (fun j hj => hspec.2.2 j hj)
  have heq : (insert s key value height).1
      = insertFresh s key value height
          (find_lower_bound_with_updates s key).2 := by
    rw [insert_eq_fresh hG key value height hk]
  rw [heq]
  refine ⟨?_, ?_, by omega⟩
  · intro lvl hlvl
    have hpredne : predL s ids key lvl ≠ s.nodes.length :=
      Nat.ne_of_lt (predL_lt hG key lvl)
    constructor
    · rw [hCF s.nodes.length lvl, if_pos ⟨hlvl, rfl⟩]
    · rw [hCF (predL s ids key lvl) lvl]
      have hc1 : ¬ (lvl < max height 1
          ∧ predL s ids key lvl = s.nodes.length) :=
        fun hc => hpredne hc.2
      have hc2 : lvl < max height 1
          ∧ predL s ids key lvl = predL s ids key lvl := ⟨hlvl, rfl⟩
      rw [if_neg hc1, if_pos hc2]
  · intro lvl hlvl
    constructor
    · rw [hCF s.nodes.length lvl]
      have hc1 : ¬ (lvl < max height 1
          ∧ s.nodes.length = s.nodes.length) :=
        fun hc => absurd hc.1 (by omega)
      have hc2 : ¬ (lvl < max height 1
          ∧ s.nodes.length = predL s ids key lvl) :=
        fun hc => absurd hc.1 (by omega)
      rw [if_neg hc1, if_neg hc2, if_pos rfl]
    · intro q hq
      rw [hCF q lvl]
      have hc1 : ¬ (lvl < max height 1 ∧ q = s.nodes.length) :=
        fun hc => absurd hc.1 (by omega)
      have hc2 : ¬ (lvl < max height 1 ∧ q = predL s ids key lvl) :=
        fun hc => absurd hc.1 (by omega)
      rw [if_neg hc1, if_neg hc2, if_neg hq]

/-- Witness for C3: inserting key 1 (height 1) into the empty `Int` map with
`max_height = 2`. -/
theorem C3_splice_levels_witness :
    (Good (new (K := Int) (V := Int) 2) []
      ∧ ((1 : Int)
          ∉ ([] : List Nat).map (keyA (new (K := Int) (V := Int) 2).nodes))
      ∧ 1 ≤ (new (K := Int) (V := Int) 2).maxHeight_)
    ∧ ((∀ lvl, lvl < max 1 1 →
          getForward (insert (new (K := Int) (V := Int) 2) 1 10 1).1.nodes
              (new (K := Int) (V := Int) 2).nodes.length lvl
            = getForward (new (K := Int) (V := Int) 2).nodes
                (predL (new (K := Int) (V := Int) 2) [] 1 lvl) lvl
          ∧ getForward (insert (new (K := Int) (V := Int) 2) 1 10 1).1.nodes
              (predL (new (K := Int) (V := Int) 2) [] 1 lvl) lvl
            = some (new (K := Int) (V := Int) 2).nodes.length)
      ∧ (∀ lvl, max 1 1 ≤ lvl →
          getForward (insert (new (K := Int) (V := Int) 2) 1 10 1).1.nodes
              (new (K := Int) (V := Int) 2).nodes.length lvl
            = none
          ∧ (∀ q, q ≠ (new (K := Int) (V := Int) 2).nodes.length →
              getForward (insert (new (K := Int) (V := Int) 2) 1 10 1).1.nodes
                  q lvl
                = getForward (new (K := Int) (V := Int) 2).nodes q lvl))
      ∧ 0 < max 1 1) := by
  have hG0 : Good (new (K := Int) (V := Int) 2) [] := good_new 2 (by decide)
  exact ⟨⟨hG0, by simp, by decide⟩,
    C3_splice_levels hG0 1 10 1 (by simp) (by decide)⟩

/-- Counterexample to C3 as stated: inserting key 1 with generated height 1
into the empty `Int` map (`max_height = 2`, head at arena index 0, new node
at arena index 1).  The claim requires a splice at every level `0 ..= 1`, so
the head's level-1 pointer should be redirected to the new node; the code's
splice range `0 .. max(1, 1) - 1 = {0}` leaves it null, while level 0 is
spliced. -/
theorem C3_counterexample :
    getForward ((insert (new (K := Int) (V := Int) 2) 1 10 1).1).nodes 0 1
        ≠ some 1
      ∧ getForward ((insert (new (K := Int) (V := Int) 2) 1 10 1).1).nodes 0 0
        = some 1 := by
  decide

/-- C4 (corrected): the predecessor search walks from the sentinel head,
descending from level `max(realized_height, 1) - 1` (the source's `max`; the
specification's `min(realized_height, 1) - 1` is refuted separately) down to
level 0, at each level advancing while the next node exists and its key is
strictly below the target; the updates vector records per level the last
node visited, its entries above the levels touched by the loop stay at the
sentinel default, the returned level-0 predecessor's successor is the first
live node with key not below the target (and is minimal among such), and the
read-only variant returns the same level-0 predecessor. -/
theorem C4_predecessor_search {K V : Type} [LinearOrder K] [Inhabited K]
    [Inhabited V] {s : SkipListMap K V} {ids : List Nat} (hG : Good s ids)
    (key : K) :
    (find_lower_bound_with_updates s key).1 = predL s ids key 0
    ∧ (find_lower_bound_with_updates s key).2.length = s.maxHeight_
    ∧ (∀ lvl, lvl < s.maxHeight_ →
        (find_lower_bound_with_updates s key).2.get? lvl
          = some (predL s ids key lvl))
    ∧ (∀ lvl, s.height_ < lvl → lvl < s.maxHeight_ →
        (find_lower_bound_with_updates s key).2.get? lvl = some s.head_)
    ∧ nextPtr s (find_lower_bound_with_updates s key).1 0 = firstGE s ids key
    ∧ find_lower_bound s key = predL s ids key 0
    ∧ (∀ nx, firstGE s ids key = some nx →
        ¬ keyA s.nodes nx < key ∧ nx ∈ ids
          ∧ (∀ id ∈ ids, ¬ keyA s.nodes id < key →
              keyA s.nodes nx ≤ keyA s.nodes id)) := by
  have hspec := find_lower_bound_with_updates_spec hG key
  refine ⟨hspec.1, hspec.2.1, fun lvl h => hspec.2.2 lvl h, ?_, ?_, ?_, ?_⟩
  · intro lvl h1 h2
    rw [hspec.2.2 lvl h2, predL_high hG key (by omega)]
  · rw [hspec.1]
    exact nextPtr_predL0 hG key
  · exact find_lower_bound_spec hG key
  · intro nx hnx
    have hf := @firstGE_spec K V _ _ _ s ids key nx hnx
    refine ⟨hf.1, hf.2, ?_⟩
    intro id hid hidge
    have hD := head?_dropWhile_cons ids (keyLt s key) hnx
    have hidD : id ∈ ids.dropWhile (keyLt s key) := by
      have hsplit : id ∈ ids.takeWhile (keyLt s key)
          ++ ids.dropWhile (keyLt s key) := by
        rw [List.takeWhile_append_dropWhile]
        exact hid
      rcases List.mem_append.mp hsplit with h | h
      · exfalso
        have : keyA s.nodes id < key := by
          simpa [keyLt] using List.mem_takeWhile_imp h
        exact hidge this
      · exact h
    rw [hD] at hidD
    rcases List.mem_cons.mp hidD with h | h
    · rw [h]
    · have hsd : (ids.dropWhile (keyLt s key)).Pairwise
          (fun a b => keyA s.nodes a < keyA s.nodes b) :=
        hG.sorted.sublist (List.dropWhile_sublist _)
      rw [hD] at hsd
      exact le_of_lt ((List.pairwise_cons.mp hsd).1 id h)

/-- Witness for C4: the single-binding `Int` state (`10 ↦ 100`, node height
2, `max_height = 3`) searched for key 20. -/
theorem C4_predecessor_search_witness :
    Good ((insert (new (K := Int) (V := Int) 3) 10 100 2).1) [1]
    ∧ ((find_lower_bound_with_updates
          ((insert (new (K := Int) (V := Int) 3) 10 100 2).1) 20).1
        = predL ((insert (new (K := Int) (V := Int) 3) 10 100 2).1) [1] 20 0
      ∧ (find_lower_bound_with_updates
          ((insert (new (K := Int) (V := Int) 3) 10 100 2).1) 20).2.length
        = ((insert (new (K := Int) (V := Int) 3) 10 100 2).1).maxHeight_
      ∧ (∀ lvl, lvl
            < ((insert (new (K := Int) (V := Int) 3) 10 100 2).1).maxHeight_ →
          (find_lower_bound_with_updates
            ((insert (new (K := Int) (V := Int) 3) 10 100 2).1) 20).2.get? lvl
            = some (predL ((insert (new (K := Int) (V := Int) 3) 10 100 2).1)
                [1] 20 lvl))
      ∧ (∀ lvl, ((insert (new (K := Int) (V := Int) 3) 10 100 2).1).height_
            < lvl →
          lvl < ((insert (new (K := Int) (V := Int) 3) 10 100 2).1).maxHeight_ →
          (find_lower_bound_with_updates
            ((insert (new (K := Int) (V := Int) 3) 10 100 2).1) 20).2.get? lvl
            = some ((insert (new (K := Int) (V := Int) 3) 10 100 2).1).head_)
      ∧ nextPtr ((insert (new (K := Int) (V := Int) 3) 10 100 2).1)
          (find_lower_bound_with_updates
            ((insert (new (K := Int) (V := Int) 3) 10 100 2).1) 20).1 0
        = firstGE ((insert (new (K := Int) (V := Int) 3) 10 100 2).1) [1] 20
      ∧ find_lower_bound ((insert (new (K := Int) (V := Int) 3) 10 100 2).1) 20
        = predL ((insert (new (K := Int) (V := Int) 3) 10 100 2).1) [1] 20 0
      ∧ (∀ nx, firstGE ((insert (new (K := Int) (V := Int) 3) 10 100 2).1)
            [1] 20 = some nx →
          ¬ keyA ((insert (new (K := Int) (V := Int) 3) 10 100 2).1).nodes nx
              < 20
            ∧ nx ∈ [1]
            ∧ (∀ id ∈ [1],
                ¬ keyA ((insert (new (K := Int) (V := Int) 3) 10 100 2).1).nodes
                    id < 20 →
                keyA ((insert (new (K := Int) (V := Int) 3) 10 100 2).1).nodes
                    nx
                  ≤ keyA ((insert (new (K := Int) (V := Int) 3) 10 100 2).1).nodes
                      id))) :=
  ⟨good_one, C4_predecessor_search good_one 20⟩

/-- Counterexample to C4 as stated: on the single-binding state (key 10 at
node height 2, realized height 2), searching for key 20, the specified level
loop from `min(realized_height, 1) - 1 = 0` would record the predecessor
only at level 0 and leave level 1 at the sentinel, whereas the source's loop
from `max(realized_height, 1) - 1 = 1` records node 1 at both levels: the
two updates vectors differ. -/
theorem C4_counterexample :
    find_lower_bound_with_updates
        ((insert (new (K := Int) (V := Int) 3) 10 100 2).1) 20
      ≠ find_lower_bound_with_updates_claimed
        ((insert (new (K := Int) (V := Int) 3) 10 100 2).1) 20 := by
  decide

/-- C5 (corrected): inserting an already-present key replaces the stored
value, returns the old value, changes no forward pointer, leaves `len()` and
the realized height unchanged, and a subsequent `get` returns the new value;
however, the height generator's `get_height` IS invoked on a duplicate-key
update — the source calls it unconditionally before the search — so after
any `insert` (duplicate or not) the controller is in the state produced by
exactly one `get_height` call, contrary to the claim that no new height is
generated. -/
theorem C5_duplicate_insert {K V : Type} [LinearOrder K] [Inhabited K]
    [Inhabited V] {s : SkipListMap K V} {ids : List Nat} (hG : Good s ids)
    (key : K) (value : V) (height : Nat)
    (hk : key ∈ ids.map (keyA s.nodes)) :
    (∃ w, (insert s key value height).2 = some w ∧ get s key = some w)
    ∧ get (insert s key value height).1 key = some value
    ∧ len (insert s key value height).1 = len s
    ∧ (insert s key value height).1.height_ = s.height_
    ∧ (∀ q lvl, getForward (insert s key value height).1.nodes q lvl
        = getForward s.nodes q lvl)
    ∧ (∀ k2, k2 ≠ key → get (insert s key value height).1 k2 = get s k2)
    ∧ (∀ (G : Type) (hc : HeightControl G K) (g : G),
        (@insertG K V G _ _ _ hc ⟨s, g⟩ key value).1.controller_
          = (@HeightControl.get_height G K hc g key).2) := by
  have h := insert_dup_core hG key value height hk
  exact ⟨h.1, h.2.1, h.2.2.1, h.2.2.2.1, h.2.2.2.2.1, h.2.2.2.2.2,
    fun G hc g => rfl⟩

/-- Witness for C5: re-inserting key 10 (with value 7, height 1) into the
single-binding `Int` state that already maps 10 to 100. -/
theorem C5_duplicate_insert_witness :
    (Good ((insert (new (K := Int) (V := Int) 3) 10 100 2).1) [1]
      ∧ (10 : Int) ∈ [1].map
          (keyA ((insert (new (K := Int) (V := Int) 3) 10 100 2).1).nodes))
    ∧ ((∃ w, (insert ((insert (new (K := Int) (V := Int) 3) 10 100 2).1)
            10 7 1).2 = some w
          ∧ get ((insert (new (K := Int) (V := Int) 3) 10 100 2).1) 10
            = some w)
      ∧ get (insert ((insert (new (K := Int) (V := Int) 3) 10 100 2).1)
            10 7 1).1 10 = some 7
      ∧ len (insert ((insert (new (K := Int) (V := Int) 3) 10 100 2).1)
            10 7 1).1
        = len ((insert (new (K := Int) (V := Int) 3) 10 100 2).1)
      ∧ (insert ((insert (new (K := Int) (V := Int) 3) 10 100 2).1)
            10 7 1).1.height_
        = ((insert (new (K := Int) (V := Int) 3) 10 100 2).1).height_
      ∧ (∀ q lvl, getForward
            (insert ((insert (new (K := Int) (V := Int) 3) 10 100 2).1)
              10 7 1).1.nodes q lvl
          = getForward
              ((insert (new (K := Int) (V := Int) 3) 10 100 2).1).nodes q lvl)
      ∧ (∀ k2, k2 ≠ (10 : Int) →
          get (insert ((insert (new (K := Int) (V := Int) 3) 10 100 2).1)
              10 7 1).1 k2
            = get ((insert (new (K := Int) (V := Int) 3) 10 100 2).1) k2)
      ∧ (∀ (G : Type) (hc : HeightControl G Int) (g : G),
          (@insertG Int Int G _ _ _ hc
              ⟨(insert (new (K := Int) (V := Int) 3) 10 100 2).1, g⟩
              10 7).1.controller_
            = (@HeightControl.get_height G Int hc g 10).2)) :=
  ⟨⟨good_one, by decide⟩, C5_duplicate_insert good_one 10 7 1 (by decide)⟩

/-- Counterexample to C5 as stated: with a counting height controller
(`max_height = 2`) attached to an `Int` map already containing key 5,
re-inserting key 5 returns the old value 7 — a duplicate-key update — yet
the controller's call counter has advanced from 0 to 1: `next_height` WAS
called on the duplicate-key update. -/
theorem C5_counterexample :
    (insertG (K := Int) (V := Int)
        ⟨(insert (new (K := Int) (V := Int) 2) 5 7 0).1,
          (⟨0, 2⟩ : CountingGen)⟩ 5 9).2 = some 7
      ∧ (insertG (K := Int) (V := Int)
          ⟨(insert (new (K := Int) (V := Int) 2) 5 7 0).1,
            (⟨0, 2⟩ : CountingGen)⟩ 5 9).1.controller_.calls = 1 := by
  decide

/-- C6 (corrected): the range iterator yields exactly the key-value pairs
whose keys lie within the bounds, in ascending key order, only under the
side condition `upperCompat` on the upper bound together with the condition
that the computed first node already satisfies the upper bound.  Without
them the iterator misbehaves (see the counterexample): `Range::next` yields
its current node before any bound check, an inclusive upper bound whose key
is absent overshoots to the successor, and an exclusive upper bound with no
strictly smaller key compares against the ghost head's uninitialized key. -/
theorem C6_range_bounds {K V : Type} [LinearOrder K] [Inhabited K]
    [Inhabited V] {s : SkipListMap K V} {ids : List Nat} (hG : Good s ids)
    (lo hi : RBound K) (hup : upperCompat s ids lo hi)
    (hstart : ∀ p, rangeStart s lo = some p →
      inUpper hi (keyA s.nodes p) = true) :
    rangeList s lo hi
      = (ids.filter (fun id =>
          inLower lo (keyA s.nodes id) && inUpper hi (keyA s.nodes id))).map
        (fun id => (keyA s.nodes id, valA s.nodes id))
    ∧ ((rangeList s lo hi).map Prod.fst).Pairwise (fun a b => a < b) := by
  have h1 := range_spec hG lo hi hup hstart
  refine ⟨h1, ?_⟩
  rw [h1, List.map_map]
  have hsub : (ids.filter (fun id =>
      inLower lo (keyA s.nodes id) && inUpper hi (keyA s.nodes id))).Pairwise
        (fun a b => keyA s.nodes a < keyA s.nodes b) :=
    hG.sorted.sublist (List.filter_sublist _)
  exact List.pairwise_map.mpr hsub

/-- Witness for C6: the single-binding `Int` state (`10 ↦ 100`) queried with
the range `[5, 20)`, which satisfies both side conditions. -/
theorem C6_range_bounds_witness :
    (Good ((insert (new (K := Int) (V := Int) 3) 10 100 2).1) [1]
      ∧ upperCompat ((insert (new (K := Int) (V := Int) 3) 10 100 2).1) [1]
          (RBound.included (5 : Int)) (RBound.excluded (20 : Int))
      ∧ (∀ p, rangeStart ((insert (new (K := Int) (V := Int) 3) 10 100 2).1)
            (RBound.included (5 : Int)) = some p →
          inUpper (RBound.excluded (20 : Int))
              (keyA ((insert (new (K := Int) (V := Int) 3) 10 100 2).1).nodes
                p)
            = true))
    ∧ (rangeList ((insert (new (K := Int) (V := Int) 3) 10 100 2).1)
          (RBound.included (5 : Int)) (RBound.excluded (20 : Int))
        = ([1].filter (fun id =>
            inLower (RBound.included (5 : Int))
                (keyA ((insert (new (K := Int) (V := Int) 3)
                  10 100 2).1).nodes id)
              && inUpper (RBound.excluded (20 : Int))
                (keyA ((insert (new (K := Int) (V := Int) 3)
                  10 100 2).1).nodes id))).map
          (fun id =>
            (keyA ((insert (new (K := Int) (V := Int) 3) 10 100 2).1).nodes id,
             valA ((insert (new (K := Int) (V := Int) 3) 10 100 2).1).nodes id))
      ∧ ((rangeList ((insert (new (K := Int) (V := Int) 3) 10 100 2).1)
            (RBound.included (5 : Int)) (RBound.excluded (20 : Int))).map
          Prod.fst).Pairwise (fun a b => a < b)) := by
  have hup : upperCompat ((insert (new (K := Int) (V := Int) 3) 10 100 2).1)
      [1] (RBound.included (5 : Int)) (RBound.excluded (20 : Int)) :=
    Or.inl ⟨1, by decide, by decide⟩
  have hstart : ∀ p,
      rangeStart ((insert (new (K := Int) (V := Int) 3) 10 100 2).1)
        (RBound.included (5 : Int)) = some p →
      inUpper (RBound.excluded (20 : Int))
          (keyA ((insert (new (K := Int) (V := Int) 3) 10 100 2).1).nodes p)
        = true := by
    intro p hp
    have h1 : rangeStart ((insert (new (K := Int) (V := Int) 3) 10 100 2).1)
        (RBound.included (5 : Int)) = some 1 := by decide
    rw [h1] at hp
    have h2 : (1 : Nat) = p := Option.some.inj hp
    subst h2
    decide
  exact ⟨⟨good_one, hup, hstart⟩, C6_range_bounds good_one _ _ hup hstart⟩

/-- Counterexample to C6 as stated: over the `Int` map holding keys 1 and 3,
the full range with upper bound `Included 2` yields the pairs `(1, 10)` and
`(3, 30)` — including key 3, which is outside the bound (`3 ≤ 2` is false).
The upper-bound node search overshoots when the bound's key is absent, and
`Range::next` yields its current node before any comparison. -/
theorem C6_counterexample :
    rangeList
        ((insert ((insert (new (K := Int) (V := Int) 4) 1 10 0).1) 3 30 0).1)
        RBound.unbounded (RBound.included 2)
      = [(1, 10), (3, 30)]
    ∧ inUpper (RBound.included (2 : Int)) 3 = false := by
  decide

/-- C7: for every key `k` not currently in the container and every value
`v`, immediately after `insert(k, v)` (with any well-formed generated
height) `get(&k)` returns the new value, `contains(&k)` returns true, and
`len()` has increased by exactly one. -/
theorem C7_insert_get_roundtrip {K V : Type} [LinearOrder K] [Inhabited K]
    [Inhabited V] {s : SkipListMap K V} {ids : List Nat} (hG : Good s ids)
    (key : K) (value : V) (height : Nat)
    (hk : key ∉ ids.map (keyA s.nodes)) (hh : height ≤ s.maxHeight_) :
    get (insert s key value height).1 key = some value
    ∧ contains_key (insert s key value height).1 key = true
    ∧ len (insert s key value height).1 = len s + 1 := by
  have h := insert_fresh_spec hG key value height hk hh
  exact ⟨h.2.1, h.2.2.1, h.2.2.2.1⟩

/-- Witness for C7: inserting key 4 with value 44 (height 0) into the empty
`Int` map with `max_height = 2`. -/
theorem C7_insert_get_roundtrip_witness :
    (Good (new (K := Int) (V := Int) 2) []
      ∧ ((4 : Int)
          ∉ ([] : List Nat).map (keyA (new (K := Int) (V := Int) 2).nodes))
      ∧ 0 ≤ (new (K := Int) (V := Int) 2).maxHeight_)
    ∧ (get (insert (new (K := Int) (V := Int) 2) 4 44 0).1 4 = some 44
      ∧ contains_key (insert (new (K := Int) (V := Int) 2) 4 44 0).1 4 = true
      ∧ len (insert (new (K := Int) (V := Int) 2) 4 44 0).1
        = len (new (K := Int) (V := Int) 2) + 1) := by
  have hG0 : Good (new (K := Int) (V := Int) 2) [] := good_new 2 (by decide)
  exact ⟨⟨hG0, by simp, by decide⟩,
    C7_insert_get_roundtrip hG0 4 44 0 (by simp) (by decide)⟩

/-- C8: removing a key that is not present returns `None` and leaves the
container completely unchanged (the returned state is the input state, so in
particular `len()` is unchanged); consequently removing the same key twice
in a row makes the second call report not-found. -/
theorem C8_remove_idempotent {K V : Type} [LinearOrder K] [Inhabited K]
    [Inhabited V] {s : SkipListMap K V} {ids : List Nat} (hG : Good s ids)
    (key : K) :
    (key ∉ ids.map (keyA s.nodes) → remove s key = (s, none))
    ∧ (remove (remove s key).1 key).2 = none :=
  ⟨fun hk => remove_eq_miss hG key hk, remove_remove_none hG key⟩

/-- Witness for C8: the single-binding `Int` state (`10 ↦ 100`) with key 10
removed twice. -/
theorem C8_remove_idempotent_witness :
    Good ((insert (new (K := Int) (V := Int) 3) 10 100 2).1) [1]
    ∧ (((10 : Int) ∉ [1].map
          (keyA ((insert (new (K := Int) (V := Int) 3) 10 100 2).1).nodes) →
        remove ((insert (new (K := Int) (V := Int) 3) 10 100 2).1) 10
          = ((insert (new (K := Int) (V := Int) 3) 10 100 2).1, none))
      ∧ (remove (remove ((insert (new (K := Int) (V := Int) 3) 10 100 2).1)
          10).1 10).2 = none) :=
  ⟨good_one, C8_remove_idempotent good_one 10⟩

/-- C9: `clear()` produces, literally, the state a fresh construction with
the same cached `max_height` produces, so it is observationally equivalent
to destroying and reconstructing the container: afterwards `len() = 0`,
`is_empty()` is true, the realized height is 0, iteration yields nothing,
and every subsequent operation computes exactly what it computes on a
freshly constructed container. -/
theorem C9_clear_equiv {K V : Type} [LinearOrder K] [Inhabited K]
    [Inhabited V] (s : SkipListMap K V) :
    clear s = new s.maxHeight_
    ∧ len (clear s) = 0
    ∧ is_empty (clear s) = true
    ∧ (clear s).height_ = 0
    ∧ iterList (clear s) = []
    ∧ (∀ key, get (clear s) key
        = get (new (K := K) (V := V) s.maxHeight_) key)
    ∧ (∀ key value height, insert (clear s) key value height
        = insert (new s.maxHeight_) key value height)
    ∧ (∀ key, remove (clear s) key = remove (new s.maxHeight_) key) := by
  have h : clear s = new (K := K) (V := V) s.maxHeight_ := rfl
  have hiter : iterList (new (K := K) (V := V) s.maxHeight_) = [] := by
    unfold iterList
    have hnp : nextPtr (new (K := K) (V := V) s.maxHeight_)
        (new (K := K) (V := V) s.maxHeight_).head_ 0 = none := by
      show getForward (new (K := K) (V := V) s.maxHeight_).nodes 0 0 = none
      rw [getForward_eq]
      have h2 : nodeA (new (K := K) (V := V) s.maxHeight_).nodes 0
          = allocate_dummy_node s.maxHeight_ := rfl
      rw [h2, dummy_next]
    rw [hnp]
    rfl
  exact ⟨h, rfl, rfl, rfl, by rw [h, hiter], fun key => by rw [h],
    fun key value height => by rw [h], fun key => by rw [h]⟩

/-- C10: an `insert(k, v)` (with any well-formed height) or a `remove(&k)`
leaves `get(&k')` — and hence `contains(&k')` — unchanged for every other
key `k' ≠ k`: mutations affect only the mapping of the key they name. -/
theorem C10_frame {K V : Type} [LinearOrder K] [Inhabited K] [Inhabited V]
    {s : SkipListMap K V} {ids : List Nat} (hG : Good s ids) (k k2 : K)
    (hne : k2 ≠ k) (v : V) (h : Nat) (hh : h ≤ s.maxHeight_) :
    get (insert s k v h).1 k2 = get s k2
    ∧ contains_key (insert s k v h).1 k2 = contains_key s k2
    ∧ get (remove s k).1 k2 = get s k2
    ∧ contains_key (remove s k).1 k2 = contains_key s k2 := by
  have hins : get (insert s k v h).1 k2 = get s k2 := by
    by_cases hk : k ∈ ids.map (keyA s.nodes)
    · exact (insert_dup_core hG k v h hk).2.2.2.2.2 k2 hne
    · exact (insert_fresh_spec hG k v h hk hh).2.2.2.2 k2 hne
  have hrem : get (remove s k).1 k2 = get s k2 := by
    by_cases hk : k ∈ ids.map (keyA s.nodes)
    · exact (remove_found_spec hG k hk).2.2.2.1 k2 hne
    · rw [remove_eq_miss hG k hk]
  exact ⟨hins, by unfold contains_key; rw [hins], hrem,
    by unfold contains_key; rw [hrem]⟩

/-- Witness for C10: on the single-binding `Int` state (`10 ↦ 100`),
inserting key 10 (value 5, height 1) and removing key 10 both leave
`get`/`contains` at key 3 unchanged. -/
theorem C10_frame_witness :
    (Good ((insert (new (K := Int) (V := Int) 3) 10 100 2).1) [1]
      ∧ (3 : Int) ≠ 10
      ∧ 1 ≤ ((insert (new (K := Int) (V := Int) 3) 10 100 2).1).maxHeight_)
    ∧ (get (insert ((insert (new (K := Int) (V := Int) 3) 10 100 2).1)
          10 5 1).1 3
        = get ((insert (new (K := Int) (V := Int) 3) 10 100 2).1) 3
      ∧ contains_key (insert ((insert (new (K := Int) (V := Int) 3)
          10 100 2).1) 10 5 1).1 3
        = contains_key ((insert (new (K := Int) (V := Int) 3) 10 100 2).1) 3
      ∧ get (remove ((insert (new (K := Int) (V := Int) 3) 10 100 2).1)
          10).1 3
        = get ((insert (new (K := Int) (V := Int) 3) 10 100 2).1) 3
      ∧ contains_key (remove ((insert (new (K := Int) (V := Int) 3)
          10 100 2).1) 10).1 3
        = contains_key ((insert (new (K := Int) (V := Int) 3) 10 100 2).1)
            3) :=
  ⟨⟨good_one, by decide, by decide⟩,
    C10_frame good_one 10 3 (by decide) 5 1 (by decide)⟩

end Claims

end SkipVerify
